import Mathlib

/-!
A Lean model of the tsqn library: the update engine (`transform.ts`), the
select engine (`select.ts`), the predicate evaluator (`predicate.ts`, both
snapshots), undo, and JSON serialization of statements.

Modelling conventions:
* JS values are the inductive `Value`.  Numbers are modelled as integers
  (no float-specific behaviour is relevant to the properties below).
* JS arrays are a list of optional elements (`none` models a hole of a
  sparse array, `some Value.undef` an explicitly stored `undefined`)
  together with the array's non-index string properties.
* Records keep their fields as an insertion-ordered association list.
* In-place mutation is modelled by state passing: functions that mutate
  `data` return the new value of `data`.
* Statements are function-free (transform functions and function WHERE
  clauses are host-language callbacks, not data); predicate WHERE clauses
  are modelled in full.  Select WHERE clauses may be Lean functions.
* The regular-expression engine is external to the library; predicate
  evaluation is parameterised by a test function `rx`.
-/

namespace Tsqn

/-- A JS runtime value. `arr es ps` is an array with element slots `es`
(`none` = hole) and extra non-index string properties `ps`. -/
inductive Value where
  | undef : Value
  | null : Value
  | bool : Bool → Value
  | num : Int → Value
  | str : String → Value
  | arr : List (Option Value) → List (String × Value) → Value
  | obj : List (String × Value) → Value
deriving Repr, Inhabited

namespace Value

/-- `typeof v === "object" && v !== null` (arrays included). -/
def isContainer : Value → Bool
  | arr _ _ => true
  | obj _ => true
  | _ => false

/-- JS truthiness. -/
def jsTruthy : Value → Bool
  | undef => false
  | null => false
  | bool b => b
  | num n => n ≠ 0
  | str s => s ≠ ""
  | arr _ _ => true
  | obj _ => true

end Value

/-- Association list lookup (first match), mirroring JS property lookup. -/
def alookup {α : Type} : List (String × α) → String → Option α
  | [], _ => none
  | (k, v) :: rest, key => if k = key then some v else alookup rest key

/-- Association list update: replace in place if present, else append.
Mirrors JS property assignment (insertion order kept on overwrite). -/
def aset {α : Type} : List (String × α) → String → α → List (String × α)
  | [], key, v => [(key, v)]
  | (k, w) :: rest, key, v =>
    if k = key then (k, v) :: rest else (k, w) :: aset rest key v

/-- Association list deletion, mirroring JS `delete`. -/
def adel {α : Type} : List (String × α) → String → List (String × α)
  | [], _ => []
  | (k, w) :: rest, key =>
    if k = key then adel rest key else (k, w) :: adel rest key

/-- Keys of an association list. -/
def akeys {α : Type} (l : List (String × α)) : List String := l.map (·.1)

/-- Ascending insertion sort (structural, hence computable in proofs). -/
def insertAsc (n : Nat) : List Nat → List Nat
  | [] => [n]
  | m :: rest => if n ≤ m then n :: m :: rest else m :: insertAsc n rest

def sortAsc : List Nat → List Nat
  | [] => []
  | n :: rest => insertAsc n (sortAsc rest)

/-- Decimal value of a digit string. -/
def digitsVal (cs : List Char) : Nat :=
  cs.foldl (fun acc c => acc * 10 + (c.toNat - '0'.toNat)) 0

/-- The character of a decimal digit. -/
def digitChar (d : Nat) : Char := Char.ofNat (48 + d)

/-- Little-endian decimal digits (fuel-bounded division loop). -/
def natDigitsRev : Nat → Nat → List Char
  | 0, _ => []
  | fuel + 1, n => if n < 10 then [digitChar n] else digitChar (n % 10) :: natDigitsRev fuel (n / 10)

/-- `String(n)` for a natural number (the model's canonical rendering). -/
def natToStr (n : Nat) : String := String.mk ((natDigitsRev (n + 1) n).reverse)

/-- `String(i)` for an integer. -/
def intToStr (i : Int) : String :=
  if i < 0 then "-" ++ natToStr i.natAbs else natToStr i.toNat

/-- Whitespace-trimming over the character list (the JS `ToNumber` /
`parseInt` whitespace skip). -/
def trimJS (s : String) : String :=
  String.mk ((s.data.dropWhile Char.isWhitespace).reverse.dropWhile Char.isWhitespace).reverse

/-- Whether `s` is the canonical string of a natural number, i.e. a valid
JS array index (`String(n) === s` with `0 ≤ n < 2^32 - 1`). -/
def canonIndex (s : String) : Option Nat :=
  match s.data with
  | [] => none
  | cs =>
    if cs.all Char.isDigit then
      let n := digitsVal cs
      if natToStr n = s ∧ n < 2 ^ 32 - 1 then some n else none
    else none

/-- Whether `s` matches the update engine's numeric-key test `/^-?\d+$/`. -/
def isNumericKey (s : String) : Bool :=
  match s.data with
  | [] => false
  | '-' :: rest => rest ≠ [] ∧ rest.all Char.isDigit
  | cs => cs.all Char.isDigit

/-- `parseInt(s, 10)` restricted to strings accepted by `/^-?\d+$/`. -/
def parseNumericKey (s : String) : Int :=
  match s.data with
  | '-' :: rest => -(digitsVal rest : Int)
  | cs => (digitsVal cs : Int)

namespace Value

/-- Reading `data[key]`: absent keys and array holes read as `undefined`.
Property access on primitives yields `undefined` (the engines only read
properties of containers except in corners noted at use sites). -/
def jsGet : Value → String → Value
  | obj fs, key => (alookup fs key).getD undef
  | arr es ps, key =>
    match canonIndex key with
    | some i => ((es.getD i none).getD undef)
    | none => (alookup ps key).getD undef
  | _, _ => undef

/-- Whether `key in v` holds (presence, not truthiness). -/
def jsHas : Value → String → Bool
  | obj fs, key => (alookup fs key).isSome
  | arr es ps, key =>
    match canonIndex key with
    | some i => (es.getD i none).isSome
    | none => (alookup ps key).isSome
  | _, _ => false

/-- Writing `data[key] = v`.  On arrays a canonical index writes the slot,
extending with holes when beyond the current length; other keys become
string properties.  Assignment on a primitive receiver is modelled as a
no-op (the engines only assign into containers on the paths the theorems
below exercise). -/
def jsSet : Value → String → Value → Value
  | obj fs, key, v => obj (aset fs key v)
  | arr es ps, key, v =>
    match canonIndex key with
    | some i =>
      if i < es.length then arr (es.set i (some v)) ps
      else arr (es ++ List.replicate (i - es.length) none ++ [some v]) ps
    | none => arr es (aset ps key v)
  | d, _, _ => d

/-- `delete data[key]`: removes a record field or string property; on an
in-range array index it leaves a hole (length unchanged). -/
def jsDelete : Value → String → Value
  | obj fs, key => obj (adel fs key)
  | arr es ps, key =>
    match canonIndex key with
    | some i => if i < es.length then arr (es.set i none) ps else arr es ps
    | none => arr es (adel ps key)
  | d, _ => d

/-- The keys `for (const key in v)` iterates: array index keys in ascending
order first, then string properties / record fields in insertion order
(integer-like record keys are hoisted first, as JS does). -/
def forInKeys : Value → List String
  | arr es ps =>
    ((List.range es.length).filter (fun i => (es.getD i none).isSome)).map natToStr
      ++ akeys ps
  | obj fs =>
    let ks := akeys fs
    (sortAsc (ks.filterMap canonIndex)).map natToStr
      ++ ks.filter (fun k => (canonIndex k).isNone)
  | _ => []

end Value

/-! ## JS primitive operator semantics (===, ==, <, ToString, ToNumber) -/

/-- JS strict equality `===` on model values.  Two containers are never
strictly equal here: in the function-free fragment a statement operand and
a data value are distinct heap objects, so reference equality is false. -/
def jsStrictEq : Value → Value → Bool
  | .undef, .undef => true
  | .null, .null => true
  | .bool a, .bool b => a == b
  | .num a, .num b => a == b
  | .str a, .str b => a == b
  | _, _ => false

mutual
/-- JS `ToString` (arrays join their elements, records print as
`[object Object]`). -/
def toStringV : Value → String
  | .undef => "undefined"
  | .null => "null"
  | .bool b => cond b "true" "false"
  | .num n => intToStr n
  | .str s => s
  | .obj _ => "[object Object]"
  | .arr es _ => joinElems es

/-- `Array.prototype.join(",")`: holes, `null` and `undefined` print empty. -/
def joinElems : List (Option Value) → String
  | [] => ""
  | [o] => elemStr o
  | o :: rest => elemStr o ++ "," ++ joinElems rest

def elemStr : Option Value → String
  | none => ""
  | some .undef => ""
  | some .null => ""
  | some v => toStringV v
end

/-- JS `ToNumber` on strings, restricted to the integral fragment of the
model: optionally signed decimal digits (blank trims to 0); anything else
is NaN, encoded as `none`. -/
def strToNumber (s : String) : Option Int :=
  let t := trimJS s
  if t = "" then some 0
  else match t.data with
    | '-' :: rest =>
      if rest ≠ [] ∧ rest.all Char.isDigit then some (-(digitsVal rest : Int)) else none
    | '+' :: rest =>
      if rest ≠ [] ∧ rest.all Char.isDigit then some ((digitsVal rest : Int)) else none
    | cs => if cs.all Char.isDigit then some ((digitsVal cs : Int)) else none

/-- JS `ToNumber`; `none` is NaN.  Containers go through `ToPrimitive`,
which for plain arrays/records yields their `ToString`. -/
def toNumber : Value → Option Int
  | .undef => none
  | .null => some 0
  | .bool b => some (cond b 1 0)
  | .num n => some n
  | .str s => strToNumber s
  | v => strToNumber (toStringV v)

/-- `ToPrimitive` with number hint: containers become their string form. -/
def toPrimN : Value → Value
  | .arr es ps => .str (toStringV (.arr es ps))
  | .obj fs => .str (toStringV (.obj fs))
  | v => v

/-- Booleans coerce to numbers first under `==` (ECMA 7.2.14 steps 9/10). -/
def deBool : Value → Value
  | .bool b => .num (cond b 1 0)
  | v => v

def looseEqCore : Value → Value → Bool
  | .undef, .undef => true
  | .undef, .null => true
  | .null, .undef => true
  | .null, .null => true
  | .undef, _ => false
  | .null, _ => false
  | _, .undef => false
  | _, .null => false
  | .num a, .num b => a == b
  | .str a, .str b => a == b
  | .num a, .str s => strToNumber s == some a
  | .str s, .num a => strToNumber s == some a
  | .num a, v => strToNumber (toStringV v) == some a
  | v, .num a => strToNumber (toStringV v) == some a
  | .str s, v => toStringV v == s
  | v, .str s => toStringV v == s
  | _, _ => false

/-- JS loose equality `==` (within the model's integral-number fragment).
Container-vs-container compares references, hence false here. -/
def looseEq (a b : Value) : Bool := looseEqCore (deBool a) (deBool b)

/-- JS `a < b` (abstract relational comparison, NaN yields false). -/
def jsLess (a b : Value) : Bool :=
  match toPrimN a, toPrimN b with
  | .str s, .str t => decide (s < t)
  | x, y =>
    match toNumber x, toNumber y with
    | some m, some n => decide (m < n)
    | _, _ => false

/-- JS `a <= b` (false when either side is NaN). -/
def jsLessEq (a b : Value) : Bool :=
  match toPrimN a, toPrimN b with
  | .str s, .str t => decide (¬ t < s)
  | x, y =>
    match toNumber x, toNumber y with
    | some m, some n => decide (m ≤ n)
    | _, _ => false

/-- `parseInt(s, 10)`: maximal signed digit prefix of the trimmed string,
NaN (`none`) when no digits lead. -/
def parseIntJS (s : String) : Option Int :=
  let t := trimJS s
  let core : List Char → Option Int := fun cs =>
    match cs.takeWhile Char.isDigit with
    | [] => none
    | ds => some ((digitsVal ds : Int))
  match t.data with
  | '-' :: rest => (core rest).map (-·)
  | '+' :: rest => core rest
  | cs => core cs

mutual
/-- Computable node count of a value (used only to furnish fuel). -/
def sizeV : Value → Nat
  | .arr es ps => 1 + sizeElemsV es + sizeFieldsV ps
  | .obj fs => 1 + sizeFieldsV fs
  | _ => 1

def sizeElemsV : List (Option Value) → Nat
  | [] => 0
  | none :: rest => 1 + sizeElemsV rest
  | some v :: rest => 1 + sizeV v + sizeElemsV rest

def sizeFieldsV : List (String × Value) → Nat
  | [] => 0
  | (_, v) :: rest => 1 + sizeV v + sizeFieldsV rest
end

/-! ## Predicates (`src/src/predicate.ts`) -/

/-- A function-free predicate tree.  `lit` is a literal (primitive)
comparison, `por` an array (logical OR), `node` a record whose reserved
symbol keys are the optional operator slots and whose string keys are the
`fields` sub-predicates.  A reserved key holding `undefined` is not
representable (JS treats it as absent). -/
inductive Pred where
  | lit : Value → Pred
  | por : List Pred → Pred
  | node : (eqv neqv : Option Value) → (notp : Option Pred) →
      (ltv gtv ltev gtev : Option Value) → (matchs : Option String) →
      (allp somep : Option Pred) → (fields : List (String × Pred)) → Pred
deriving Repr, Inhabited

namespace Pred

/-- A record predicate with no keys at all (`{}`). -/
def emptyNode : Pred := .node none none none none none none none none none none []

/-- Whether the record predicate has no string keys and no symbol keys. -/
def isEmpty : Pred → Bool
  | .node none none none none none none none none none none [] => true
  | _ => false

/-- `predicate[NOT] !== value` for a primitive/null `value`: an object or
array operand is never strictly equal to it. -/
def notNeq (p : Pred) (v : Value) : Bool :=
  match p with
  | .lit w => ! jsStrictEq w v
  | _ => true

end Pred

/-- `evalTerminal` of `src/src/predicate.ts` for a non-null primitive
`value` and a record predicate (a non-record predicate was already
dispatched by the caller).  `rx pat s` models `new RegExp(pat).test(s)`
(an invalid pattern is caught and returns false, so `rx` is total). -/
def evalTerminal (rx : String → String → Bool) (value : Value) :
    (eqv neqv : Option Value) → (notp : Option Pred) →
    (ltv gtv ltev gtev : Option Value) → (matchs : Option String) → Bool
  | some e, _, _, _, _, _, _, _ => looseEq value e
  | none, some e, _, _, _, _, _, _ => ! looseEq value e
  | none, none, some p, _, _, _, _, _ => Pred.notNeq p value
  | none, none, none, ltv, gtv, ltev, gtev, matchs =>
    let isNumStr : Bool := match value with | .num _ => true | .str _ => true | _ => false
    if isNumStr then
      match ltv with
      | some e => jsLess value e
      | none =>
        match gtv with
        | some e => jsLess e value
        | none =>
          match ltev with
          | some e => jsLessEq value e
          | none =>
            match gtev with
            | some e => jsLessEq e value
            | none =>
              match value, matchs with
              | .str s, some pat => rx pat s
              | _, _ => false
    else false

/-- The `value === null || value === undefined` branch of `evalPredicate`. -/
def evalPredNull (value : Value) (p : Pred) : Bool :=
  match p with
  | .lit w => jsStrictEq w value
  | .por _ => false
  | .node eqv neqv notp _ _ _ _ _ _ _ _ =>
    match eqv with
    | some e => looseEq e value
    | none =>
      match neqv with
      | some e => ! looseEq e value
      | none =>
        match notp with
        | some q => Pred.notNeq q value
        | none => false

mutual
/-- Computable node count of a predicate (used only to furnish fuel). -/
def sizeP : Pred → Nat
  | .lit v => 1 + sizeV v
  | .por ps => 1 + sizeListP ps
  | .node _ _ notp _ _ _ _ _ allp somep fields =>
    2 + sizeOptP notp + sizeOptP allp + sizeOptP somep + sizeFieldsP fields

def sizeOptP : Option Pred → Nat
  | none => 0
  | some p => 1 + sizeP p

def sizeListP : List Pred → Nat
  | [] => 0
  | p :: rest => 1 + sizeP p + sizeListP rest

def sizeFieldsP : List (String × Pred) → Nat
  | [] => 0
  | (_, p) :: rest => 1 + sizeP p + sizeFieldsP rest
end

mutual
/-- `evalPredicate` of `src/src/predicate.ts`.  `fuel` bounds the call
depth; each source-level call consumes one unit and the combined size of
value and predicate strictly shrinks along every call, so the top-level
wrapper `evalPredicate` never exhausts it. -/
def evalPred (rx : String → String → Bool) : Nat → Value → Pred → Bool
  | 0, _, _ => false
  | fuel + 1, value, p =>
    match value with
    | .undef => evalPredNull value p
    | .null => evalPredNull value p
    | _ =>
      match p with
      | .por ps => evalOr rx fuel value ps
      | .lit w => jsStrictEq value w
      | .node eqv neqv notp ltv gtv ltev gtev matchs allp somep fields =>
        if (Pred.node eqv neqv notp ltv gtv ltev gtev matchs allp somep fields).isEmpty then
          true
        else if ! value.isContainer then
          evalTerminal rx value eqv neqv notp ltv gtv ltev gtev matchs
        else
          match notp with
          | some np =>
            if ! evalPred rx fuel value np then
              -- NOT passed: evaluate the remaining keys (an empty rest means
              -- true, which re-entering the evaluator also yields)
              evalPred rx fuel value
                (Pred.node eqv neqv none ltv gtv ltev gtev matchs allp somep fields)
            else false
          | none =>
            match value with
            | .arr es _ => evalArrayP rx fuel es allp somep fields
            | .obj fs => evalObjectP rx fuel fs allp somep fields
            | _ => false

def evalOr (rx : String → String → Bool) : Nat → Value → List Pred → Bool
  | 0, _, _ => false
  | _ + 1, _, [] => false
  | fuel + 1, value, p :: rest => evalPred rx fuel value p || evalOr rx fuel value rest

/-- `evalArray` of `src/src/predicate.ts` (symbol operator keys other than
ALL/SOME land in the rest object but `for..in` skips them). -/
def evalArrayP (rx : String → String → Bool) : Nat → List (Option Value) →
    Option Pred → Option Pred → List (String × Pred) → Bool
  | 0, _, _, _, _ => false
  | fuel + 1, es, allp, somep, fields =>
    (match allp with
     | some a => evalAllElems rx fuel es a
     | none => true) &&
    (match somep with
     | some s => evalSomeElems rx fuel es s
     | none => true) &&
    evalIdxFields rx fuel es fields

/-- `arr.every(item => evalPredicate(item, all))`; holes are skipped. -/
def evalAllElems (rx : String → String → Bool) : Nat → List (Option Value) → Pred → Bool
  | 0, _, _ => false
  | _ + 1, [], _ => true
  | fuel + 1, none :: rest, a => evalAllElems rx fuel rest a
  | fuel + 1, some v :: rest, a => evalPred rx fuel v a && evalAllElems rx fuel rest a

def evalSomeElems (rx : String → String → Bool) : Nat → List (Option Value) → Pred → Bool
  | 0, _, _ => false
  | _ + 1, [], _ => false
  | fuel + 1, none :: rest, s => evalSomeElems rx fuel rest s
  | fuel + 1, some v :: rest, s => evalPred rx fuel v s || evalSomeElems rx fuel rest s

/-- The explicit-index entries of an array predicate: `parseInt` the key
and test in-range indices only (a hole reads as `undefined`). -/
def evalIdxFields (rx : String → String → Bool) : Nat → List (Option Value) →
    List (String × Pred) → Bool
  | 0, _, _ => false
  | _ + 1, _, [] => true
  | fuel + 1, es, (k, p) :: rest =>
    (match parseIntJS k with
     | some i =>
       if 0 ≤ i ∧ i < (es.length : Int) then
         evalPred rx fuel ((es.getD i.toNat none).getD .undef) p
       else true
     | none => true) &&
    evalIdxFields rx fuel es rest

/-- `evalObject` of `src/src/predicate.ts`. -/
def evalObjectP (rx : String → String → Bool) : Nat → List (String × Value) →
    Option Pred → Option Pred → List (String × Pred) → Bool
  | 0, _, _, _, _ => false
  | fuel + 1, fs, allp, somep, fields =>
    (match allp with
     | some a => evalAllProps rx fuel fs a
     | none => true) &&
    (match somep with
     | some s => evalSomeProps rx fuel fs s
     | none => true) &&
    evalFieldPreds rx fuel fs fields

def evalAllProps (rx : String → String → Bool) : Nat → List (String × Value) → Pred → Bool
  | 0, _, _ => false
  | _ + 1, [], _ => true
  | fuel + 1, (_, v) :: rest, a => evalPred rx fuel v a && evalAllProps rx fuel rest a

def evalSomeProps (rx : String → String → Bool) : Nat → List (String × Value) → Pred → Bool
  | 0, _, _ => false
  | _ + 1, [], _ => false
  | fuel + 1, (_, v) :: rest, s => evalPred rx fuel v s || evalSomeProps rx fuel rest s

/-- Field sub-predicates: an absent field is tested against `undefined`
(`{ field: { EQ: null } }` matches missing fields). -/
def evalFieldPreds (rx : String → String → Bool) : Nat → List (String × Value) →
    List (String × Pred) → Bool
  | 0, _, _ => false
  | _ + 1, _, [] => true
  | fuel + 1, fs, (k, p) :: rest =>
    (match alookup fs k with
     | some v => evalPred rx fuel v p
     | none => evalPred rx fuel .undef p) &&
    evalFieldPreds rx fuel fs rest
end

/-- Fuel that amply covers the predicate recursion. -/
def predFuel (v : Value) (p : Pred) : Nat :=
  (sizeV v + sizeP p + 2) * (sizeV v + sizeP p + 2)

/-- The exported `evalPredicate`. -/
def evalPredicate (rx : String → String → Bool) (v : Value) (p : Pred) : Bool :=
  evalPred rx (predFuel v p) v p

/-! ## Select engine (`src/src/select.ts`, the DEEP_ALL snapshot) -/

/-- A select WHERE clause: a host-language function or a predicate. -/
inductive SWhere where
  | wfn : (Value → Bool) → SWhere
  | wpred : Pred → SWhere

/-- A function-free select statement: `sbool` a boolean leaf, `node` a
record with optional DEEP_ALL / ALL / WHERE reserved keys and field
sub-statements. -/
inductive SStmt where
  | sbool : Bool → SStmt
  | node : (deepAll : Option SStmt) → (allp : Option SStmt) →
      (whereC : Option SWhere) → (fields : List (String × SStmt)) → SStmt

namespace SStmt

/-- JS truthiness of a statement slot (`if (deepAll)`, `if (all)`). -/
def truthy : SStmt → Bool
  | sbool b => b
  | node _ _ _ _ => true

/-- String keys of a DEEP_ALL pattern (`Object.keys(deepAll)`). -/
def fieldKeys : SStmt → List String
  | sbool _ => []
  | node _ _ _ fields => akeys fields

/-- The WHERE slot of a DEEP_ALL pattern. -/
def whereSlot : SStmt → Option SWhere
  | sbool _ => none
  | node _ _ w _ => w

end SStmt

/-- JS truthiness of a WHERE clause value (functions are truthy objects;
a literal predicate is truthy unless it is a falsy primitive). -/
def swTruthy : SWhere → Bool
  | .wfn _ => true
  | .wpred (.lit v) => v.jsTruthy
  | .wpred _ => true

/-- Evaluate a WHERE clause: call the function, or run the predicate
evaluator (`typeof where === "function" ? where(data) : evalPredicate`). -/
def evalWhere (rx : String → String → Bool) (w : SWhere) (d : Value) : Bool :=
  match w with
  | .wfn f => f d
  | .wpred p => evalPredicate rx d p

/-- The predicate synthesised by DEEP_ALL when WHERE is absent: every
listed field must satisfy `{ [NOT]: undefined }`. -/
def synthDeepPred (da : SStmt) : Pred :=
  .node none none none none none none none none none none
    (da.fieldKeys.map fun k =>
      (k, Pred.node none none (some (.lit .undef)) none none none none none none none []))

/-!
The recursive engines below use a `fuel` parameter: every source-level
call consumes one unit, so the definitions are structurally recursive and
fully computable.  Exhausting fuel yields the no-op result; the top-level
wrappers pass a bound that the actual recursion never exhausts (each call
strictly decreases the combined size of its arguments, or is bounded by
the loop's list length).
-/

mutual
/-- Computable node count of a select statement (fuel accounting only). -/
def sizeS : SStmt → Nat
  | .sbool _ => 1
  | .node dA al _ fields => 2 + sizeOptS dA + sizeOptS al + sizeFieldsS fields

def sizeOptS : Option SStmt → Nat
  | none => 0
  | some s => 1 + sizeS s

def sizeFieldsS : List (String × SStmt) → Nat
  | [] => 0
  | (_, s) :: rest => 1 + sizeS s + sizeFieldsS rest
end

/-- The array-accumulator compaction applied between the ALL loop and the
explicit-key loop: `result.filter((v, i) => i in result)` drops holes and
reindexes densely (only when the accumulator is a non-empty array). -/
def compactRes : Value × Option Value → Value × Option Value
  | (d2, some (.arr es ps)) =>
    if es.length > 0 then (d2, some (.arr ((es.filterMap id).map some) []))
    else (d2, some (.arr es ps))
  | other => other

/-- The accumulator: `result = Array.isArray(data) ? [] : {}` on first use. -/
def initRes (d : Value) (res : Option Value) : Value :=
  match res with
  | some r => r
  | none =>
    match d with
    | .arr _ _ => Value.arr [] []
    | _ => Value.obj []

mutual
/-- `selectImpl` of `src/src/select.ts` (the DEEP_ALL snapshot).  The
first component of the result models `data` after the call — any write the
source could make into it is reflected through `jsSet` write-backs — and
the second component is the selection result (`none` = `NO_RESULT`). -/
def selectImpl (rx : String → String → Bool) : Nat → Value → SStmt → Value × Option Value
  | 0, d, _ => (d, none)
  | fuel + 1, d, s =>
    match s with
    | .sbool _ =>
      -- destructuring a boolean yields no reserved keys and an empty rest
      if ! d.isContainer then (d, some d) else (d, none)
    | .node deepAll allp whereC fields =>
      let whereFail : Bool :=
        match whereC with
        | some w => swTruthy w && ! evalWhere rx w d
        | none => false
      if whereFail then (d, none)
      else if ! d.isContainer then (d, some d)
      else
        let st1 : Value × Option Value :=
          match deepAll with
          | some da =>
            if da.truthy then selDeep rx fuel d da d.forInKeys none else (d, none)
          | none => (d, none)
        let st2 : Value × Option Value :=
          match allp with
          | some al =>
            if al.truthy then selAll rx fuel st1.1 al st1.1.forInKeys st1.2 else st1
          | none => st1
        -- a sparse array accumulator is compacted before explicit keys are added
        let st3 : Value × Option Value := compactRes st2
        selRest rx fuel st3.1 fields st3.2

/-- The `addToResult` closure of `selectImpl`: guard array keys, compute
the key's value, then store it into the accumulator (created on first
use). -/
def selAdd (rx : String → String → Bool) : Nat → Value → String → SStmt → Option Value →
    Value × Option Value
  | 0, d, _, _, res => (d, res)
  | fuel + 1, d, k, kst, res =>
    let arrGuardFail : Bool :=
      match d with
      | .arr _ _ =>
        match strToNumber k with
        | some i => decide (i < 0)
        | none => true
      | _ => false
    if arrGuardFail then (d, res)
    else
      let child := d.jsGet k
      match kst with
      | .sbool true => (d, some ((initRes d res).jsSet k child))
      | .sbool false => (d, res)
      | .node dA al wh fl =>
        let r := selectImpl rx fuel child (.node dA al wh fl)
        let d1 := if child.isContainer then d.jsSet k r.1 else d
        match r.2 with
        | none => (d1, res)
        | some v => (d1, some ((initRes d res).jsSet k v))

/-- The DEEP_ALL loop of `selectImpl`. -/
def selDeep (rx : String → String → Bool) : Nat → Value → SStmt → List String → Option Value →
    Value × Option Value
  | 0, d, _, _, res => (d, res)
  | _ + 1, d, _, [], res => (d, res)
  | fuel + 1, d, da, k :: rest, res =>
    let child := d.jsGet k
    let st1 : Value × Option Value :=
      if ! child.isContainer then
        match da.whereSlot with
        | some w => if swTruthy w then selAdd rx fuel d k da res else (d, res)
        | none => (d, res)
      else
        let pred : SWhere :=
          match da.whereSlot with
          | some w => if swTruthy w then w else .wpred (synthDeepPred da)
          | none => .wpred (synthDeepPred da)
        if evalWhere rx pred child then selAdd rx fuel d k da res
        else selAdd rx fuel d k (.node (some da) none none []) res
    selDeep rx fuel st1.1 da rest st1.2

/-- The ALL loop of `selectImpl`. -/
def selAll (rx : String → String → Bool) : Nat → Value → SStmt → List String → Option Value →
    Value × Option Value
  | 0, d, _, _, res => (d, res)
  | _ + 1, d, _, [], res => (d, res)
  | fuel + 1, d, al, k :: rest, res =>
    let st1 := selAdd rx fuel d k al res
    selAll rx fuel st1.1 al rest st1.2

/-- The explicit-field loop of `selectImpl`. -/
def selRest (rx : String → String → Bool) : Nat → Value → List (String × SStmt) → Option Value →
    Value × Option Value
  | 0, d, _, res => (d, res)
  | _ + 1, d, [], res => (d, res)
  | fuel + 1, d, (k, kst) :: rest, res =>
    let st1 := selAdd rx fuel d k kst res
    selRest rx fuel st1.1 rest st1.2
end

/-- Fuel that amply covers the select recursion on `d` and `s`. -/
def selFuel (d : Value) (s : SStmt) : Nat :=
  (sizeV d + sizeS s + 2) * (sizeV d + sizeS s + 2)

/-- `select` of `src/src/select.ts`: run `selectImpl`, mapping the
`NO_RESULT` sentinel to `undefined` (`none`). -/
def select (rx : String → String → Bool) (d : Value) (s : SStmt) : Option Value :=
  (selectImpl rx (selFuel d s) d s).2


/-! ## Update engine (`src/src/transform.ts`) -/

/-- A function-free update statement.  `prim` is a primitive operand
(direct assignment), `arrOp` an array operand (`[]` deletes, `[v]`
replaces wholly, more elements are rejected), `unode` a record operand:
partial update with optional WHERE / ALL / DEFAULT / CONTEXT reserved
keys and field directives. -/
inductive UStmt where
  | prim : Value → UStmt
  | arrOp : List Value → UStmt
  | unode : (wherep : Option Pred) → (allp : Option UStmt) →
      (defaultV : Option Value) → (ctxV : Option (List (String × Value))) →
      (fields : List (String × UStmt)) → UStmt
deriving Repr, Inhabited

mutual
/-- Computable node count of an update statement (fuel accounting only). -/
def sizeU : UStmt → Nat
  | .prim v => 1 + sizeV v
  | .arrOp vs => 1 + sizeListV vs
  | .unode _ allp defv _ fields =>
    2 + sizeOptU allp + (match defv with | some v => 1 + sizeV v | none => 0) + sizeFieldsU fields

def sizeOptU : Option UStmt → Nat
  | none => 0
  | some s => 1 + sizeU s

def sizeListV : List Value → Nat
  | [] => 0
  | v :: rest => 1 + sizeV v + sizeListV rest

def sizeFieldsU : List (String × UStmt) → Nat
  | [] => 0
  | (_, s) :: rest => 1 + sizeU s + sizeFieldsU rest
end

namespace UStmt

/-- JS truthiness of a statement (`if (!statement) return undefined`). -/
def truthy : UStmt → Bool
  | prim v => v.jsTruthy
  | arrOp _ => true
  | unode _ _ _ _ _ => true

end UStmt

mutual
/-- A literal value used as a statement operand (top-level array
statements destructure into index-keyed value operands). -/
def valueAsStmt : Value → UStmt
  | .undef => .prim .undef
  | .null => .prim .null
  | .bool b => .prim (.bool b)
  | .num n => .prim (.num n)
  | .str s => .prim (.str s)
  | .arr es _ => .arrOp (valueElemsAsList es)
  | .obj fs => .unode none none none none (valueFieldsAsStmt fs)

def valueElemsAsList : List (Option Value) → List Value
  | [] => []
  | o :: rest => o.getD .undef :: valueElemsAsList rest

/-- Field-wise conversion for `valueAsStmt`. -/
def valueFieldsAsStmt : List (String × Value) → List (String × UStmt)
  | [] => []
  | (k, v) :: rest => (k, valueAsStmt v) :: valueFieldsAsStmt rest
end

/-- A change record: per key either `cset newValue original` (a direct
change — the source stores `changes[key] = newValue` and the first-seen
original under `META`), or `cnest sub` (a nested record without a META
entry at this level).  `changes[key]` carries a META entry exactly when it
is a direct change, so the merged representation is faithful. -/
inductive CEntry where
  | cset : Value → Value → CEntry
  | cnest : List (String × CEntry) → CEntry
deriving Repr, Inhabited

/-- The entry list of a change record (`CRec`). -/
abbrev CRec := List (String × CEntry)

mutual
/-- The entry loop of `undoImpl`. -/
def undoEntries : Value → CRec → Value
  | d, [] => d
  | d, (k, e) :: rest => undoEntries (undoEntry d k e) rest

/-- One `undoImpl` entry: restore the META original of a direct change,
or recurse into a nested record (recursion into a primitive or absent
value cannot write, hence the container guard). -/
def undoEntry : Value → String → CEntry → Value
  | d, k, .cset _ orig => d.jsSet k orig
  | d, k, .cnest cn =>
    let child := d.jsGet k
    if child.isContainer then d.jsSet k (undoEntries child cn) else d
end

/-- `undoImpl` of `src/src/transform.ts` (no-op on non-container data). -/
def undoVal (d : Value) (c : CRec) : Value :=
  if ! d.isContainer then d else undoEntries d c

/-- `undo` with an optional record (`No-op if changeRecord is absent`). -/
def undoOpt (d : Value) : Option CRec → Value
  | none => d
  | some c => undoVal d c

/-- `addValueChange` of `src/src/transform.ts`, as a pure function from
the accumulated record.  `oldV` is the value before the mutation, `newV`
the value of `data[key]` after it.  When the old value is a container with
pending nested tracked changes those are reverted before the META snapshot
is taken; a META original already present is never overwritten.  (When
`changes[key]` is a direct-change value the source's revert call walks a
plain data value carrying no META and therefore writes nothing.) -/
def addValueChange (c : Option CRec) (k : String) (oldV newV : Value) : CRec :=
  let entries : CRec := c.getD []
  match alookup entries k with
  | some (.cset _ o) => aset entries k (.cset newV o)
  | some (.cnest cn) =>
    let orig := if oldV.isContainer then undoVal oldV cn else oldV
    aset entries k (.cset newV orig)
  | none => aset entries k (.cset newV oldV)

/-- `if (where)` / `if (defaultValue)` truthiness for a predicate slot. -/
def predTruthy : Pred → Bool
  | .lit v => v.jsTruthy
  | _ => true

/-- The length `data.length` used by negative-index resolution. -/
def arrLength : Value → Nat
  | .arr es _ => es.length
  | _ => 0

/-- Resolution of a statement key against array data (`/^-?\d+$/` keys
resolve, negative ones from the end; other keys are skipped — except the
string rendering of the ALL symbol, a quirk kept by the source). -/
def resolveKey (d : Value) (k : String) : Option String :=
  match d with
  | .arr _ _ =>
    if isNumericKey k then
      let i := parseNumericKey k
      if i < 0 then some (intToStr ((arrLength d : Int) + i)) else some k
    else if k = "Symbol(*)" then some k
    else none
  | _ => some k

/-- `staticUpdate[key] === undefined` — the ALL expansion overwrites
absent fields and fields explicitly holding `undefined`. -/
def fieldAbsent (fields : List (String × UStmt)) (k : String) : Bool :=
  match alookup fields k with
  | none => true
  | some (.prim .undef) => true
  | some _ => false

/-- `for..in` ordering over the merged directive object: canonical array
index keys ascending first, then the rest in insertion order. -/
def orderForIn (items : List (String × UStmt)) : List (String × UStmt) :=
  let ks := akeys items
  let intKeys := (sortAsc (ks.filterMap canonIndex)).map natToStr
  (intKeys.filterMap fun k => (alookup items k).map (k, ·))
    ++ items.filter fun kv => (canonIndex kv.1).isNone

/-- The update context (`Record<string, any>` merged via spread). -/
abbrev UCtx := Option (List (String × Value))

/-- `context = context ? { ...context, ...vars } : vars`. -/
def mergeCtx (ctx : UCtx) (vars : List (String × Value)) : UCtx :=
  match ctx with
  | some c0 => some (vars.foldl (fun acc kv => aset acc kv.1 kv.2) c0)
  | none => some vars


/-- The index-keyed field directives a top-level array statement
destructures into. -/
def indexFields (vs : List Value) : List (String × UStmt) :=
  ((List.range vs.length).zip vs).map fun iv => (natToStr iv.1, valueAsStmt iv.2)

mutual
/-- `updateImpl` of `src/src/transform.ts` (function-free fragment).
State passing models the in-place mutation: the returned `Value` is
`data` after the call. `structuredClone` of a function-free tree is an
identical tree, so clones appear as the value itself. -/
def updateImpl (rx : String → String → Bool) : Nat → Value → UStmt → Option CRec → UCtx →
    Except String (Value × Option CRec)
  | 0, d, _, c, _ => .ok (d, c)
  | fuel + 1, d, stmt, c, ctx =>
    if ! stmt.truthy then .ok (d, none)
    else
      match stmt with
      | .prim _ => .ok (d, c)   -- destructuring a primitive leaves no directives
      | .arrOp vs => updateGo rx fuel d (orderForIn (indexFields vs)) c ctx
      | .unode wherep allp defv ctxv fields =>
        let ctx2 := match ctxv with
          | some vars => mergeCtx ctx vars
          | none => ctx
        let whereFails : Bool :=
          match wherep with
          | some w => predTruthy w && ! evalPredicate rx d w
          | none => false
        if whereFails then .ok (d, c)
        else
          let items :=
            match allp with
            | some al =>
              if al.truthy then
                (d.forInKeys.filter (fieldAbsent fields)).foldl
                  (fun acc k => aset acc k al) fields
              else fields
            | none => fields
          updateGo rx fuel d (orderForIn items) c ctx2

/-- The directive loop of `updateImpl` (`for (const key in staticUpdate)`). -/
def updateGo (rx : String → String → Bool) : Nat → Value → List (String × UStmt) →
    Option CRec → UCtx → Except String (Value × Option CRec)
  | 0, d, _, c, _ => .ok (d, c)
  | _ + 1, d, [], c, _ => .ok (d, c)
  | fuel + 1, d, (k, op) :: rest, c, ctx =>
    match resolveKey d k with
    | none => updateGo rx fuel d rest c ctx
    | some ak =>
      let oldV := d.jsGet ak
      match op with
      | .arrOp [] =>
        let d1 := d.jsDelete ak
        let c1 := addValueChange c ak oldV (d1.jsGet ak)
        updateGo rx fuel d1 rest (some c1) ctx
      | .arrOp [v] =>
        -- full replacement with structuredClone(v); a cloned container is
        -- a fresh object, so `oldValue === newValue` only for primitives
        if jsStrictEq oldV v then updateGo rx fuel d rest c ctx
        else
          let d1 := d.jsSet ak v
          let c1 := addValueChange c ak oldV (d1.jsGet ak)
          updateGo rx fuel d1 rest (some c1) ctx
      | .arrOp _ => .error "Multiple element arrays not allowed"
      | .prim v =>
        if jsStrictEq oldV v then updateGo rx fuel d rest c ctx
        else
          let d1 := d.jsSet ak v
          let c1 := addValueChange c ak oldV (d1.jsGet ak)
          updateGo rx fuel d1 rest (some c1) ctx
      | .unode wq aq dq cq fq =>
        match updateKeyObj rx fuel d ak oldV (.unode wq aq dq cq fq) c ctx with
        | .error e => .error e
        | .ok (d1, c1) => updateGo rx fuel d1 rest c1 ctx

/-- `updateKey` of `src/src/transform.ts` for a record-shaped operand
(`newValue` a non-null object that is not an array). -/
def updateKeyObj (rx : String → String → Bool) : Nat → Value → String → Value → UStmt →
    Option CRec → UCtx → Except String (Value × Option CRec)
  | 0, d, _, _, _, c, _ => .ok (d, c)
  | fuel + 1, d, ak, oldV, op, c, ctx =>
    let wherep : Option Pred := match op with
      | .unode w _ _ _ _ => w
      | _ => none
    let defv : Option Value := match op with
      | .unode _ _ dv _ _ => dv
      | _ => none
    if ! oldV.isContainer then
      -- check the where statement before throwing the usage error
      let whereFails : Bool :=
        match wherep with
        | some w => predTruthy w && ! evalPredicate rx oldV w
        | none => false
      if whereFails then .ok (d, c)
      else
        match defv with
        | some dv =>
          if dv.jsTruthy then
            let d1 := d.jsSet ak dv
            match updateImpl rx fuel (d1.jsGet ak) op none ctx with
            | .error e => .error e
            | .ok (child, _) =>
              -- the nested record is discarded; the mutations stay
              let d2 := d1.jsSet ak child
              .ok (d2, some (addValueChange c ak oldV (d2.jsGet ak)))
          else .error ("Can't partially update a non-object: " ++ ak)
        | none => .error ("Can't partially update a non-object: " ++ ak)
    else
      match alookup (c.getD []) ak with
      | some (.cset v o) =>
        if v.isContainer then
          -- the tracked value aliases data[ak]; the nested call treats the
          -- live child as both data and changes (its META writes land on
          -- invisible symbol slots of the data object)
          match updateAliased rx fuel oldV op ctx with
          | .error e => .error e
          | .ok child =>
            let d1 := d.jsSet ak child
            .ok (d1, some (aset (c.getD []) ak (.cset (d1.jsGet ak) o)))
        else if v.jsTruthy then
          .error "TypeError: cannot create a property on a primitive"
        else
          -- a falsy tracked value: the nested call starts from a fresh
          -- record; the surviving META original keeps the entry a direct
          -- change (holding the current child value)
          match updateImpl rx fuel oldV op none ctx with
          | .error e => .error e
          | .ok (child, subres) =>
            let d1 := d.jsSet ak child
            match subres with
            | some _ => .ok (d1, some (aset (c.getD []) ak (.cset (d1.jsGet ak) o)))
            | none => .ok (d1, c)
      | other =>
        let sub : Option CRec :=
          match other with
          | some (.cnest cn) => some cn
          | _ => none
        match updateImpl rx fuel oldV op sub ctx with
        | .error e => .error e
        | .ok (child, subres) =>
          let d1 := d.jsSet ak child
          match subres with
          | some cn2 => .ok (d1, some (aset (c.getD []) ak (.cnest cn2)))
          | none => .ok (d1, c)

/-- `updateImpl` re-entered with `changes` aliasing `data` (the existing
record tracked a full replacement, so `changes[key] === data[key]`).
Only the data effects are observable: `changes[key] = newValue` writes the
cell the loop just wrote (except after `delete`, which it resurrects as an
explicit `undefined`), and META lands on symbol slots no engine reads. -/
def updateAliased (rx : String → String → Bool) : Nat → Value → UStmt → UCtx →
    Except String Value
  | 0, d, _, _ => .ok d
  | fuel + 1, d, stmt, ctx =>
    if ! stmt.truthy then .ok d
    else
      match stmt with
      | .prim _ => .ok d
      | .arrOp vs => aliasedGo rx fuel d (orderForIn (indexFields vs)) ctx
      | .unode wherep allp defv ctxv fields =>
        let ctx2 := match ctxv with
          | some vars => mergeCtx ctx vars
          | none => ctx
        let whereFails : Bool :=
          match wherep with
          | some w => predTruthy w && ! evalPredicate rx d w
          | none => false
        if whereFails then .ok d
        else
          let items :=
            match allp with
            | some al =>
              if al.truthy then
                (d.forInKeys.filter (fieldAbsent fields)).foldl
                  (fun acc k => aset acc k al) fields
              else fields
            | none => fields
          aliasedGo rx fuel d (orderForIn items) ctx2

/-- The directive loop of `updateAliased`. -/
def aliasedGo (rx : String → String → Bool) : Nat → Value → List (String × UStmt) → UCtx →
    Except String Value
  | 0, d, _, _ => .ok d
  | _ + 1, d, [], _ => .ok d
  | fuel + 1, d, (k, op) :: rest, ctx =>
    match resolveKey d k with
    | none => aliasedGo rx fuel d rest ctx
    | some ak =>
      let oldV := d.jsGet ak
      match op with
      | .arrOp [] =>
        -- delete, then `changes[key] = data[key]` resurrects the key as
        -- an explicit `undefined`
        let d1 := (d.jsDelete ak).jsSet ak .undef
        aliasedGo rx fuel d1 rest ctx
      | .arrOp [v] =>
        if jsStrictEq oldV v then aliasedGo rx fuel d rest ctx
        else aliasedGo rx fuel (d.jsSet ak v) rest ctx
      | .arrOp _ => .error "Multiple element arrays not allowed"
      | .prim v =>
        if jsStrictEq oldV v then aliasedGo rx fuel d rest ctx
        else aliasedGo rx fuel (d.jsSet ak v) rest ctx
      | .unode wq aq dq cq fq =>
        if oldV.isContainer then
          -- changes[ak] = data[ak] is a truthy container: recurse aliased
          match updateAliased rx fuel oldV (.unode wq aq dq cq fq) ctx with
          | .error e => .error e
          | .ok child => aliasedGo rx fuel (d.jsSet ak child) rest ctx
        else
          let whereFails : Bool :=
            match wq with
            | some w => predTruthy w && ! evalPredicate rx oldV w
            | none => false
          if whereFails then aliasedGo rx fuel d rest ctx
          else
            match dq with
            | some dv =>
              if dv.jsTruthy then
                let d1 := d.jsSet ak dv
                match updateImpl rx fuel (d1.jsGet ak) (.unode wq aq dq cq fq) none ctx with
                | .error e => .error e
                | .ok (child, _) => aliasedGo rx fuel (d1.jsSet ak child) rest ctx
              else .error ("Can't partially update a non-object: " ++ ak)
            | none => .error ("Can't partially update a non-object: " ++ ak)
end

/-- Fuel that amply covers the update recursion. -/
def updFuel (d : Value) (s : UStmt) : Nat :=
  (sizeV d + sizeU s + 2) * (sizeV d + sizeU s + 2)

/-- The exported `update`: `if (!statement) return undefined`, else run
`updateImpl` (context starts absent). -/
def update (rx : String → String → Bool) (d : Value) (s : Option UStmt) (c : Option CRec) :
    Except String (Value × Option CRec) :=
  match s with
  | none => .ok (d, none)
  | some st => updateImpl rx (updFuel d st) d st c none

/-- One `transaction(...).update(stmt)` step: thread the accumulated
record through `updateImpl` and store whatever it returns. -/
def txUpdate (rx : String → String → Bool) (st : Value × Option CRec) (s : Option UStmt) :
    Except String (Value × Option CRec) :=
  update rx st.1 s st.2


/-! ## Deep equality and the undo round-trip relation -/

/-- Whether an optional array slot is a hole or an explicit `undefined`
(the two states undo cannot tell apart when re-creating absent slots). -/
def slotBlank : Option Value → Bool
  | none => true
  | some .undef => true
  | _ => false

mutual
/-- Deep (structural) equality of two values: record fields compare as
key-value maps (insertion order is not observable to deep equality), array
element lists compare pointwise — a hole is distinct from an explicitly
stored `undefined`, as `deepStrictEqual` distinguishes them. -/
def deepEq : Value → Value → Bool
  | .undef, .undef => true
  | .null, .null => true
  | .bool a, .bool b => a == b
  | .num a, .num b => a == b
  | .str a, .str b => a == b
  | .arr es ps, .arr es2 ps2 =>
    deepEqElems es es2 && deepEqProps ps ps2 && (akeys ps2).all fun k => (alookup ps k).isSome
  | .obj fs, .obj gs =>
    deepEqProps fs gs && (akeys gs).all fun k => (alookup fs k).isSome
  | _, _ => false

def deepEqElems : List (Option Value) → List (Option Value) → Bool
  | [], [] => true
  | none :: r, none :: r2 => deepEqElems r r2
  | some v :: r, some w :: r2 => deepEq v w && deepEqElems r r2
  | _, _ => false

/-- Every entry of the first list matches the second, viewed as a map. -/
def deepEqProps : List (String × Value) → List (String × Value) → Bool
  | [], _ => true
  | (k, v) :: rest, qs =>
    (match alookup qs k with
     | some w => deepEq v w
     | none => false) &&
    deepEqProps rest qs
end

mutual
/-- `restoresTo d0 d`: `d` is `d0` up to the padding undo can introduce —
a key absent in `d0` may exist in `d` holding `undefined`, an array hole
may have become an explicit `undefined`, and an array may have grown by
blank slots.  Undo restores data exactly up to this relation. -/
def restoresTo : Value → Value → Bool
  | .obj fs, .obj gs =>
    rtProps fs gs &&
    (akeys gs).all fun k =>
      (alookup fs k).isSome || ((alookup gs k).getD .undef matches .undef)
  | .arr es ps, .arr es2 ps2 =>
    rtElems es es2 &&
    rtProps ps ps2 &&
    (akeys ps2).all fun k =>
      (alookup ps k).isSome || ((alookup ps2 k).getD .undef matches .undef)
  | .undef, .undef => true
  | .null, .null => true
  | .bool a, .bool b => a == b
  | .num a, .num b => a == b
  | .str a, .str b => a == b
  | _, _ => false

def rtElems : List (Option Value) → List (Option Value) → Bool
  | [], pad => pad.all slotBlank
  | none :: r, o2 :: r2 => slotBlank o2 && rtElems r r2
  | some v :: r, some w :: r2 => restoresTo v w && rtElems r r2
  | _, _ => false

def rtProps : List (String × Value) → List (String × Value) → Bool
  | [], _ => true
  | (k, v) :: rest, gs =>
    (match alookup gs k with
     | some w => restoresTo v w
     | none => false) &&
    rtProps rest gs
end


/-- Whether the key of the head entry never recurs (JS objects cannot hold
a key twice, so engine-visible association lists have unique keys). -/
def nodupKeys {α : Type} : List (String × α) → Bool
  | [] => true
  | (k, _) :: rest => (alookup rest k).isNone && nodupKeys rest

mutual
/-- A value is well-formed when every record/property list in it has
unique keys (every JS-representable value is). -/
def wfV : Value → Bool
  | .arr es ps => wfElems es && (nodupKeys ps && wfProps ps)
  | .obj fs => nodupKeys fs && wfProps fs
  | _ => true

def wfElems : List (Option Value) → Bool
  | [] => true
  | none :: r => wfElems r
  | some v :: r => wfV v && wfElems r

def wfProps : List (String × Value) → Bool
  | [] => true
  | (_, v) :: r => wfV v && wfProps r
end

mutual
/-- An update statement is well-formed when every value it can write into
the data (primitive and array operands, DEFAULT values) is well-formed. -/
def wfU : UStmt → Bool
  | .prim v => wfV v
  | .arrOp vs => wfListV vs
  | .unode _ allp defv _ fields =>
    wfOptU allp && ((match defv with | some v => wfV v | none => true) && wfFieldsU fields)

def wfOptU : Option UStmt → Bool
  | none => true
  | some s => wfU s

def wfListV : List Value → Bool
  | [] => true
  | v :: r => wfV v && wfListV r

def wfFieldsU : List (String × UStmt) → Bool
  | [] => true
  | (_, s) :: r => wfU s && wfFieldsU r
end

mutual
/-- A change record is well-formed when its keys are unique, every stored
original is a well-formed value and nested records are well-formed. -/
def wfEntries : CRec → Bool
  | [] => true
  | (_, e) :: r => wfEntry e && wfEntries r

def wfEntry : CEntry → Bool
  | .cset _ o => wfV o
  | .cnest cn => nodupKeys cn && wfEntries cn
end

/-- Well-formedness of a change record (unique keys and `wfEntries`). -/
def wfC (c : CRec) : Bool := nodupKeys c && wfEntries c

/-- Constructor tag of a value (writes never change it). -/
def kindOf : Value → Nat
  | .undef => 0
  | .null => 1
  | .bool _ => 2
  | .num _ => 3
  | .str _ => 4
  | .arr _ _ => 5
  | .obj _ => 6

/-- Well-formedness of an optional change record. -/
def wfCO : Option CRec → Bool
  | none => true
  | some c => wfC c

/-- The record a nested `updateImpl` call leaves with its caller: its own
result when truthy, else the caller's record unchanged. -/
def cOr (c' c : Option CRec) : Option CRec :=
  match c' with
  | none => c
  | some x => some x

/-- The original value `addValueChange` snapshots for a key (an existing
direct-change original wins; pending nested changes are reverted first). -/
def addValOrig (entries : CRec) (k : String) (oldV : Value) : Value :=
  match alookup entries k with
  | some (.cset _ o) => o
  | some (.cnest cn) => if oldV.isContainer then undoVal oldV cn else oldV
  | none => oldV

/-- Slot-wise form of `rtElems`: how one array position of the original
relates to the same position of the undone value (`none` = beyond the
list, `some none` = a hole). -/
def slotRel : Option (Option Value) → Option (Option Value) → Bool
  | none, none => true
  | some (some v), some (some w) => restoresTo v w
  | some none, some o2 => slotBlank o2
  | none, some o2 => slotBlank o2
  | _, _ => false

/-- Slot-wise form of the record-field part of `restoresTo`: an absent
original field may come back as an explicit `undefined`. -/
def propRel : Option Value → Option Value → Bool
  | some v, some w => restoresTo v w
  | none, some w => (w matches .undef)
  | none, none => true
  | some _, none => false

/-- The element-list update `jsSet` performs at a canonical array index
(set in range, otherwise extend with holes). -/
def arrWrite (es : List (Option Value)) (i : Nat) (x : Value) : List (Option Value) :=
  if i < es.length then es.set i (some x)
  else es ++ List.replicate (i - es.length) none ++ [some x]

/-- Well-formedness of an optional value (a record-field slot). -/
def wfVO : Option Value → Bool
  | none => true
  | some v => wfV v

/-- Well-formedness of an optional change entry. -/
def wfEO : Option CEntry → Bool
  | none => true
  | some e => wfEntry e

/-- Well-formedness of an array-slot view (`none` = beyond the array,
`some none` = a hole). -/
def wfSlot : Option (Option Value) → Bool
  | some (some v) => wfV v
  | _ => true

/-- What one record field holds after `undoEntries`, as a function of its
value before the undo and of the change entry at its key (the entries of a
record have unique keys, so each key is rewritten at most once). -/
def undoPropAt : Option Value → Option CEntry → Option Value
  | _, some (.cset _ o) => some o
  | s, some (.cnest cn) =>
    (match s with
     | some v => if v.isContainer then some (undoEntries v cn) else some v
     | none => none)
  | s, none => s

/-- How far one change entry forces an array to extend during undo: a
direct change at a canonical index writes that slot back (padding with
holes if beyond the end); nested entries never extend. -/
def idxContrib (k : String) (e : CEntry) : Nat :=
  match canonIndex k, e with
  | some i, .cset _ _ => i + 1
  | _, _ => 0

/-- The array length `undoEntries` leaves, relative to the start length. -/
def undoExtent : CRec → Nat
  | [] => 0
  | (k, e) :: rest => max (idxContrib k e) (undoExtent rest)

/-- The change entry whose key is the canonical rendering of index `j`. -/
def idxLookup : CRec → Nat → Option CEntry
  | [], _ => none
  | (k, e) :: rest, j => if canonIndex k = some j then some e else idxLookup rest j

/-- What one array slot holds after `undoEntries`, as a function of the
slot before the undo, the entry at its index, and whether the position is
below the final length (`inL`; a position below it that held nothing
becomes a hole through padding). -/
def undoSlotF (inL : Bool) (s : Option (Option Value)) (e : Option CEntry) :
    Option (Option Value) :=
  match e with
  | some (.cset _ o) => some (some o)
  | some (.cnest cn) =>
    (match s with
     | some (some v) => some (some (if v.isContainer then undoEntries v cn else v))
     | some none => some none
     | none => if inL then some none else none)
  | none =>
    (match s with
     | some o => some o
     | none => if inL then some none else none)

/-- How one engine mutation step at key `ak` relates the data before and
after: every other position is untouched except that writing beyond an
array's end turns earlier absent positions into holes. -/
def stepData : Value → Value → String → Prop
  | .obj fs, .obj fs1, ak => ∀ k, k ≠ ak → alookup fs1 k = alookup fs k
  | .arr es ps, .arr es1 ps1, ak =>
    es.length ≤ es1.length ∧
    (match canonIndex ak with
     | some i => ps1 = ps ∧
         ∀ j : Nat, j ≠ i → es1[j]? = es[j]? ∨ (es[j]? = none ∧ es1[j]? = some none)
     | none => es1 = es ∧ ∀ k, k ≠ ak → alookup ps1 k = alookup ps k)
  | d, d1, _ => d1 = d

/-- The record a nested `updateImpl` call starts from, tied to the entry
the accumulated record holds at the key (the non-direct-change branch). -/
def subTieN (en : CRec) (ak : String) : Option CRec → Prop
  | some cn => alookup en ak = some (.cnest cn)
  | none => alookup en ak = none

/-- As `subTieN`, but the nested call may also have started from a fresh
record while a direct change is tracked at the key. -/
def subTie (en : CRec) (ak : String) : Option CRec → Prop
  | some cn => alookup en ak = some (.cnest cn)
  | none =>
    (match alookup en ak with
     | some (.cnest _) => False
     | _ => True)

/-- The undo round-trip invariant of `updateImpl` at one fuel level: a
successful call preserves well-formedness and leaves data whose undo (with
the record it returns, or the caller's when it returns none) restores the
undo of the start state. -/
def IHimpl (rx : String → String → Bool) (f : Nat) : Prop :=
  ∀ d stmt c ctx d2 c2, updateImpl rx f d stmt c ctx = .ok (d2, c2) →
    wfV d = true → wfU stmt = true → wfCO c = true →
    restoresTo (undoOpt d c) (undoOpt d2 (cOr c2 c)) = true ∧
      wfV d2 = true ∧ wfCO (cOr c2 c) = true

/-- The invariant of the directive loop: as `IHimpl`, and the loop never
drops a record it was handed. -/
def IHgo (rx : String → String → Bool) (f : Nat) : Prop :=
  ∀ d items c ctx d2 c2, updateGo rx f d items c ctx = .ok (d2, c2) →
    wfV d = true → wfFieldsU items = true → wfCO c = true →
    restoresTo (undoOpt d c) (undoOpt d2 c2) = true ∧
      wfV d2 = true ∧ wfCO c2 = true ∧ (c2 = none → c = none)

/-- The invariant of `updateKey` for a record-shaped operand. -/
def IHkey (rx : String → String → Bool) (f : Nat) : Prop :=
  ∀ d ak op c ctx d2 c2, updateKeyObj rx f d ak (d.jsGet ak) op c ctx = .ok (d2, c2) →
    wfV d = true → wfU op = true → wfCO c = true →
    restoresTo (undoOpt d c) (undoOpt d2 c2) = true ∧
      wfV d2 = true ∧ wfCO c2 = true ∧ (c2 = none → c = none)

/-- The aliased re-entry only needs to preserve well-formedness. -/
def IHali (rx : String → String → Bool) (f : Nat) : Prop :=
  ∀ d stmt ctx d2, updateAliased rx f d stmt ctx = .ok d2 →
    wfV d = true → wfU stmt = true → wfV d2 = true

/-- As `IHali`, for the aliased directive loop. -/
def IHaliGo (rx : String → String → Bool) (f : Nat) : Prop :=
  ∀ d items ctx d2, aliasedGo rx f d items ctx = .ok d2 →
    wfV d = true → wfFieldsU items = true → wfV d2 = true

/-! ## The `part_003` predicate snapshot: `toSearchCriteria` and MATCH -/

/-- `toSearchCriteria`: decode `"/pattern/flags"` (leading slash and a
later slash, split at the last one); otherwise the whole string is the
pattern with no flags. -/
def toSearchCriteria (s : String) : String × String :=
  match s.data with
  | '/' :: rest =>
    if '/' ∈ rest then
      let revRest := rest.reverse
      (String.mk ((revRest.dropWhile (· ≠ '/')).tail.reverse),
       String.mk ((revRest.takeWhile (· ≠ '/')).reverse))
    else (s, "")
  | _ => (s, "")

/-- `Object.keys(value)` for the `part_003` quantifier branches. -/
def jsObjectKeys (v : Value) : List String := v.forInKeys

mutual
/-- `evalPredicate` of the `part_003` snapshot.  `rxFF pat flags s`
models `new RegExp(pat, flags).test(s)` (the catch handler makes an
invalid pattern read false, so `rxFF` is total). -/
def evalPredicateP3 (rxFF : String → String → String → Bool) : Nat → Value → Pred → Bool
  | 0, _, _ => false
  | fuel + 1, value, p =>
    match p with
    | .lit w => jsStrictEq w value
    | .por ps => evalOrP3 rxFF fuel value ps
    | .node eqv neqv notp ltv gtv ltev gtev matchs allp somep fields =>
      let isNumStr : Bool := match value with | .num _ => true | .str _ => true | _ => false
      let result : Bool :=
        -- operators are tested in declaration order: ALL, SOME, NOT,
        -- LT, GT, LTE, GTE, EQ, NEQ, MATCH (all present ones must hold)
        (allp.all fun _ =>
          -- the `every` callback ignores the recursive test and returns
          -- false, so ALL holds only for an empty container
          value.isContainer && (jsObjectKeys value).isEmpty) &&
        (somep.all fun _ =>
          -- the `some` callback always returns false
          false) &&
        (notp.all fun q => ! evalPredicateP3 rxFF fuel value q) &&
        (ltv.all fun c => isNumStr && jsLess value c) &&
        (gtv.all fun c => isNumStr && jsLess c value) &&
        (ltev.all fun c => isNumStr && jsLessEq value c) &&
        (gtev.all fun c => isNumStr && jsLessEq c value) &&
        (eqv.all fun c => looseEq value c) &&
        (neqv.all fun c => ! looseEq value c) &&
        (matchs.all fun pat =>
          match value with
          | .str s => rxFF (toSearchCriteria pat).1 (toSearchCriteria pat).2 s
          | _ => false)
      if result then
        match value with
        | .undef => fields.isEmpty
        | .null => fields.isEmpty
        | .arr _ _ => evalFieldsP3 rxFF fuel value fields
        | .obj _ => evalFieldsP3 rxFF fuel value fields
        | _ => fields.isEmpty
      else false

def evalOrP3 (rxFF : String → String → String → Bool) : Nat → Value → List Pred → Bool
  | 0, _, _ => false
  | _ + 1, _, [] => false
  | fuel + 1, value, p :: rest =>
    evalPredicateP3 rxFF fuel value p || evalOrP3 rxFF fuel value rest

/-- `Object.keys(predicate).every(key => key in value ? evalPredicate(...)
: false)` of the `part_003` snapshot: absent keys fail. -/
def evalFieldsP3 (rxFF : String → String → String → Bool) : Nat → Value →
    List (String × Pred) → Bool
  | 0, _, _ => false
  | _ + 1, _, [] => true
  | fuel + 1, value, (k, p) :: rest =>
    (if value.jsHas k then evalPredicateP3 rxFF fuel (value.jsGet k) p else false) &&
    evalFieldsP3 rxFF fuel value rest
end

/-- The exported `part_003` evaluator. -/
def evalPredicateP3Top (rxFF : String → String → String → Bool) (v : Value) (p : Pred) : Bool :=
  evalPredicateP3 rxFF (predFuel v p) v p

/-! ## Statement JSON serialization (`toJSON` / `fromJSON`) -/

/-- The reserved operator symbols. -/
inductive SymTok where
  | tAll | tDeepAll | tWhere | tDefault | tContext | tMeta
  | tLt | tGt | tLte | tGte | tEq | tNeq | tNot | tMatch | tSome
deriving Repr, DecidableEq

/-- The string marker of each reserved symbol. -/
def symMarker : SymTok → String
  | .tAll => "*"
  | .tDeepAll => "**"
  | .tWhere => "?"
  | .tDefault => "{}"
  | .tContext => "$"
  | .tMeta => "#"
  | .tLt => "<"
  | .tGt => ">"
  | .tLte => "<="
  | .tGte => ">="
  | .tEq => "=="
  | .tNeq => "!="
  | .tNot => "!"
  | .tMatch => "~"
  | .tSome => "|"

/-- The reverse marker map used by `fromJSON`. -/
def markerSym (s : String) : Option SymTok :=
  if s = "*" then some .tAll
  else if s = "**" then some .tDeepAll
  else if s = "?" then some .tWhere
  else if s = "{}" then some .tDefault
  else if s = "$" then some .tContext
  else if s = "#" then some .tMeta
  else if s = "<" then some .tLt
  else if s = ">" then some .tGt
  else if s = "<=" then some .tLte
  else if s = ">=" then some .tGte
  else if s = "==" then some .tEq
  else if s = "!=" then some .tNeq
  else if s = "!" then some .tNot
  else if s = "~" then some .tMatch
  else if s = "|" then some .tSome
  else none

/-- A record key of a raw statement tree: a string or a reserved symbol. -/
inductive JKey where
  | strk : String → JKey
  | sym : SymTok → JKey
deriving Repr, DecidableEq

/-- A function-free raw statement tree as the serializer sees it. -/
inductive JTree where
  | jundef | jnull
  | jbool : Bool → JTree
  | jnum : Int → JTree
  | jstr : String → JTree
  | jarr : List JTree → JTree
  | jobj : List (JKey × JTree) → JTree
deriving Repr, Inhabited

mutual
/-- `toJSON`: symbols keys become their string markers, values recurse.
(The source emits string keys before symbol keys, per `Reflect.ownKeys`;
record entry order is not observable under deep equality, so the model
keeps source order.  A function-free tree raises no `SerializationError`.) -/
def toJSON : JTree → JTree
  | .jundef => .jundef
  | .jnull => .jnull
  | .jbool b => .jbool b
  | .jnum n => .jnum n
  | .jstr s => .jstr s
  | .jarr es => .jarr (toJSONList es)
  | .jobj entries => .jobj (toJSONEntries entries)

def toJSONList : List JTree → List JTree
  | [] => []
  | t :: rest => toJSON t :: toJSONList rest

def toJSONEntries : List (JKey × JTree) → List (JKey × JTree)
  | [] => []
  | (.strk k, v) :: rest => (.strk k, toJSON v) :: toJSONEntries rest
  | (.sym t, v) :: rest => (.strk (symMarker t), toJSON v) :: toJSONEntries rest
end

mutual
/-- `fromJSON`: keys matching a reserved marker become symbols again. -/
def fromJSON : JTree → JTree
  | .jundef => .jundef
  | .jnull => .jnull
  | .jbool b => .jbool b
  | .jnum n => .jnum n
  | .jstr s => .jstr s
  | .jarr es => .jarr (fromJSONList es)
  | .jobj entries => .jobj (fromJSONEntries entries)

def fromJSONList : List JTree → List JTree
  | [] => []
  | t :: rest => fromJSON t :: fromJSONList rest

def fromJSONEntries : List (JKey × JTree) → List (JKey × JTree)
  | [] => []
  | (.strk k, v) :: rest =>
    (match markerSym k with
     | some t => (JKey.sym t, fromJSON v)
     | none => (JKey.strk k, fromJSON v)) :: fromJSONEntries rest
  | (.sym t, v) :: rest =>
    -- parsed JSON carries no symbol keys; pass through like the source
    (JKey.sym t, fromJSON v) :: fromJSONEntries rest
end

mutual
/-- No string key of the tree collides with a reserved marker. -/
def noMarkerKeys : JTree → Bool
  | .jarr es => noMarkerKeysList es
  | .jobj entries => noMarkerKeysEntries entries
  | _ => true

def noMarkerKeysList : List JTree → Bool
  | [] => true
  | t :: rest => noMarkerKeys t && noMarkerKeysList rest

def noMarkerKeysEntries : List (JKey × JTree) → Bool
  | [] => true
  | (.strk k, v) :: rest =>
    (markerSym k).isNone && noMarkerKeys v && noMarkerKeysEntries rest
  | (.sym _, v) :: rest => noMarkerKeys v && noMarkerKeysEntries rest
end

/-- Lookup among record entries of a raw tree. -/
def jlookup : List (JKey × JTree) → JKey → Option JTree
  | [], _ => none
  | (k, v) :: rest, key => if k = key then some v else jlookup rest key

mutual
/-- Deep equality of raw statement trees (record entries as key maps). -/
def deepEqJ : JTree → JTree → Bool
  | .jundef, .jundef => true
  | .jnull, .jnull => true
  | .jbool a, .jbool b => a == b
  | .jnum a, .jnum b => a == b
  | .jstr a, .jstr b => a == b
  | .jarr es, .jarr es2 => deepEqJList es es2
  | .jobj fs, .jobj gs =>
    deepEqJEntries fs gs && gs.all fun kv => (jlookup fs kv.1).isSome
  | _, _ => false

def deepEqJList : List JTree → List JTree → Bool
  | [], [] => true
  | a :: r, b :: r2 => deepEqJ a b && deepEqJList r r2
  | _, _ => false

def deepEqJEntries : List (JKey × JTree) → List (JKey × JTree) → Bool
  | [], _ => true
  | (k, v) :: rest, gs =>
    (match jlookup gs k with
     | some w => deepEqJ v w
     | none => false) &&
    deepEqJEntries rest gs
end


/-! ## Small classifiers and statement builders used by the theorems -/

/-- Whether a value is a string. -/
def Value.isStr : Value → Bool
  | .str _ => true
  | _ => false

/-- Whether a value is `null` or `undefined`. -/
def Value.isNullish : Value → Bool
  | .null => true
  | .undef => true
  | _ => false

/-- Whether a value is a plain record. -/
def Value.isObj : Value → Bool
  | .obj _ => true
  | _ => false

/-- A predicate record carrying only a MATCH operator. -/
def matchPred (pat : String) : Pred :=
  .node none none none none none none none (some pat) none none []

/-- The `users` data of the multi-field DEEP_ALL projection scenario of
`tests/deep-all.test.ts`. -/
def deepAllTestData : Value :=
  .obj [("users", .obj [
    ("john", .obj [("name", .str "John"), ("age", .num 30)]),
    ("jane", .obj [("name", .str "Jane"), ("email", .str "jane@example.com")]),
    ("bob", .obj [("age", .num 25), ("email", .str "bob@example.com")])])]

/-- The statement `\x7b [DEEP_ALL]: \x7b name: true, email: true \x7d \x7d`. -/
def deepAllTestStmt : SStmt :=
  .node (some (.node none none none [("name", .sbool true), ("email", .sbool true)]))
    none none []

/-- The result the repository's test and documentation expect: each listed
field collected independently wherever it exists. -/
def deepAllExpected : Value :=
  .obj [("users", .obj [
    ("john", .obj [("name", .str "John")]),
    ("jane", .obj [("name", .str "Jane"), ("email", .str "jane@example.com")]),
    ("bob", .obj [("email", .str "bob@example.com")])])]

/-- What the code actually returns on that input: only the node carrying
all the listed fields simultaneously survives. -/
def deepAllActual : Value :=
  .obj [("users", .obj [
    ("jane", .obj [("name", .str "Jane"), ("email", .str "jane@example.com")])])]


/-! ## Lemma layer: decimal rendering round-trips with parsing -/

theorem digitChar_toNat (d : Nat) (h : d < 10) : (digitChar d).toNat = 48 + d := by
  interval_cases d <;> decide

theorem digitChar_isDigit (d : Nat) (h : d < 10) : (digitChar d).isDigit = true := by
  interval_cases d <;> decide

theorem digitsVal_append (xs : List Char) (c : Char) :
    digitsVal (xs ++ [c]) = digitsVal xs * 10 + (c.toNat - '0'.toNat) := by
  simp [digitsVal, List.foldl_append]

theorem natDigitsRev_ne_nil (f n : Nat) (h : n < f) : natDigitsRev f n ≠ [] := by
  cases f with
  | zero => omega
  | succ f' =>
    by_cases h10 : n < 10 <;> simp [natDigitsRev, h10]

theorem natDigitsRev_digits (f : Nat) : ∀ n, n < f →
    ∀ c ∈ natDigitsRev f n, c.isDigit = true := by
  induction f with
  | zero => intro n h; omega
  | succ f' ih =>
    intro n h c hc
    by_cases h10 : n < 10
    · simp [natDigitsRev, h10] at hc
      subst hc
      exact digitChar_isDigit n h10
    · simp [natDigitsRev, h10] at hc
      rcases hc with hc | hc
      · subst hc
        exact digitChar_isDigit _ (Nat.mod_lt _ (by omega))
      · exact ih (n / 10) (by omega) c hc

theorem natDigitsRev_val (f : Nat) : ∀ n, n < f →
    digitsVal (natDigitsRev f n).reverse = n := by
  induction f with
  | zero => intro n h; omega
  | succ f' ih =>
    intro n h
    by_cases h10 : n < 10
    · simp [natDigitsRev, h10, digitsVal, digitChar_toNat n h10]
    · have hstep : natDigitsRev (f' + 1) n = digitChar (n % 10) :: natDigitsRev f' (n / 10) := by
        simp [natDigitsRev, h10]
      rw [hstep, List.reverse_cons, digitsVal_append, ih (n / 10) (by omega),
        digitChar_toNat (n % 10) (Nat.mod_lt _ (by omega))]
      have h0 : '0'.toNat = 48 := rfl
      rw [h0]
      omega

theorem natToStr_data (n : Nat) : (natToStr n).data = (natDigitsRev (n + 1) n).reverse := rfl

theorem natToStr_data_ne_nil (n : Nat) : (natToStr n).data ≠ [] := by
  rw [natToStr_data]
  simp
  exact natDigitsRev_ne_nil _ _ (Nat.lt_succ_self n)

theorem natToStr_digits (n : Nat) : ∀ c ∈ (natToStr n).data, c.isDigit = true := by
  rw [natToStr_data]
  intro c hc
  rw [List.mem_reverse] at hc
  exact natDigitsRev_digits _ _ (Nat.lt_succ_self n) c hc

theorem digitsVal_natToStr (n : Nat) : digitsVal (natToStr n).data = n := by
  rw [natToStr_data]
  exact natDigitsRev_val _ _ (Nat.lt_succ_self n)

theorem canonIndex_natToStr (n : Nat) (h : n < 2 ^ 32 - 1) :
    canonIndex (natToStr n) = some n := by
  unfold canonIndex
  rcases hd : (natToStr n).data with _ | ⟨c, cs⟩
  · exact absurd hd (natToStr_data_ne_nil n)
  · have hall : (c :: cs).all Char.isDigit = true := by
      rw [List.all_eq_true]
      intro x hx
      exact natToStr_digits n x (hd ▸ hx)
    have hval : digitsVal (c :: cs) = n := by
      rw [← hd]; exact digitsVal_natToStr n
    simp only [hall, if_true, hval, h, and_true]

theorem canonIndex_some (s : String) (i : Nat) (h : canonIndex s = some i) :
    s = natToStr i ∧ i < 2 ^ 32 - 1 := by
  unfold canonIndex at h
  rcases hd : s.data with _ | ⟨c, cs⟩ <;> rw [hd] at h
  · simp at h
  · by_cases hall : (c :: cs).all Char.isDigit = true
    · simp only [hall, if_true] at h
      by_cases hc : natToStr (digitsVal (c :: cs)) = s ∧ digitsVal (c :: cs) < 2 ^ 32 - 1
      · rw [if_pos hc] at h
        cases h
        exact ⟨hc.1.symm, hc.2⟩
      · rw [if_neg hc] at h
        cases h
    · simp [hall] at h

theorem digit_not_ws (c : Char) (h : c.isDigit = true) : c.isWhitespace = false := by
  by_cases h1 : c = ' '
  · subst h1; exact absurd h (by decide)
  by_cases h2 : c = '\t'
  · subst h2; exact absurd h (by decide)
  by_cases h3 : c = '\r'
  · subst h3; exact absurd h (by decide)
  by_cases h4 : c = '\n'
  · subst h4; exact absurd h (by decide)
  simp [Char.isWhitespace, h1, h2, h3, h4]

theorem dropWhile_eq_self_of (p : Char → Bool) (l : List Char)
    (h : ∀ c ∈ l, p c = false) : l.dropWhile p = l := by
  cases l with
  | nil => rfl
  | cons c cs => simp [List.dropWhile_cons, h c (by simp)]

theorem trimJS_digits (s : String)
    (h : ∀ c ∈ s.data, c.isDigit = true) : trimJS s = s := by
  unfold trimJS
  rw [dropWhile_eq_self_of _ _ (fun c hc => digit_not_ws c (h c hc)),
    dropWhile_eq_self_of _ _ (fun c hc => digit_not_ws c (h c (List.mem_reverse.mp hc))),
    List.reverse_reverse]

theorem mk_data (s : String) : String.mk s.data = s := rfl

theorem data_append (a b : String) : (a ++ b).data = a.data ++ b.data := rfl

theorem strToNumber_natToStr (n : Nat) : strToNumber (natToStr n) = some (n : Int) := by
  simp only [strToNumber]
  rw [trimJS_digits _ (natToStr_digits n)]
  have hne : ¬ natToStr n = "" := by
    intro h
    exact natToStr_data_ne_nil n (congrArg String.data h)
  rw [if_neg hne]
  rcases hd : (natToStr n).data with _ | ⟨c, cs⟩
  · exact absurd hd (natToStr_data_ne_nil n)
  · have hcdig : c.isDigit = true := natToStr_digits n c (by rw [hd]; exact List.mem_cons_self c cs)
    have hall : (c :: cs).all Char.isDigit = true := by
      rw [List.all_eq_true]
      intro x hx
      exact natToStr_digits n x (hd ▸ hx)
    have hval : digitsVal (c :: cs) = n := by
      rw [← hd]; exact digitsVal_natToStr n
    split
    · next rest heq =>
      exfalso
      cases heq
      exact absurd hcdig (by decide)
    · next rest heq =>
      exfalso
      cases heq
      exact absurd hcdig (by decide)
    · simp [hall, hval]

theorem predFuel_pos (v : Value) (p : Pred) : 0 < predFuel v p :=
  Nat.mul_pos (by omega) (by omega)

theorem dropWhile_all_append (p : Char → Bool) (xs ys : List Char)
    (h : ∀ x ∈ xs, p x = true) : (xs ++ ys).dropWhile p = ys.dropWhile p := by
  induction xs with
  | nil => rfl
  | cons c cs ih =>
    have hc := h c (by simp)
    simp only [List.cons_append, List.dropWhile_cons, hc, if_true]
    exact ih (fun x hx => h x (by simp [hx]))

theorem takeWhile_all_append (p : Char → Bool) (xs : List Char) (c : Char) (ys : List Char)
    (h : ∀ x ∈ xs, p x = true) (hc : p c = false) :
    (xs ++ c :: ys).takeWhile p = xs := by
  induction xs with
  | nil => simp [List.takeWhile_cons, hc]
  | cons a as ih =>
    have ha := h a (by simp)
    simp only [List.cons_append, List.takeWhile_cons, ha, if_true]
    rw [ih (fun x hx => h x (by simp [hx]))]

theorem toSearchCriteria_encoded (pat flags : String) (hf : '/' ∉ flags.data) :
    toSearchCriteria ("/" ++ pat ++ "/" ++ flags) = (pat, flags) := by
  have h0 : ("/" : String).data = ['/'] := rfl
  have hdata : ("/" ++ pat ++ "/" ++ flags).data = '/' :: (pat.data ++ '/' :: flags.data) := by
    simp [data_append, h0]
  have hallf : ∀ x ∈ flags.data.reverse, (fun c => decide (c ≠ '/')) x = true := by
    intro x hx
    simp only [decide_eq_true_eq]
    intro hxe
    exact hf (hxe ▸ List.mem_reverse.mp hx)
  have hmem : '/' ∈ pat.data ++ '/' :: flags.data := by simp
  have hrev : (pat.data ++ '/' :: flags.data).reverse
      = flags.data.reverse ++ '/' :: pat.data.reverse := by
    simp
  unfold toSearchCriteria
  rw [hdata]
  simp only [hmem, if_true, hrev]
  rw [dropWhile_all_append _ _ _ hallf, List.dropWhile_cons]
  rw [takeWhile_all_append _ _ _ _ hallf (by decide)]
  simp [mk_data]

theorem toSearchCriteria_bare (s : String) (hs : s.data.head? ≠ some '/') :
    toSearchCriteria s = (s, "") := by
  unfold toSearchCriteria
  rcases hd : s.data with _ | ⟨c, cs⟩
  · rfl
  · have hc : c ≠ '/' := by
      intro h
      rw [hd, h] at hs
      exact hs rfl
    split <;> simp_all

theorem evalPredicateP3_matchPred_str (rxFF : String → String → String → Bool)
    (f : Nat) (pat s : String) :
    evalPredicateP3 rxFF (f + 1) (.str s) (matchPred pat) =
      rxFF (toSearchCriteria pat).1 (toSearchCriteria pat).2 s := by
  cases h : rxFF (toSearchCriteria pat).1 (toSearchCriteria pat).2 s <;>
    simp [evalPredicateP3, matchPred, h]

theorem evalPredicateP3_matchPred_nonstr (rxFF : String → String → String → Bool)
    (f : Nat) (pat : String) (v : Value) (hv : v.isStr = false) :
    evalPredicateP3 rxFF (f + 1) v (matchPred pat) = false := by
  cases v <;> (try rfl) <;> simp_all [Value.isStr]

theorem evalPred_matchPred_str (rx : String → String → Bool) (f : Nat) (pat s : String) :
    evalPred rx (f + 1) (.str s) (matchPred pat) = rx pat s := rfl

theorem evalPred_matchPred_prim (rx : String → String → Bool) (f : Nat) (pat : String)
    (v : Value) (h1 : v.isStr = false) (h2 : v.isContainer = false) :
    evalPred rx (f + 1) v (matchPred pat) = false := by
  cases v <;> (try rfl) <;> simp_all [Value.isStr, Value.isContainer]

theorem evalPred_matchPred_container (rx : String → String → Bool) (f : Nat) (pat : String)
    (v : Value) (hv : v.isContainer = true) :
    evalPred rx (f + 3) v (matchPred pat) = true := by
  cases v with
  | arr es ps => rfl
  | obj fs => rfl
  | undef => exact Bool.noConfusion hv
  | null => exact Bool.noConfusion hv
  | bool b => exact Bool.noConfusion hv
  | num n => exact Bool.noConfusion hv
  | str s => exact Bool.noConfusion hv

theorem evalPred_por_nil (rx : String → String → Bool) (f : Nat) (v : Value) :
    evalPred rx f v (.por []) = false := by
  cases f with
  | zero => rfl
  | succ g =>
    cases v <;> first
      | rfl
      | (cases g <;> rfl)

theorem evalPred_emptyNode (rx : String → String → Bool) (f : Nat) (v : Value)
    (h : v.isNullish = false) :
    evalPred rx (f + 1) v Pred.emptyNode = true := by
  cases v <;> simp_all [evalPred, Pred.emptyNode, Pred.isEmpty, Value.isNullish]


theorem markerSym_symMarker (t : SymTok) : markerSym (symMarker t) = some t := by
  cases t <;> decide

mutual
theorem fromJSON_toJSON (t : JTree) (h : noMarkerKeys t = true) :
    fromJSON (toJSON t) = t := by
  cases t with
  | jundef => rfl
  | jnull => rfl
  | jbool b => rfl
  | jnum n => rfl
  | jstr s => rfl
  | jarr es =>
    have h' : noMarkerKeysList es = true := h
    simp only [toJSON, fromJSON]
    rw [fromJSON_toJSON_list es h']
  | jobj entries =>
    have h' : noMarkerKeysEntries entries = true := h
    simp only [toJSON, fromJSON]
    rw [fromJSON_toJSON_entries entries h']

theorem fromJSON_toJSON_list (ts : List JTree) (h : noMarkerKeysList ts = true) :
    fromJSONList (toJSONList ts) = ts := by
  cases ts with
  | nil => rfl
  | cons t rest =>
    have h' : noMarkerKeys t = true ∧ noMarkerKeysList rest = true := by
      simpa [noMarkerKeysList, Bool.and_eq_true] using h
    simp only [toJSONList, fromJSONList]
    rw [fromJSON_toJSON t h'.1, fromJSON_toJSON_list rest h'.2]

theorem fromJSON_toJSON_entries (es : List (JKey × JTree)) (h : noMarkerKeysEntries es = true) :
    fromJSONEntries (toJSONEntries es) = es := by
  cases es with
  | nil => rfl
  | cons e rest =>
    rcases e with ⟨k, v⟩
    cases k with
    | strk k =>
      have h' : (markerSym k).isNone = true ∧ noMarkerKeys v = true ∧
          noMarkerKeysEntries rest = true := by
        simpa [noMarkerKeysEntries, Bool.and_eq_true, and_assoc] using h
      have hm : markerSym k = none := Option.isNone_iff_eq_none.mp h'.1
      simp only [toJSONEntries, fromJSONEntries, hm]
      rw [fromJSON_toJSON v h'.2.1, fromJSON_toJSON_entries rest h'.2.2]
    | sym tk =>
      have h' : noMarkerKeys v = true ∧ noMarkerKeysEntries rest = true := by
        simpa [noMarkerKeysEntries, Bool.and_eq_true] using h
      simp only [toJSONEntries, fromJSONEntries, markerSym_symMarker]
      rw [fromJSON_toJSON v h'.1, fromJSON_toJSON_entries rest h'.2]
end

theorem aset_lookup_self {α : Type} (fs : List (String × α)) (k : String) (v : α)
    (h : alookup fs k = some v) : aset fs k v = fs := by
  induction fs with
  | nil => simp [alookup] at h
  | cons e rest ih =>
    rcases e with ⟨k1, v1⟩
    by_cases hk : k1 = k
    · subst hk
      simp [alookup] at h
      simp [aset, h]
    · simp [alookup, hk] at h
      simp [aset, hk, ih h]

theorem list_set_self {α : Type} (l : List α) (i : Nat) (x : α)
    (h : l[i]? = some x) : l.set i x = l := by
  induction l generalizing i with
  | nil => simp at h
  | cons a rest ih =>
    cases i with
    | zero =>
      simp at h
      simp [h]
    | succ j =>
      simp at h
      simp [ih j h]

theorem jsSet_get_self (d : Value) (k : String)
    (h : (d.jsGet k).isContainer = true) : d.jsSet k (d.jsGet k) = d := by
  cases d with
  | obj fs =>
    simp only [Value.jsGet] at h ⊢
    rcases hl : alookup fs k with _ | v
    · rw [hl] at h
      simp [Value.isContainer] at h
    · rw [hl] at h
      simp only [Option.getD_some, Value.jsSet]
      rw [aset_lookup_self fs k v hl]
  | arr es ps =>
    rcases hc : canonIndex k with _ | i
    · simp only [Value.jsGet, hc] at h ⊢
      rcases hl : alookup ps k with _ | v
      · rw [hl] at h
        simp [Value.isContainer] at h
      · rw [hl] at h
        simp only [Option.getD_some, Value.jsSet, hc]
        rw [aset_lookup_self ps k v hl]
    · simp only [Value.jsGet, hc] at h ⊢
      rcases he : es[i]? with _ | oe
      · have hg : es.getD i none = none := by
          rw [List.getD_eq_getElem?_getD, he]
          rfl
        rw [hg] at h
        simp [Value.isContainer] at h
      · rcases oe with _ | v
        · have hg : es.getD i none = none := by
            rw [List.getD_eq_getElem?_getD, he]
            rfl
          rw [hg] at h
          simp [Value.isContainer] at h
        · have hg : es.getD i none = some v := by
            rw [List.getD_eq_getElem?_getD, he]
            rfl
          have hlen : i < es.length := by
            by_contra hn
            rw [List.getElem?_eq_none (by omega)] at he
            cases he
          rw [hg] at h ⊢
          simp only [Option.getD_some, Value.jsSet, hc, if_pos hlen]
          rw [list_set_self es i (some v) he]
  | undef => simp [Value.jsGet, Value.isContainer] at h
  | null => simp [Value.jsGet, Value.isContainer] at h
  | bool b => simp [Value.jsGet, Value.isContainer] at h
  | num n => simp [Value.jsGet, Value.isContainer] at h
  | str s => simp [Value.jsGet, Value.isContainer] at h

theorem compactRes_fst (p : Value × Option Value) : (compactRes p).1 = p.1 := by
  rcases p with ⟨d2, r⟩
  rcases r with _ | v
  · rfl
  · cases v <;> simp [compactRes] <;> split <;> rfl

theorem sel_fst_all (rx : String → String → Bool) : ∀ fuel,
    (∀ d s, (selectImpl rx fuel d s).1 = d) ∧
    (∀ d k kst res, (selAdd rx fuel d k kst res).1 = d) ∧
    (∀ d da ks res, (selDeep rx fuel d da ks res).1 = d) ∧
    (∀ d al ks res, (selAll rx fuel d al ks res).1 = d) ∧
    (∀ d fields res, (selRest rx fuel d fields res).1 = d) := by
  intro fuel
  induction fuel with
  | zero =>
    exact ⟨fun _ _ => rfl, fun _ _ _ _ => rfl, fun _ _ _ _ => rfl,
      fun _ _ _ _ => rfl, fun _ _ _ => rfl⟩
  | succ f ih =>
    obtain ⟨ihImpl, ihAdd, ihDeep, ihAll, ihRest⟩ := ih
    refine ⟨?_, ?_, ?_, ?_, ?_⟩
    · intro d s
      cases s with
      | sbool b => cases h : d.isContainer <;> simp [selectImpl, h]
      | node dA al wh fl =>
        simp only [selectImpl]
        split
        · rfl
        split
        · rfl
        simp only [ihRest, compactRes_fst]
        cases dA with
        | none =>
          cases al with
          | none => rfl
          | some a => cases h : SStmt.truthy a <;> simp [h, ihAll]
        | some da =>
          cases al with
          | none => cases h : SStmt.truthy da <;> simp [h, ihDeep]
          | some a =>
            cases h : SStmt.truthy da <;> cases h2 : SStmt.truthy a <;>
              simp [h, h2, ihAll, ihDeep]
    · intro d k kst res
      simp only [selAdd]
      split
      · rfl
      · cases kst with
        | sbool b => cases b <;> rfl
        | node dA2 al2 wh2 fl2 =>
          simp only [ihImpl]
          by_cases h : (Value.jsGet d k).isContainer
          · simp only [h, if_true, jsSet_get_self d k h]
            split <;> rfl
          · simp only [h, Bool.false_eq_true, if_false]
            split <;> rfl
    · intro d da ks res
      cases ks with
      | nil => rfl
      | cons k rest =>
        simp only [selDeep, ihDeep]
        split
        · split
          · split <;> simp [ihAdd]
          · rfl
        · split <;> simp [ihAdd]
    · intro d al ks res
      cases ks with
      | nil => rfl
      | cons k rest => simp [selAll, ihAll, ihAdd]
    · intro d fields res
      cases fields with
      | nil => rfl
      | cons e rest =>
        rcases e with ⟨k, kst⟩
        simp [selRest, ihRest, ihAdd]

theorem orderForIn_single (k : String) (op : UStmt) : orderForIn [(k, op)] = [(k, op)] := by
  unfold orderForIn
  rcases hc : canonIndex k with _ | i
  · simp [akeys, hc, sortAsc]
  · have hk : natToStr i = k := (canonIndex_some k i hc).1.symm
    simp [akeys, hc, sortAsc, insertAsc, hk, alookup]

theorem updateKeyObj_nonobj_err (rx : String → String → Bool) (f : Nat) (d : Value)
    (ak : String) (oldV : Value) (aq : Option UStmt) (cq : Option (List (String × Value)))
    (fq : List (String × UStmt)) (c : Option CRec) (ctx : UCtx)
    (hnc : oldV.isContainer = false) :
    updateKeyObj rx (f + 1) d ak oldV (.unode none aq none cq fq) c ctx =
      .error ("Can't partially update a non-object: " ++ ak) := by
  simp [updateKeyObj, hnc]

theorem selRest_nil (rx : String → String → Bool) (fuel : Nat) (d : Value) (res : Option Value) :
    selRest rx fuel d [] res = (d, res) := by
  cases fuel <;> rfl

theorem compactRes_dense (p : Value × Option Value) (es' : List (Option Value))
    (ps' : List (String × Value)) (h : (compactRes p).2 = some (.arr es' ps')) :
    es'.all Option.isSome = true := by
  rcases p with ⟨d2, r⟩
  rcases r with _ | v
  · simp [compactRes] at h
  · cases v with
    | arr es ps =>
      by_cases hl : es.length > 0
      · simp [compactRes, hl] at h
        rcases h with ⟨h1, h2⟩
        subst h1
        simp [List.all_eq_true]
      · simp [compactRes, hl] at h
        rcases h with ⟨h1, h2⟩
        subst h1
        have he : es = [] := List.length_eq_zero.mp (by omega)
        subst he
        rfl
    | undef => simp [compactRes] at h
    | null => simp [compactRes] at h
    | bool b => simp [compactRes] at h
    | num n => simp [compactRes] at h
    | str s => simp [compactRes] at h
    | obj fs => simp [compactRes] at h

theorem selectImpl_all_dense (rx : String → String → Bool) (f : Nat) (d : Value)
    (dA : Option SStmt) (al : SStmt) (wh : Option SWhere) (es' : List (Option Value))
    (ps' : List (String × Value))
    (h : (selectImpl rx (f + 1) d (.node dA (some al) wh [])).2 = some (.arr es' ps')) :
    es'.all Option.isSome = true := by
  simp only [selectImpl] at h
  split at h
  · simp at h
  · split at h
    · next hc =>
      simp only [Option.some.injEq] at h
      subst h
      simp [Value.isContainer] at hc
    · rw [selRest_nil] at h
      exact compactRes_dense _ _ _ h

theorem alookup_aset_self {α : Type} (l : List (String × α)) (k : String) (v : α) :
    alookup (aset l k v) k = some v := by
  induction l with
  | nil => simp [aset, alookup]
  | cons e rest ih =>
    rcases e with ⟨k1, v1⟩
    by_cases hk : k1 = k
    · subst hk
      simp [aset, alookup]
    · simp [aset, alookup, hk, ih]

theorem jsGet_jsSet_same_obj (fs : List (String × Value)) (k : String) (v : Value) :
    ((Value.obj fs).jsSet k v).jsGet k = v := by
  simp [Value.jsSet, Value.jsGet, alookup_aset_self]

theorem updateGo_nil (rx : String → String → Bool) (fuel : Nat) (d : Value) (c : Option CRec)
    (ctx : UCtx) : updateGo rx fuel d [] c ctx = .ok (d, c) := by
  cases fuel <;> rfl

theorem addValueChange_cset (c : CRec) (k : String) (oldV newV v o : Value)
    (h : alookup c k = some (.cset v o)) :
    alookup (addValueChange (some c) k oldV newV) k = some (.cset newV o) := by
  simp [addValueChange, h, alookup_aset_self]

theorem addValueChange_first (c : Option CRec) (k : String) (oldV newV : Value)
    (h : alookup (c.getD []) k = none) :
    alookup (addValueChange c k oldV newV) k = some (.cset newV oldV) := by
  simp [addValueChange, h, alookup_aset_self]

theorem addValueChange_cnest (c : CRec) (k : String) (oldV newV : Value) (cn : CRec)
    (h : alookup c k = some (.cnest cn)) (hc : oldV.isContainer = true) :
    alookup (addValueChange (some c) k oldV newV) k =
      some (.cset newV (undoVal oldV cn)) := by
  simp [addValueChange, h, hc, alookup_aset_self]

theorem updateGo_single_prim (rx : String → String → Bool) (f : Nat)
    (fs : List (String × Value)) (k : String) (v : Value) (c : Option CRec) (ctx : UCtx)
    (hne : jsStrictEq ((Value.obj fs).jsGet k) v = false) :
    updateGo rx (f + 1 + 1) (.obj fs) [(k, .prim v)] c ctx =
      .ok ((Value.obj fs).jsSet k v,
        some (addValueChange c k ((Value.obj fs).jsGet k)
          (((Value.obj fs).jsSet k v).jsGet k))) := by
  simp only [updateGo, resolveKey, hne, Bool.false_eq_true, if_false, updateGo_nil]

/-! ## Association-list characterisations (towards the undo round trip) -/

theorem alookup_aset_char {α : Type} (l : List (String × α)) (k : String) (v : α)
    (k' : String) :
    alookup (aset l k v) k' = if k = k' then some v else alookup l k' := by
  induction l with
  | nil => simp [aset, alookup]
  | cons e rest ih =>
    rcases e with ⟨k1, w⟩
    by_cases hk : k1 = k
    · subst hk
      by_cases hk' : k1 = k'
      · subst hk'
        simp [aset, alookup]
      · simp [aset, alookup, hk']
    · by_cases hk' : k1 = k'
      · subst hk'
        have hk2 : ¬ k = k1 := fun h => hk h.symm
        simp [aset, alookup, hk, hk2]
      · simp [aset, alookup, hk, hk', ih]

theorem alookup_adel_char {α : Type} (l : List (String × α)) (k k' : String) :
    alookup (adel l k) k' = if k = k' then none else alookup l k' := by
  induction l with
  | nil => simp [adel, alookup]
  | cons e rest ih =>
    rcases e with ⟨k1, w⟩
    by_cases hk : k1 = k
    · subst hk
      by_cases hk' : k1 = k'
      · subst hk'
        simp [adel, alookup, ih]
      · simp [adel, alookup, hk', ih]
    · by_cases hk' : k1 = k'
      · subst hk'
        have hk2 : ¬ k = k1 := fun h => hk h.symm
        simp [adel, alookup, hk, hk2]
      · simp [adel, alookup, hk, hk', ih]

theorem nodupKeys_aset {α : Type} (l : List (String × α)) (k : String) (v : α)
    (h : nodupKeys l = true) : nodupKeys (aset l k v) = true := by
  induction l with
  | nil => simp [aset, nodupKeys, alookup]
  | cons e rest ih =>
    rcases e with ⟨k1, w⟩
    simp only [nodupKeys, Bool.and_eq_true] at h
    by_cases hk : k1 = k
    · subst hk
      simp [aset, nodupKeys, h.1, h.2]
    · simp only [aset, hk, if_false, nodupKeys, Bool.and_eq_true]
      refine ⟨?_, ih h.2⟩
      have hk2 : ¬ k = k1 := fun h => hk h.symm
      rw [alookup_aset_char, if_neg hk2]
      exact h.1

theorem nodupKeys_adel {α : Type} (l : List (String × α)) (k : String)
    (h : nodupKeys l = true) : nodupKeys (adel l k) = true := by
  induction l with
  | nil => simp [adel, nodupKeys]
  | cons e rest ih =>
    rcases e with ⟨k1, w⟩
    simp only [nodupKeys, Bool.and_eq_true] at h
    by_cases hk : k1 = k
    · subst hk
      simpa [adel] using ih h.2
    · simp only [adel, hk, if_false, nodupKeys, Bool.and_eq_true]
      refine ⟨?_, ih h.2⟩
      have hk2 : ¬ k = k1 := fun h => hk h.symm
      rw [alookup_adel_char, if_neg hk2]
      exact h.1

theorem alookup_isSome_of_mem {α : Type} (l : List (String × α)) (k : String) (v : α)
    (h : (k, v) ∈ l) : (alookup l k).isSome = true := by
  induction l with
  | nil => simp at h
  | cons e rest ih =>
    rcases e with ⟨k1, w⟩
    by_cases hk : k1 = k
    · simp [alookup, hk]
    · simp only [List.mem_cons] at h
      rcases h with h | h
      · cases h
        simp at hk
      · simp [alookup, hk, ih h]

theorem alookup_of_mem_nodup {α : Type} (l : List (String × α)) (k : String) (v : α)
    (hnd : nodupKeys l = true) (h : (k, v) ∈ l) : alookup l k = some v := by
  induction l with
  | nil => simp at h
  | cons e rest ih =>
    rcases e with ⟨k1, w⟩
    simp only [nodupKeys, Bool.and_eq_true] at hnd
    simp only [List.mem_cons] at h
    rcases h with h | h
    · simp only [Prod.mk.injEq] at h
      rcases h with ⟨h1, h2⟩
      subst h1
      subst h2
      simp [alookup]
    · by_cases hk : k1 = k
      · subst hk
        have := alookup_isSome_of_mem rest k1 v h
        rw [Option.isNone_iff_eq_none.mp hnd.1] at this
        simp at this
      · simp [alookup, hk, ih hnd.2 h]

theorem alookup_isSome_of_key_mem {α : Type} (l : List (String × α)) (k : String)
    (h : k ∈ akeys l) : (alookup l k).isSome = true := by
  simp only [akeys, List.mem_map] at h
  rcases h with ⟨⟨k1, v⟩, hm, hk⟩
  subst hk
  exact alookup_isSome_of_mem l k1 v hm

/-! ## `restoresTo` is reflexive on well-formed values and transitive -/

theorem restoresTo_undef (x : Value) (h : restoresTo .undef x = true) : x = .undef := by
  cases x <;> simp [restoresTo] at h <;> rfl

theorem slotBlank_of_restoresTo_undef (x : Value) (h : restoresTo .undef x = true) :
    slotBlank (some x) = true := by
  rw [restoresTo_undef x h]
  rfl

theorem rtProps_lookup (L M : List (String × Value)) (k : String) (v : Value)
    (h : rtProps L M = true) (hl : alookup L k = some v) :
    ∃ w, alookup M k = some w ∧ restoresTo v w = true := by
  induction L with
  | nil => simp [alookup] at hl
  | cons e rest ih =>
    rcases e with ⟨k1, u⟩
    simp only [rtProps, Bool.and_eq_true] at h
    by_cases hk : k1 = k
    · subst hk
      simp [alookup] at hl
      subst hl
      rcases hm : alookup M k1 with _ | w
      · rw [hm] at h
        simp at h
      · rw [hm] at h
        exact ⟨w, rfl, h.1⟩
    · simp only [alookup, hk, if_false] at hl
      exact ih h.2 hl

mutual
theorem restoresTo_refl (v : Value) (h : wfV v = true) : restoresTo v v = true := by
  cases v with
  | undef => rfl
  | null => rfl
  | bool b => simp [restoresTo]
  | num n => simp [restoresTo]
  | str s => simp [restoresTo]
  | arr es ps =>
    simp only [wfV, Bool.and_eq_true] at h
    simp only [restoresTo, Bool.and_eq_true]
    refine ⟨⟨rtElems_refl es h.1, rtProps_refl_all ps ps
      (fun p hp => alookup_of_mem_nodup ps p.1 p.2 h.2.1 hp) h.2.2⟩, ?_⟩
    rw [List.all_eq_true]
    intro k hk
    simp [alookup_isSome_of_key_mem ps k hk]
  | obj fs =>
    simp only [wfV, Bool.and_eq_true] at h
    simp only [restoresTo, Bool.and_eq_true]
    refine ⟨rtProps_refl_all fs fs
      (fun p hp => alookup_of_mem_nodup fs p.1 p.2 h.1 hp) h.2, ?_⟩
    rw [List.all_eq_true]
    intro k hk
    simp [alookup_isSome_of_key_mem fs k hk]

theorem rtElems_refl (es : List (Option Value)) (h : wfElems es = true) :
    rtElems es es = true := by
  cases es with
  | nil => rfl
  | cons o rest =>
    cases o with
    | none =>
      simp only [wfElems] at h
      simp only [rtElems, slotBlank, Bool.true_and]
      exact rtElems_refl rest h
    | some v =>
      simp only [wfElems, Bool.and_eq_true] at h
      simp only [rtElems, Bool.and_eq_true]
      exact ⟨restoresTo_refl v h.1, rtElems_refl rest h.2⟩

theorem rtProps_refl_all (l full : List (String × Value))
    (hl : ∀ p ∈ l, alookup full p.1 = some p.2) (hw : wfProps l = true) :
    rtProps l full = true := by
  cases l with
  | nil => rfl
  | cons e rest =>
    rcases e with ⟨k, v⟩
    simp only [wfProps, Bool.and_eq_true] at hw
    simp only [rtProps, Bool.and_eq_true]
    constructor
    · rw [hl (k, v) (by simp)]
      exact restoresTo_refl v hw.1
    · exact rtProps_refl_all rest full (fun p hp => hl p (by simp [hp])) hw.2
end

theorem rtElems_blank (fs gs : List (Option Value)) (hb : fs.all slotBlank = true)
    (h : rtElems fs gs = true) : gs.all slotBlank = true := by
  induction fs generalizing gs with
  | nil => exact h
  | cons o rest ih =>
    simp only [List.all_cons, Bool.and_eq_true] at hb
    cases o with
    | none =>
      cases gs with
      | nil => simp [rtElems] at h
      | cons o2 r2 =>
        simp only [rtElems, Bool.and_eq_true] at h
        simp only [List.all_cons, Bool.and_eq_true]
        exact ⟨h.1, ih r2 hb.2 h.2⟩
    | some v =>
      have hv : v = .undef := by
        cases v <;> simp [slotBlank] at hb <;> rfl
      subst hv
      cases gs with
      | nil => simp [rtElems] at h
      | cons o2 r2 =>
        cases o2 with
        | none => simp [rtElems] at h
        | some w =>
          simp only [rtElems, Bool.and_eq_true] at h
          simp only [List.all_cons, Bool.and_eq_true]
          exact ⟨slotBlank_of_restoresTo_undef w h.1, ih r2 hb.2 h.2⟩

theorem key_mem_of_isSome {α : Type} (l : List (String × α)) (k : String)
    (h : (alookup l k).isSome = true) : k ∈ akeys l := by
  induction l with
  | nil => simp [alookup] at h
  | cons e rest ih =>
    rcases e with ⟨k1, v⟩
    by_cases hk : k1 = k
    · subst hk
      simp [akeys]
    · simp only [alookup, hk, if_false] at h
      simp [akeys] at ih ⊢
      exact .inr (ih h)

theorem restoresTo_arr_shape (es : List (Option Value)) (ps : List (String × Value))
    (b : Value) (h : restoresTo (.arr es ps) b = true) :
    ∃ es2 ps2, b = .arr es2 ps2 := by
  cases b
  case arr es2 ps2 => exact ⟨es2, ps2, rfl⟩
  all_goals simp [restoresTo] at h

theorem restoresTo_obj_shape (fs : List (String × Value)) (b : Value)
    (h : restoresTo (.obj fs) b = true) : ∃ gs, b = .obj gs := by
  cases b
  case obj gs => exact ⟨gs, rfl⟩
  all_goals simp [restoresTo] at h

theorem restoresTo_isContainer (a b : Value) (h : restoresTo a b = true) :
    a.isContainer = b.isContainer := by
  cases a <;> cases b <;> simp_all [restoresTo, Value.isContainer]

mutual
theorem restoresTo_trans (a b c : Value) (h1 : restoresTo a b = true)
    (h2 : restoresTo b c = true) : restoresTo a c = true := by
  cases a with
  | undef =>
    rw [restoresTo_undef b h1] at h2
    exact h2
  | null =>
    cases b <;> simp [restoresTo] at h1
    exact h2
  | bool x =>
    cases b <;> simp [restoresTo] at h1
    subst h1
    exact h2
  | num x =>
    cases b <;> simp [restoresTo] at h1
    subst h1
    exact h2
  | str x =>
    cases b <;> simp [restoresTo] at h1
    subst h1
    exact h2
  | arr es ps =>
    obtain ⟨es2, ps2, rfl⟩ := restoresTo_arr_shape es ps b h1
    obtain ⟨es3, ps3, rfl⟩ := restoresTo_arr_shape es2 ps2 c h2
    simp only [restoresTo, Bool.and_eq_true] at h1 h2 ⊢
    refine ⟨⟨rtElems_trans es es2 es3 h1.1.1 h2.1.1,
      rtProps_trans ps ps2 ps3 h1.1.2 h2.1.2⟩, ?_⟩
    rw [List.all_eq_true]
    intro k hk
    have hc2 := (List.all_eq_true.mp h2.2) k hk
    rw [Bool.or_eq_true] at hc2
    rcases hc2 with hc2 | hc2
    · obtain ⟨w, hw⟩ := Option.isSome_iff_exists.mp hc2
      have hmem : k ∈ akeys ps2 := key_mem_of_isSome ps2 k hc2
      have hc1 := (List.all_eq_true.mp h1.2) k hmem
      rw [Bool.or_eq_true] at hc1
      rcases hc1 with hc1 | hc1
      · simp [hc1]
      · rw [hw] at hc1
        have hwu : w = .undef := by
          cases w <;> simp at hc1 <;> rfl
        subst hwu
        obtain ⟨x, hx, hux⟩ := rtProps_lookup ps2 ps3 k .undef h2.1.2 hw
        rw [restoresTo_undef x hux] at hx
        simp [hx]
    · simp [hc2]
  | obj fs =>
    obtain ⟨gs, rfl⟩ := restoresTo_obj_shape fs b h1
    obtain ⟨hs, rfl⟩ := restoresTo_obj_shape gs c h2
    simp only [restoresTo, Bool.and_eq_true] at h1 h2 ⊢
    refine ⟨rtProps_trans fs gs hs h1.1 h2.1, ?_⟩
    rw [List.all_eq_true]
    intro k hk
    have hc2 := (List.all_eq_true.mp h2.2) k hk
    rw [Bool.or_eq_true] at hc2
    rcases hc2 with hc2 | hc2
    · obtain ⟨w, hw⟩ := Option.isSome_iff_exists.mp hc2
      have hmem : k ∈ akeys gs := key_mem_of_isSome gs k hc2
      have hc1 := (List.all_eq_true.mp h1.2) k hmem
      rw [Bool.or_eq_true] at hc1
      rcases hc1 with hc1 | hc1
      · simp [hc1]
      · rw [hw] at hc1
        have hwu : w = .undef := by
          cases w <;> simp at hc1 <;> rfl
        subst hwu
        obtain ⟨x, hx, hux⟩ := rtProps_lookup gs hs k .undef h2.1 hw
        rw [restoresTo_undef x hux] at hx
        simp [hx]
    · simp [hc2]
termination_by structural a

theorem rtElems_trans (es fs gs : List (Option Value)) (h1 : rtElems es fs = true)
    (h2 : rtElems fs gs = true) : rtElems es gs = true := by
  cases es with
  | nil => exact rtElems_blank fs gs h1 h2
  | cons o rest =>
    cases o with
    | none =>
      cases fs with
      | nil => simp [rtElems] at h1
      | cons o2 r2 =>
        simp only [rtElems, Bool.and_eq_true] at h1
        cases o2 with
        | none =>
          cases gs with
          | nil => simp [rtElems] at h2
          | cons o3 r3 =>
            simp only [rtElems, Bool.and_eq_true] at h2 ⊢
            exact ⟨h2.1, rtElems_trans rest r2 r3 h1.2 h2.2⟩
        | some u =>
          have hu : u = .undef := by
            rcases h1 with ⟨hb, _⟩
            cases u <;> simp [slotBlank] at hb <;> rfl
          subst hu
          cases gs with
          | nil => simp [rtElems] at h2
          | cons o3 r3 =>
            cases o3 with
            | none => simp [rtElems] at h2
            | some w =>
              simp only [rtElems, Bool.and_eq_true] at h2 ⊢
              exact ⟨slotBlank_of_restoresTo_undef w h2.1,
                rtElems_trans rest r2 r3 h1.2 h2.2⟩
    | some v =>
      cases fs with
      | nil => simp [rtElems] at h1
      | cons o2 r2 =>
        cases o2 with
        | none => simp [rtElems] at h1
        | some w =>
          simp only [rtElems, Bool.and_eq_true] at h1
          cases gs with
          | nil => simp [rtElems] at h2
          | cons o3 r3 =>
            cases o3 with
            | none => simp [rtElems] at h2
            | some x =>
              simp only [rtElems, Bool.and_eq_true] at h2 ⊢
              exact ⟨restoresTo_trans v w x h1.1 h2.1,
                rtElems_trans rest r2 r3 h1.2 h2.2⟩
termination_by structural es

theorem rtProps_trans (L M N : List (String × Value)) (h1 : rtProps L M = true)
    (h2 : rtProps M N = true) : rtProps L N = true := by
  cases L with
  | nil => rfl
  | cons e rest =>
    rcases e with ⟨k, v⟩
    simp only [rtProps, Bool.and_eq_true] at h1 ⊢
    refine ⟨?_, rtProps_trans rest M N h1.2 h2⟩
    rcases hm : alookup M k with _ | w
    · rcases h1 with ⟨h11, _⟩
      rw [hm] at h11
      simp at h11
    · rcases h1 with ⟨h11, _⟩
      rw [hm] at h11
      obtain ⟨x, hx, hwx⟩ := rtProps_lookup M N k w h2 hm
      rw [hx]
      exact restoresTo_trans v w x h11 hwx
termination_by structural L
end

/-! ## Index and write lemmas for `jsGet` / `jsSet` / `jsDelete` -/

theorem getElem?_set_self {α : Type} (l : List α) (i : Nat) (x : α) (h : i < l.length) :
    (l.set i x)[i]? = some x := by
  induction l generalizing i with
  | nil => simp at h
  | cons a rest ih =>
    cases i with
    | zero => simp
    | succ j =>
      simp only [List.set_cons_succ, List.getElem?_cons_succ]
      exact ih j (by simpa using h)

theorem getElem?_set_ne {α : Type} (l : List α) (i j : Nat) (x : α) (h : i ≠ j) :
    (l.set i x)[j]? = l[j]? := by
  induction l generalizing i j with
  | nil => simp
  | cons a rest ih =>
    cases i with
    | zero =>
      cases j with
      | zero => simp at h
      | succ j' => simp
    | succ i' =>
      cases j with
      | zero => simp
      | succ j' =>
        simp only [List.set_cons_succ, List.getElem?_cons_succ]
        exact ih i' j' (by omega)

theorem getElem?_pad_last {α : Type} (l : List α) (pad : α) (m : Nat) (x : α) :
    (l ++ List.replicate m pad ++ [x])[l.length + m]? = some x := by
  rw [List.append_assoc, List.getElem?_append_right (by simp)]
  simp only [Nat.add_sub_cancel_left]
  rw [List.getElem?_append_right (by simp)]
  simp

theorem getElem?_pad_mid {α : Type} (l : List α) (pad : α) (m : Nat) (x : α) (j : Nat)
    (h1 : l.length ≤ j) (h2 : j < l.length + m) :
    (l ++ List.replicate m pad ++ [x])[j]? = some pad := by
  rw [List.append_assoc, List.getElem?_append_right h1]
  rw [List.getElem?_append_left (by simp; omega)]
  rw [List.getElem?_replicate]
  simp
  omega

theorem getElem?_pad_left {α : Type} (l : List α) (pad : α) (m : Nat) (x : α) (j : Nat)
    (h1 : j < l.length) :
    (l ++ List.replicate m pad ++ [x])[j]? = l[j]? := by
  rw [List.append_assoc, List.getElem?_append_left h1]

theorem getElem?_pad_beyond {α : Type} (l : List α) (pad : α) (m : Nat) (x : α) (j : Nat)
    (h1 : l.length + m < j) :
    (l ++ List.replicate m pad ++ [x])[j]? = none := by
  apply List.getElem?_eq_none
  simp
  omega

theorem set_append_pad {α : Type} (l : List α) (pad : α) (m : Nat) (x y : α) :
    (l ++ List.replicate m pad ++ [x]).set (l.length + m) y =
      l ++ List.replicate m pad ++ [y] := by
  rw [List.append_assoc, List.set_append_right _ _ (by simp)]
  rw [List.append_assoc]
  congr 1
  rw [List.set_append_right _ _ (by simp)]
  simp

theorem canonIndex_inj (k k' : String) (i j : Nat) (hk : canonIndex k = some i)
    (hk' : canonIndex k' = some j) (hne : k ≠ k') : i ≠ j := by
  intro h
  subst h
  obtain ⟨h1, _⟩ := canonIndex_some k i hk
  obtain ⟨h2, _⟩ := canonIndex_some k' i hk'
  exact hne (h1.trans h2.symm)

theorem jsGet_jsSet_same (d : Value) (k : String) (v : Value) (h : d.isContainer = true) :
    (d.jsSet k v).jsGet k = v := by
  cases d
  case obj fs => simp [Value.jsSet, Value.jsGet, alookup_aset_char]
  case arr es ps =>
    rcases hc : canonIndex k with _ | i
    · simp [Value.jsSet, Value.jsGet, hc, alookup_aset_char]
    · simp only [Value.jsSet, hc]
      by_cases hl : i < es.length
      · simp only [if_pos hl, Value.jsGet, hc]
        rw [List.getD_eq_getElem?_getD, getElem?_set_self es i (some v) hl]
        rfl
      · simp only [if_neg hl, Value.jsGet, hc]
        rw [List.getD_eq_getElem?_getD]
        have hp := getElem?_pad_last es (none : Option Value) (i - es.length) (some v)
        rw [show es.length + (i - es.length) = i from by omega] at hp
        rw [hp]
        rfl
  all_goals simp [Value.isContainer] at h

theorem jsGet_jsSet_other (d : Value) (k k' : String) (v : Value) (hne : k ≠ k') :
    (d.jsSet k v).jsGet k' = d.jsGet k' := by
  cases d
  case obj fs => simp only [Value.jsSet, Value.jsGet, alookup_aset_char, if_neg hne]
  case arr es ps =>
    rcases hc : canonIndex k with _ | i
    · rcases hc' : canonIndex k' with _ | j
      · simp only [Value.jsSet, hc, Value.jsGet, hc', alookup_aset_char, if_neg hne]
      · simp only [Value.jsSet, hc, Value.jsGet, hc']
    · rcases hc' : canonIndex k' with _ | j
      · by_cases hl : i < es.length
        · simp only [Value.jsSet, hc, if_pos hl, Value.jsGet, hc']
        · simp only [Value.jsSet, hc, if_neg hl, Value.jsGet, hc']
      · have hij : i ≠ j := canonIndex_inj k k' i j hc hc' hne
        by_cases hl : i < es.length
        · simp only [Value.jsSet, hc, if_pos hl, Value.jsGet, hc']
          rw [List.getD_eq_getElem?_getD, List.getD_eq_getElem?_getD,
            getElem?_set_ne es i j (some v) hij]
        · simp only [Value.jsSet, hc, if_neg hl, Value.jsGet, hc']
          rw [List.getD_eq_getElem?_getD, List.getD_eq_getElem?_getD]
          by_cases hjl : j < es.length
          · rw [getElem?_pad_left es none (i - es.length) (some v) j hjl]
          · have hjn : es[j]? = none := List.getElem?_eq_none (by omega)
            rw [hjn]
            by_cases hmid : j < es.length + (i - es.length)
            · rw [getElem?_pad_mid es none (i - es.length) (some v) j (by omega) hmid]
              rfl
            · have hgt : es.length + (i - es.length) < j := by omega
              rw [getElem?_pad_beyond es none (i - es.length) (some v) j hgt]
  all_goals rfl

theorem aset_aset_self {α : Type} (l : List (String × α)) (k : String) (a b : α) :
    aset (aset l k a) k b = aset l k b := by
  induction l with
  | nil => simp [aset]
  | cons e rest ih =>
    rcases e with ⟨k1, w⟩
    by_cases hk : k1 = k
    · subst hk
      simp [aset]
    · simp [aset, hk, ih]

theorem jsSet_jsSet_same (d : Value) (k : String) (a b : Value) :
    (d.jsSet k a).jsSet k b = d.jsSet k b := by
  cases d
  case obj fs => simp [Value.jsSet, aset_aset_self]
  case arr es ps =>
    rcases hc : canonIndex k with _ | i
    · simp [Value.jsSet, hc, aset_aset_self]
    · by_cases hl : i < es.length
      · simp [Value.jsSet, hc, hl, List.set_set]
      · have hlen : (es ++ List.replicate (i - es.length) none ++ [some a]).length = i + 1 := by
          simp
          omega
        simp only [Value.jsSet, hc, if_neg hl, hlen]
        rw [if_pos (by omega : i < i + 1)]
        have := set_append_pad es (none : Option Value) (i - es.length) (some a) (some b)
        rw [show es.length + (i - es.length) = i from by omega] at this
        rw [this]
  all_goals rfl

/-! ## Well-formedness is preserved by reads and writes -/

theorem wfProps_aset (fs : List (String × Value)) (k : String) (v : Value)
    (h : wfProps fs = true) (hv : wfV v = true) : wfProps (aset fs k v) = true := by
  induction fs with
  | nil => simp [aset, wfProps, hv]
  | cons e rest ih =>
    rcases e with ⟨k1, w⟩
    simp only [wfProps, Bool.and_eq_true] at h
    by_cases hk : k1 = k
    · subst hk
      simp [aset, wfProps, hv, h.2]
    · simp [aset, hk, wfProps, h.1, ih h.2]

theorem wfProps_adel (fs : List (String × Value)) (k : String)
    (h : wfProps fs = true) : wfProps (adel fs k) = true := by
  induction fs with
  | nil => simp [adel, wfProps]
  | cons e rest ih =>
    rcases e with ⟨k1, w⟩
    simp only [wfProps, Bool.and_eq_true] at h
    by_cases hk : k1 = k
    · subst hk
      simp [adel, ih h.2]
    · simp [adel, hk, wfProps, h.1, ih h.2]

theorem wfProps_lookup (fs : List (String × Value)) (k : String) (v : Value)
    (h : wfProps fs = true) (hl : alookup fs k = some v) : wfV v = true := by
  induction fs with
  | nil => simp [alookup] at hl
  | cons e rest ih =>
    rcases e with ⟨k1, w⟩
    simp only [wfProps, Bool.and_eq_true] at h
    by_cases hk : k1 = k
    · subst hk
      simp [alookup] at hl
      subst hl
      exact h.1
    · simp only [alookup, hk, if_false] at hl
      exact ih h.2 hl

theorem wfElems_set (es : List (Option Value)) (i : Nat) (o : Option Value)
    (h : wfElems es = true) (ho : match o with | some v => wfV v = true | none => True) :
    wfElems (es.set i o) = true := by
  induction es generalizing i with
  | nil => simpa using h
  | cons e rest ih =>
    cases i with
    | zero =>
      cases o with
      | none =>
        simp only [List.set_cons_zero, wfElems]
        cases e with
        | none => exact h
        | some v =>
          simp only [wfElems, Bool.and_eq_true] at h
          exact h.2
      | some v =>
        simp only [List.set_cons_zero, wfElems, Bool.and_eq_true]
        refine ⟨ho, ?_⟩
        cases e with
        | none => exact h
        | some w =>
          simp only [wfElems, Bool.and_eq_true] at h
          exact h.2
    | succ j =>
      cases e with
      | none =>
        simp only [List.set_cons_succ, wfElems]
        exact ih j h
      | some w =>
        simp only [wfElems, Bool.and_eq_true] at h
        simp only [List.set_cons_succ, wfElems, Bool.and_eq_true]
        exact ⟨h.1, ih j h.2⟩

theorem wfElems_append (l1 l2 : List (Option Value)) (h1 : wfElems l1 = true)
    (h2 : wfElems l2 = true) : wfElems (l1 ++ l2) = true := by
  induction l1 with
  | nil => simpa using h2
  | cons e rest ih =>
    cases e with
    | none =>
      simp only [List.cons_append, wfElems]
      exact ih h1
    | some v =>
      simp only [wfElems, Bool.and_eq_true] at h1
      simp only [List.cons_append, wfElems, Bool.and_eq_true]
      exact ⟨h1.1, ih h1.2⟩

theorem wfElems_replicate (m : Nat) : wfElems (List.replicate m none) = true := by
  induction m with
  | zero => rfl
  | succ n ih => simpa [List.replicate, wfElems] using ih

theorem wfElems_getElem (es : List (Option Value)) (i : Nat) (v : Value)
    (h : wfElems es = true) (he : es[i]? = some (some v)) : wfV v = true := by
  induction es generalizing i with
  | nil => simp at he
  | cons e rest ih =>
    cases i with
    | zero =>
      simp at he
      subst he
      simp only [wfElems, Bool.and_eq_true] at h
      exact h.1
    | succ j =>
      simp only [List.getElem?_cons_succ] at he
      cases e with
      | none => exact ih j h he
      | some w =>
        simp only [wfElems, Bool.and_eq_true] at h
        exact ih j h.2 he

theorem wfV_jsGet (d : Value) (k : String) (h : wfV d = true) : wfV (d.jsGet k) = true := by
  cases d
  case obj fs =>
    simp only [wfV, Bool.and_eq_true] at h
    simp only [Value.jsGet]
    rcases hl : alookup fs k with _ | v
    · rfl
    · exact wfProps_lookup fs k v h.2 hl
  case arr es ps =>
    simp only [wfV, Bool.and_eq_true] at h
    rcases hc : canonIndex k with _ | i
    · simp only [Value.jsGet, hc]
      rcases hl : alookup ps k with _ | v
      · rfl
      · exact wfProps_lookup ps k v h.2.2 hl
    · simp only [Value.jsGet, hc]
      rw [List.getD_eq_getElem?_getD]
      rcases he : es[i]? with _ | o
      · rfl
      · cases o with
        | none => rfl
        | some v => exact wfElems_getElem es i v h.1 he
  all_goals rfl

theorem wfV_jsSet (d : Value) (k : String) (v : Value) (h : wfV d = true)
    (hv : wfV v = true) : wfV (d.jsSet k v) = true := by
  cases d
  case obj fs =>
    simp only [Value.jsSet, wfV, Bool.and_eq_true] at h ⊢
    exact ⟨nodupKeys_aset fs k v h.1, wfProps_aset fs k v h.2 hv⟩
  case arr es ps =>
    simp only [wfV, Bool.and_eq_true] at h
    rcases hc : canonIndex k with _ | i
    · simp only [Value.jsSet, hc, wfV, Bool.and_eq_true]
      exact ⟨h.1, nodupKeys_aset ps k v h.2.1, wfProps_aset ps k v h.2.2 hv⟩
    · by_cases hl : i < es.length
      · simp only [Value.jsSet, hc, if_pos hl, wfV, Bool.and_eq_true]
        exact ⟨wfElems_set es i (some v) h.1 hv, h.2.1, h.2.2⟩
      · simp only [Value.jsSet, hc, if_neg hl, wfV, Bool.and_eq_true]
        refine ⟨?_, h.2.1, h.2.2⟩
        refine wfElems_append _ _ (wfElems_append _ _ h.1 (wfElems_replicate _)) ?_
        simp [wfElems, hv]
  all_goals exact h

theorem wfV_jsDelete (d : Value) (k : String) (h : wfV d = true) :
    wfV (d.jsDelete k) = true := by
  cases d
  case obj fs =>
    simp only [Value.jsDelete, wfV, Bool.and_eq_true] at h ⊢
    exact ⟨nodupKeys_adel fs k h.1, wfProps_adel fs k h.2⟩
  case arr es ps =>
    simp only [wfV, Bool.and_eq_true] at h
    rcases hc : canonIndex k with _ | i
    · simp only [Value.jsDelete, hc, wfV, Bool.and_eq_true]
      exact ⟨h.1, nodupKeys_adel ps k h.2.1, wfProps_adel ps k h.2.2⟩
    · by_cases hl : i < es.length
      · simp only [Value.jsDelete, hc, if_pos hl, wfV, Bool.and_eq_true]
        exact ⟨wfElems_set es i none h.1 trivial, h.2.1, h.2.2⟩
      · simp only [Value.jsDelete, hc, if_neg hl, wfV, Bool.and_eq_true]
        exact ⟨h.1, h.2.1, h.2.2⟩
  all_goals exact h

/-! ## Slot-wise characterisation of `restoresTo` -/

theorem jsSet_arr (es : List (Option Value)) (ps : List (String × Value)) (k : String)
    (x : Value) :
    (Value.arr es ps).jsSet k x =
      match canonIndex k with
      | some i => .arr (arrWrite es i x) ps
      | none => .arr es (aset ps k x) := by
  rcases hc : canonIndex k with _ | i
  · simp [Value.jsSet, hc]
  · simp only [Value.jsSet, hc, arrWrite]
    split <;> rfl

theorem jsDelete_arr (es : List (Option Value)) (ps : List (String × Value)) (k : String) :
    (Value.arr es ps).jsDelete k =
      match canonIndex k with
      | some i => .arr (es.set i none) ps
      | none => .arr es (adel ps k) := by
  rcases hc : canonIndex k with _ | i
  · simp [Value.jsDelete, hc]
  · by_cases hl : i < es.length
    · simp [Value.jsDelete, hc, hl]
    · simp only [Value.jsDelete, hc, if_neg hl]
      rw [List.set_eq_of_length_le (by omega)]

theorem arrWrite_getElem_self (es : List (Option Value)) (i : Nat) (x : Value) :
    (arrWrite es i x)[i]? = some (some x) := by
  unfold arrWrite
  by_cases hl : i < es.length
  · rw [if_pos hl]
    exact getElem?_set_self es i (some x) hl
  · rw [if_neg hl]
    have hp := getElem?_pad_last es (none : Option Value) (i - es.length) (some x)
    rw [show es.length + (i - es.length) = i from by omega] at hp
    exact hp

theorem arrWrite_getElem_other (es : List (Option Value)) (i : Nat) (x : Value) (j : Nat)
    (h : j ≠ i) :
    (arrWrite es i x)[j]? = es[j]? ∨
      ((arrWrite es i x)[j]? = some none ∧ es[j]? = none) := by
  unfold arrWrite
  by_cases hl : i < es.length
  · rw [if_pos hl]
    exact .inl (getElem?_set_ne es i j (some x) (fun he => h he.symm))
  · rw [if_neg hl]
    by_cases hjl : j < es.length
    · exact .inl (getElem?_pad_left es none (i - es.length) (some x) j hjl)
    · by_cases hmid : j < es.length + (i - es.length)
      · refine .inr ⟨getElem?_pad_mid es none (i - es.length) (some x) j (by omega) hmid, ?_⟩
        exact List.getElem?_eq_none (by omega)
      · have hgt : es.length + (i - es.length) < j := by omega
        refine .inl ?_
        rw [getElem?_pad_beyond es none (i - es.length) (some x) j hgt]
        exact (List.getElem?_eq_none (by omega)).symm

theorem slotRel_refl_none : slotRel none none = true := rfl

theorem rtElems_elim (es es2 : List (Option Value)) (h : rtElems es es2 = true) :
    ∀ j : Nat, slotRel es[j]? es2[j]? = true := by
  induction es generalizing es2 with
  | nil =>
    intro j
    rcases hj : es2[j]? with _ | o2
    · simp [slotRel]
    · have hmem : o2 ∈ es2 := List.getElem?_mem hj
      have hb := List.all_eq_true.mp h o2 hmem
      simp [slotRel, hb]
  | cons o rest ih =>
    intro j
    cases es2 with
    | nil => simp [rtElems] at h
    | cons o2 r2 =>
      cases o with
      | none =>
        simp only [rtElems, Bool.and_eq_true] at h
        cases j with
        | zero => simpa [slotRel] using h.1
        | succ j' => simpa using ih r2 h.2 j'
      | some v =>
        cases o2 with
        | none => simp [rtElems] at h
        | some w =>
          simp only [rtElems, Bool.and_eq_true] at h
          cases j with
          | zero => simpa [slotRel] using h.1
          | succ j' => simpa using ih r2 h.2 j'

theorem rtElems_intro (es es2 : List (Option Value))
    (h : ∀ j : Nat, slotRel es[j]? es2[j]? = true) : rtElems es es2 = true := by
  induction es generalizing es2 with
  | nil =>
    rw [show rtElems [] es2 = es2.all slotBlank from rfl, List.all_eq_true]
    intro o2 hmem
    obtain ⟨j, hj⟩ := List.getElem?_of_mem hmem
    have := h j
    rw [hj] at this
    simpa [slotRel] using this
  | cons o rest ih =>
    cases es2 with
    | nil =>
      have := h 0
      cases o <;> simp [slotRel] at this
    | cons o2 r2 =>
      have h0 := h 0
      have ht : ∀ j : Nat, slotRel rest[j]? r2[j]? = true := fun j => by simpa using h (j + 1)
      cases o with
      | none =>
        simp only [List.getElem?_cons_zero, slotRel] at h0
        simp only [rtElems, Bool.and_eq_true]
        exact ⟨h0, ih r2 ht⟩
      | some v =>
        cases o2 with
        | none => simp [slotRel] at h0
        | some w =>
          simp only [List.getElem?_cons_zero, slotRel] at h0
          simp only [rtElems, Bool.and_eq_true]
          exact ⟨h0, ih r2 ht⟩

theorem rtProps_of_lookup_rel (l M : List (String × Value))
    (h : ∀ p ∈ l, ∃ w, alookup M p.1 = some w ∧ restoresTo p.2 w = true) :
    rtProps l M = true := by
  induction l with
  | nil => rfl
  | cons e rest ih =>
    rcases e with ⟨k, v⟩
    obtain ⟨w, hw, hrel⟩ := h (k, v) (by simp)
    simp only [rtProps, Bool.and_eq_true, hw]
    exact ⟨hrel, ih (fun p hp => h p (by simp [hp]))⟩

theorem rtProps_of_propRel (L M : List (String × Value)) (hnd : nodupKeys L = true)
    (h : ∀ k, propRel (alookup L k) (alookup M k) = true) : rtProps L M = true := by
  refine rtProps_of_lookup_rel L M (fun p hp => ?_)
  have hl := alookup_of_mem_nodup L p.1 p.2 hnd hp
  have hk := h p.1
  rw [hl] at hk
  rcases hm : alookup M p.1 with _ | w
  · rw [hm] at hk
    simp [propRel] at hk
  · rw [hm] at hk
    exact ⟨w, rfl, by simpa [propRel] using hk⟩

theorem obj_restores_intro (fs gs : List (String × Value)) (hnd : nodupKeys fs = true)
    (h : ∀ k, propRel (alookup fs k) (alookup gs k) = true) :
    restoresTo (.obj fs) (.obj gs) = true := by
  simp only [restoresTo, Bool.and_eq_true]
  refine ⟨rtProps_of_propRel fs gs hnd h, ?_⟩
  rw [List.all_eq_true]
  intro k hk
  have hs := alookup_isSome_of_key_mem gs k hk
  obtain ⟨w, hw⟩ := Option.isSome_iff_exists.mp hs
  have hp := h k
  rw [hw] at hp ⊢
  rcases hl : alookup fs k with _ | v
  · rw [hl] at hp
    simp only [propRel] at hp
    simp [hp]
  · simp [hl]

theorem arr_restores_intro (es es2 : List (Option Value)) (ps ps2 : List (String × Value))
    (hnd : nodupKeys ps = true)
    (he : ∀ j : Nat, slotRel es[j]? es2[j]? = true)
    (hp : ∀ k, propRel (alookup ps k) (alookup ps2 k) = true) :
    restoresTo (.arr es ps) (.arr es2 ps2) = true := by
  simp only [restoresTo, Bool.and_eq_true]
  refine ⟨⟨rtElems_intro es es2 he, rtProps_of_propRel ps ps2 hnd hp⟩, ?_⟩
  rw [List.all_eq_true]
  intro k hk
  have hs := alookup_isSome_of_key_mem ps2 k hk
  obtain ⟨w, hw⟩ := Option.isSome_iff_exists.mp hs
  have hpk := hp k
  rw [hw] at hpk ⊢
  rcases hl : alookup ps k with _ | v
  · rw [hl] at hpk
    simp only [propRel] at hpk
    simp [hpk]
  · simp [hl]

theorem obj_restores_elim (fs gs : List (String × Value))
    (h : restoresTo (.obj fs) (.obj gs) = true) :
    ∀ k, propRel (alookup fs k) (alookup gs k) = true := by
  intro k
  simp only [restoresTo, Bool.and_eq_true] at h
  rcases hl : alookup fs k with _ | v
  · rcases hm : alookup gs k with _ | w
    · rfl
    · have hk : k ∈ akeys gs := key_mem_of_isSome gs k (by simp [hm])
      have hc := List.all_eq_true.mp h.2 k hk
      rw [Bool.or_eq_true] at hc
      rcases hc with hc | hc
      · rw [hl] at hc
        simp at hc
      · rw [hm] at hc
        simpa [propRel] using hc
  · obtain ⟨w, hw, hrel⟩ := rtProps_lookup fs gs k v h.1 hl
    rw [hw]
    simpa [propRel] using hrel

theorem arr_restores_elim (es es2 : List (Option Value)) (ps ps2 : List (String × Value))
    (h : restoresTo (.arr es ps) (.arr es2 ps2) = true) :
    (∀ j : Nat, slotRel es[j]? es2[j]? = true) ∧
    (∀ k, propRel (alookup ps k) (alookup ps2 k) = true) := by
  simp only [restoresTo, Bool.and_eq_true] at h
  refine ⟨rtElems_elim es es2 h.1.1, fun k => ?_⟩
  rcases hl : alookup ps k with _ | v
  · rcases hm : alookup ps2 k with _ | w
    · rfl
    · have hk : k ∈ akeys ps2 := key_mem_of_isSome ps2 k (by simp [hm])
      have hc := List.all_eq_true.mp h.2 k hk
      rw [Bool.or_eq_true] at hc
      rcases hc with hc | hc
      · rw [hl] at hc
        simp at hc
      · rw [hm] at hc
        simpa [propRel] using hc
  · obtain ⟨w, hw, hrel⟩ := rtProps_lookup ps ps2 k v h.1.2 hl
    rw [hw]
    simpa [propRel] using hrel

theorem slotRel_value (a b : Option (Option Value)) (h : slotRel a b = true) :
    restoresTo ((a.getD none).getD .undef) ((b.getD none).getD .undef) = true := by
  rcases a with _ | oa <;> rcases b with _ | ob
  · rfl
  · rcases ob with _ | w
    · rfl
    · simp only [slotRel, slotBlank] at h
      cases w <;> simp_all
      rfl
  · rcases oa with _ | v <;> simp [slotRel] at h
  · rcases oa with _ | v
    · rcases ob with _ | w
      · rfl
      · simp only [slotRel, slotBlank] at h
        cases w <;> simp_all
        rfl
    · rcases ob with _ | w
      · simp [slotRel] at h
      · simpa [slotRel] using h

theorem propRel_value (a b : Option Value) (h : propRel a b = true) :
    restoresTo (a.getD .undef) (b.getD .undef) = true := by
  rcases a with _ | v <;> rcases b with _ | w
  · rfl
  · simp only [propRel] at h
    cases w <;> simp_all
    rfl
  · simp [propRel] at h
  · simpa [propRel] using h

/-! ## Congruence of reads, writes and undo under `restoresTo` -/

theorem slot_length (es es2 : List (Option Value))
    (he : ∀ j : Nat, slotRel es[j]? es2[j]? = true) : es.length ≤ es2.length := by
  by_contra hlt
  have h := he es2.length
  rw [List.getElem?_eq_none (le_refl es2.length)] at h
  rcases hj : es[es2.length]? with _ | o
  · rw [List.getElem?_eq_none_iff] at hj
    omega
  · rw [hj] at h
    rcases o with _ | v <;> simp [slotRel] at h

theorem arrWrite_slotRel (es es2 : List (Option Value)) (i : Nat) (x y : Value)
    (he : ∀ j : Nat, slotRel es[j]? es2[j]? = true) (hxy : restoresTo x y = true) :
    ∀ j : Nat, slotRel (arrWrite es i x)[j]? (arrWrite es2 i y)[j]? = true := by
  intro j
  have hlen := slot_length es es2 he
  by_cases hj : j = i
  · subst hj
    rw [arrWrite_getElem_self, arrWrite_getElem_self]
    simpa [slotRel] using hxy
  · unfold arrWrite
    by_cases h1 : i < es.length
    · rw [if_pos h1, if_pos (by omega)]
      rw [getElem?_set_ne es i j (some x) (fun he => hj he.symm),
        getElem?_set_ne es2 i j (some y) (fun he => hj he.symm)]
      exact he j
    · rw [if_neg h1]
      by_cases h2 : i < es2.length
      · rw [if_pos h2, getElem?_set_ne es2 i j (some y) (fun he => hj he.symm)]
        by_cases hjl : j < es.length
        · rw [getElem?_pad_left es none (i - es.length) (some x) j hjl]
          exact he j
        · by_cases hmid : j < es.length + (i - es.length)
          · rw [getElem?_pad_mid es none (i - es.length) (some x) j (by omega) hmid]
            have hji : j < i := by omega
            have hej : es[j]? = none := List.getElem?_eq_none (by omega)
            have hk := he j
            rw [hej] at hk
            rcases h2j : es2[j]? with _ | o2
            · rw [List.getElem?_eq_none_iff] at h2j
              omega
            · rw [h2j] at hk
              simpa [slotRel] using hk
          · rw [getElem?_pad_beyond es none (i - es.length) (some x) j (by omega)]
            have hej : es[j]? = none := List.getElem?_eq_none (by omega)
            have hk := he j
            rw [hej] at hk
            exact hk
      · rw [if_neg h2]
        by_cases hjl : j < es.length
        · rw [getElem?_pad_left es none (i - es.length) (some x) j hjl,
            getElem?_pad_left es2 none (i - es2.length) (some y) j (by omega)]
          exact he j
        · by_cases hjl2 : j < es2.length
          · rw [getElem?_pad_left es2 none (i - es2.length) (some y) j hjl2,
              getElem?_pad_mid es none (i - es.length) (some x) j (by omega) (by omega)]
            have hej : es[j]? = none := List.getElem?_eq_none (by omega)
            have hk := he j
            rw [hej] at hk
            rcases h2j : es2[j]? with _ | o2
            · rw [List.getElem?_eq_none_iff] at h2j
              omega
            · rw [h2j] at hk
              simpa [slotRel] using hk
          · by_cases hmid : j < i
            · rw [getElem?_pad_mid es none (i - es.length) (some x) j (by omega) (by omega),
                getElem?_pad_mid es2 none (i - es2.length) (some y) j (by omega) (by omega)]
              rfl
            · rw [getElem?_pad_beyond es none (i - es.length) (some x) j (by omega),
                getElem?_pad_beyond es2 none (i - es2.length) (some y) j (by omega)]
              rfl

theorem jsGet_congr (a b : Value) (k : String) (h : restoresTo a b = true) :
    restoresTo (a.jsGet k) (b.jsGet k) = true := by
  cases a with
  | obj fs =>
    obtain ⟨gs, rfl⟩ := restoresTo_obj_shape fs b h
    have hp := obj_restores_elim fs gs h k
    simp only [Value.jsGet]
    exact propRel_value _ _ hp
  | arr es ps =>
    obtain ⟨es2, ps2, rfl⟩ := restoresTo_arr_shape es ps b h
    obtain ⟨he, hp⟩ := arr_restores_elim es es2 ps ps2 h
    rcases hc : canonIndex k with _ | i
    · simp only [Value.jsGet, hc]
      exact propRel_value _ _ (hp k)
    · simp only [Value.jsGet, hc]
      rw [List.getD_eq_getElem?_getD, List.getD_eq_getElem?_getD]
      exact slotRel_value _ _ (he i)
  | undef =>
    rw [restoresTo_undef b h]
    rfl
  | null =>
    cases b <;> simp [restoresTo] at h
    rfl
  | bool x =>
    cases b <;> simp [restoresTo] at h
    rfl
  | num x =>
    cases b <;> simp [restoresTo] at h
    rfl
  | str x =>
    cases b <;> simp [restoresTo] at h
    rfl

theorem jsSet_congr (a b x y : Value) (k : String) (ha : wfV a = true)
    (h : restoresTo a b = true) (hxy : restoresTo x y = true) :
    restoresTo (a.jsSet k x) (b.jsSet k y) = true := by
  cases a with
  | obj fs =>
    obtain ⟨gs, rfl⟩ := restoresTo_obj_shape fs b h
    have hp := obj_restores_elim fs gs h
    simp only [wfV, Bool.and_eq_true] at ha
    simp only [Value.jsSet]
    apply obj_restores_intro _ _ (nodupKeys_aset fs k x ha.1)
    intro k'
    rw [alookup_aset_char, alookup_aset_char]
    by_cases hk : k = k'
    · simpa [hk, propRel] using hxy
    · simp only [if_neg hk]
      exact hp k'
  | arr es ps =>
    obtain ⟨es2, ps2, rfl⟩ := restoresTo_arr_shape es ps b h
    obtain ⟨he, hp⟩ := arr_restores_elim es es2 ps ps2 h
    simp only [wfV, Bool.and_eq_true] at ha
    rw [jsSet_arr, jsSet_arr]
    rcases hc : canonIndex k with _ | i
    · apply arr_restores_intro _ _ _ _ (nodupKeys_aset ps k x ha.2.1) he
      intro k'
      rw [alookup_aset_char, alookup_aset_char]
      by_cases hk : k = k'
      · simpa [hk, propRel] using hxy
      · simp only [if_neg hk]
        exact hp k'
    · exact arr_restores_intro _ _ _ _ ha.2.1 (arrWrite_slotRel es es2 i x y he hxy) hp
  | undef =>
    rw [restoresTo_undef b h]
    rfl
  | null =>
    cases b <;> simp [restoresTo] at h
    rfl
  | bool v =>
    cases b <;> simp [restoresTo] at h
    subst h
    show restoresTo (Value.bool v) (Value.bool v) = true
    simp [restoresTo]
  | num v =>
    cases b <;> simp [restoresTo] at h
    subst h
    show restoresTo (Value.num v) (Value.num v) = true
    simp [restoresTo]
  | str v =>
    cases b <;> simp [restoresTo] at h
    subst h
    show restoresTo (Value.str v) (Value.str v) = true
    simp [restoresTo]

theorem jsSet_isContainer (x : Value) (k : String) (v : Value) :
    (x.jsSet k v).isContainer = x.isContainer := by
  cases x
  case obj fs => rfl
  case arr es ps =>
    rcases hc : canonIndex k with _ | i
    · simp [Value.jsSet, hc, Value.isContainer]
    · by_cases hl : i < es.length <;> simp [Value.jsSet, hc, hl, Value.isContainer]
  all_goals rfl

theorem undoEntry_isContainer (x : Value) (k : String) (e : CEntry) :
    (undoEntry x k e).isContainer = x.isContainer := by
  cases e with
  | cset n o => exact jsSet_isContainer x k o
  | cnest cn =>
    simp only [undoEntry]
    split
    · exact jsSet_isContainer x k _
    · rfl

theorem undoEntries_isContainer (x : Value) (es : CRec) :
    (undoEntries x es).isContainer = x.isContainer := by
  induction es generalizing x with
  | nil => rfl
  | cons e rest ih =>
    rcases e with ⟨k, en⟩
    rw [show undoEntries x ((k, en) :: rest) = undoEntries (undoEntry x k en) rest from rfl,
      ih (undoEntry x k en), undoEntry_isContainer]

mutual
theorem wfV_undoEntries (x : Value) (es : CRec) (hx : wfV x = true)
    (hes : wfEntries es = true) : wfV (undoEntries x es) = true := by
  cases es with
  | nil => exact hx
  | cons e rest =>
    rcases e with ⟨k, en⟩
    simp only [wfEntries, Bool.and_eq_true] at hes
    exact wfV_undoEntries (undoEntry x k en) rest (wfV_undoEntry x k en hx hes.1) hes.2
termination_by structural es

theorem wfV_undoEntry (x : Value) (k : String) (e : CEntry) (hx : wfV x = true)
    (he : wfEntry e = true) : wfV (undoEntry x k e) = true := by
  cases e with
  | cset n o => exact wfV_jsSet x k o hx he
  | cnest cn =>
    simp only [wfEntry, Bool.and_eq_true] at he
    simp only [undoEntry]
    split
    · exact wfV_jsSet x k _ hx (wfV_undoEntries (x.jsGet k) cn (wfV_jsGet x k hx) he.2)
    · exact hx
termination_by structural e
end

mutual
theorem undoEntries_congr (x y : Value) (es : CRec) (hx : wfV x = true)
    (hes : wfEntries es = true) (h : restoresTo x y = true) :
    restoresTo (undoEntries x es) (undoEntries y es) = true := by
  cases es with
  | nil => exact h
  | cons e rest =>
    rcases e with ⟨k, en⟩
    simp only [wfEntries, Bool.and_eq_true] at hes
    exact undoEntries_congr (undoEntry x k en) (undoEntry y k en) rest
      (wfV_undoEntry x k en hx hes.1) hes.2 (undoEntry_congr x y k en hx hes.1 h)
termination_by structural es

theorem undoEntry_congr (x y : Value) (k : String) (e : CEntry) (hx : wfV x = true)
    (he : wfEntry e = true) (h : restoresTo x y = true) :
    restoresTo (undoEntry x k e) (undoEntry y k e) = true := by
  cases e with
  | cset n o => exact jsSet_congr x y o o k hx h (restoresTo_refl o he)
  | cnest cn =>
    simp only [wfEntry, Bool.and_eq_true] at he
    have hchild := jsGet_congr x y k h
    have hcont := restoresTo_isContainer (x.jsGet k) (y.jsGet k) hchild
    simp only [undoEntry]
    by_cases hc : (x.jsGet k).isContainer = true
    · rw [if_pos hc, if_pos (by rw [← hcont]; exact hc)]
      exact jsSet_congr x y _ _ k hx h
        (undoEntries_congr (x.jsGet k) (y.jsGet k) cn (wfV_jsGet x k hx) he.2 hchild)
    · rw [if_neg hc, if_neg (by rw [← hcont]; exact hc)]
      exact h
termination_by structural e
end

/-! ## Per-key characterization of undo -/

theorem undoPropAt_cset (s : Option Value) (n o : Value) :
    undoPropAt s (some (.cset n o)) = some o := by
  cases s <;> rfl

theorem undoPropAt_cnest (s : Option Value) (cn : CRec) :
    undoPropAt s (some (.cnest cn)) =
      match s with
      | some v => if v.isContainer then some (undoEntries v cn) else some v
      | none => none := by
  cases s <;> rfl

theorem undoPropAt_noe (s : Option Value) : undoPropAt s none = s := by
  cases s <;> rfl

theorem undoSlotF_cset (b : Bool) (s : Option (Option Value)) (n o : Value) :
    undoSlotF b s (some (.cset n o)) = some (some o) := by
  rcases s with _ | o1
  · rfl
  · cases o1 <;> rfl

theorem undoSlotF_cnest (b : Bool) (s : Option (Option Value)) (cn : CRec) :
    undoSlotF b s (some (.cnest cn)) =
      match s with
      | some (some v) => some (some (if v.isContainer then undoEntries v cn else v))
      | some none => some none
      | none => if b then some none else none := by
  rcases s with _ | o1
  · rfl
  · cases o1 <;> rfl

theorem undoSlotF_noe (b : Bool) (s : Option (Option Value)) :
    undoSlotF b s none =
      match s with
      | some o => some o
      | none => if b then some none else none := by
  rcases s with _ | o1
  · rfl
  · cases o1 <;> rfl

theorem undoVal_container (d : Value) (en : CRec) (h : d.isContainer = true) :
    undoVal d en = undoEntries d en := by
  simp [undoVal, h]

theorem undoVal_prim (d : Value) (en : CRec) (h : d.isContainer = false) :
    undoVal d en = d := by
  simp [undoVal, h]

theorem undoOpt_getD (d : Value) (c : Option CRec) : undoOpt d c = undoVal d (c.getD []) := by
  cases c with
  | none =>
    show d = undoVal d []
    unfold undoVal
    split
    · rfl
    · rfl
  | some en => rfl

theorem undoVal_isContainer (d : Value) (en : CRec) :
    (undoVal d en).isContainer = d.isContainer := by
  unfold undoVal
  split
  · rfl
  · exact undoEntries_isContainer d en

theorem undoOpt_isContainer (d : Value) (c : Option CRec) :
    (undoOpt d c).isContainer = d.isContainer := by
  cases c with
  | none => rfl
  | some en => exact undoVal_isContainer d en

theorem wfV_undoVal (d : Value) (en : CRec) (hd : wfV d = true) (hen : wfEntries en = true) :
    wfV (undoVal d en) = true := by
  unfold undoVal
  split
  · exact hd
  · exact wfV_undoEntries d en hd hen

theorem wfCO_getD (c : Option CRec) (h : wfCO c = true) :
    nodupKeys (c.getD []) = true ∧ wfEntries (c.getD []) = true := by
  cases c with
  | none => exact ⟨rfl, rfl⟩
  | some en =>
    simp only [wfCO, wfC, Bool.and_eq_true] at h
    exact h

theorem wfV_undoOpt (d : Value) (c : Option CRec) (hd : wfV d = true) (hc : wfCO c = true) :
    wfV (undoOpt d c) = true := by
  rw [undoOpt_getD]
  exact wfV_undoVal d _ hd (wfCO_getD c hc).2

theorem cOr_self (c : Option CRec) : cOr c c = c := by
  cases c <;> rfl

theorem cOr_eq (c2 c : Option CRec) (h : c2 = none → c = none) : cOr c2 c = c2 := by
  cases c2 with
  | none => simpa [cOr] using h rfl
  | some x => rfl

theorem alookup_mem {α : Type} (l : List (String × α)) (k : String) (v : α)
    (h : alookup l k = some v) : (k, v) ∈ l := by
  induction l with
  | nil => simp [alookup] at h
  | cons e rest ih =>
    rcases e with ⟨k1, w⟩
    by_cases hk : k1 = k
    · subst hk
      simp [alookup] at h
      subst h
      simp
    · simp only [alookup, if_neg hk] at h
      simp [ih h]

theorem wfEntries_lookup (en : CRec) (k : String) (e : CEntry)
    (h : wfEntries en = true) (hl : alookup en k = some e) : wfEntry e = true := by
  induction en with
  | nil => simp [alookup] at hl
  | cons p rest ih =>
    rcases p with ⟨k1, e1⟩
    simp only [wfEntries, Bool.and_eq_true] at h
    by_cases hk : k1 = k
    · subst hk
      simp [alookup] at hl
      subst hl
      exact h.1
    · simp only [alookup, if_neg hk] at hl
      exact ih h.2 hl

theorem wfEntries_aset (en : CRec) (k : String) (e : CEntry)
    (h : wfEntries en = true) (he : wfEntry e = true) : wfEntries (aset en k e) = true := by
  induction en with
  | nil => simp [aset, wfEntries, he]
  | cons p rest ih =>
    rcases p with ⟨k1, e1⟩
    simp only [wfEntries, Bool.and_eq_true] at h
    by_cases hk : k1 = k
    · subst hk
      simp [aset, wfEntries, he, h.2]
    · simp [aset, hk, wfEntries, h.1, ih h.2]

theorem wfV_addValOrig (en : CRec) (ak : String) (oldV : Value)
    (hen : wfEntries en = true) (hold : wfV oldV = true) :
    wfV (addValOrig en ak oldV) = true := by
  rcases hl : alookup en ak with _ | e
  · simp only [addValOrig, hl]
    exact hold
  · cases e with
    | cset n o =>
      simp only [addValOrig, hl]
      exact wfEntries_lookup en ak _ hen hl
    | cnest cn =>
      have he := wfEntries_lookup en ak _ hen hl
      simp only [wfEntry, Bool.and_eq_true] at he
      simp only [addValOrig, hl]
      split
      · exact wfV_undoVal oldV cn hold he.2
      · exact hold

theorem wfVO_lookup (fs : List (String × Value)) (k : String) (h : wfProps fs = true) :
    wfVO (alookup fs k) = true := by
  rcases hl : alookup fs k with _ | v
  · rfl
  · exact wfProps_lookup fs k v h hl

theorem wfEO_alookup (en : CRec) (k : String) (h : wfEntries en = true) :
    wfEO (alookup en k) = true := by
  rcases hl : alookup en k with _ | e
  · rfl
  · exact wfEntries_lookup en k e h hl

theorem wfEO_idxLookup (en : CRec) (j : Nat) (h : wfEntries en = true) :
    wfEO (idxLookup en j) = true := by
  induction en with
  | nil => rfl
  | cons p rest ih =>
    rcases p with ⟨k1, e1⟩
    simp only [wfEntries, Bool.and_eq_true] at h
    simp only [idxLookup]
    split
    · exact h.1
    · exact ih h.2

theorem wfSlot_getElem (es : List (Option Value)) (j : Nat) (h : wfElems es = true) :
    wfSlot es[j]? = true := by
  rcases hl : es[j]? with _ | o
  · rfl
  · cases o with
    | none => rfl
    | some v => exact wfElems_getElem es j v h hl

theorem propRel_refl (s : Option Value) (h : wfVO s = true) : propRel s s = true := by
  cases s with
  | none => rfl
  | some v => exact restoresTo_refl v h

theorem wfVO_undoPropAt (s : Option Value) (e : Option CEntry)
    (hs : wfVO s = true) (he : wfEO e = true) : wfVO (undoPropAt s e) = true := by
  rcases e with _ | e
  · rwa [undoPropAt_noe]
  · cases e with
    | cset n o => rw [undoPropAt_cset]; exact he
    | cnest cn =>
      rw [undoPropAt_cnest]
      cases s with
      | none => rfl
      | some v =>
        simp only [wfEO, wfEntry, Bool.and_eq_true] at he
        show wfVO (if v.isContainer then some (undoEntries v cn) else some v) = true
        split
        · exact wfV_undoEntries v cn hs he.2
        · exact hs

theorem propRel_undoPropAt_refl (s : Option Value) (e : Option CEntry)
    (hs : wfVO s = true) (he : wfEO e = true) :
    propRel (undoPropAt s e) (undoPropAt s e) = true :=
  propRel_refl _ (wfVO_undoPropAt s e hs he)

theorem undoSlotF_rel (b1 b2 : Bool) (s s1 : Option (Option Value)) (e : Option CEntry)
    (hb : b1 = true → b2 = true)
    (hs : s1 = s ∨ (s = none ∧ s1 = some none))
    (hws : wfSlot s = true) (hwe : wfEO e = true) :
    slotRel (undoSlotF b1 s e) (undoSlotF b2 s1 e) = true := by
  rcases e with _ | e
  · rw [undoSlotF_noe, undoSlotF_noe]
    rcases hs with hs | ⟨hs, hs1⟩
    · rw [hs]
      rcases s with _ | o
      · cases b1 with
        | false =>
          cases b2 <;> simp [slotRel, slotBlank]
        | true =>
          rw [hb rfl]
          simp [slotRel, slotBlank]
      · rcases o with _ | v
        · simp [slotRel, slotBlank]
        · simpa [slotRel] using restoresTo_refl v hws
    · subst hs
      subst hs1
      cases b1 with
      | false =>
        cases b2 <;> simp [slotRel, slotBlank]
      | true =>
        rw [hb rfl]
        simp [slotRel, slotBlank]
  · cases e with
    | cset n o =>
      rw [undoSlotF_cset, undoSlotF_cset]
      simpa [slotRel] using restoresTo_refl o hwe
    | cnest cn =>
      simp only [wfEO, wfEntry, Bool.and_eq_true] at hwe
      rw [undoSlotF_cnest, undoSlotF_cnest]
      rcases hs with hs | ⟨hs, hs1⟩
      · rw [hs]
        rcases s with _ | o
        · cases b1 with
          | false =>
            cases b2 <;> simp [slotRel, slotBlank]
          | true =>
            rw [hb rfl]
            simp [slotRel, slotBlank]
        · rcases o with _ | v
          · simp [slotRel, slotBlank]
          · have hwv : wfV (if v.isContainer then undoEntries v cn else v) = true := by
              split
              · exact wfV_undoEntries v cn hws hwe.2
              · exact hws
            simpa [slotRel] using restoresTo_refl _ hwv
      · subst hs
        subst hs1
        cases b1 with
        | false =>
          cases b2 <;> simp [slotRel, slotBlank]
        | true =>
          rw [hb rfl]
          simp [slotRel, slotBlank]

theorem idxLookup_canon (en : CRec) (ak : String) (i : Nat) (hc : canonIndex ak = some i) :
    idxLookup en i = alookup en ak := by
  induction en with
  | nil => rfl
  | cons p rest ih =>
    rcases p with ⟨k1, e1⟩
    by_cases hk : k1 = ak
    · subst hk
      simp [idxLookup, alookup, hc]
    · have hck : ¬ canonIndex k1 = some i := by
        intro hck
        exact canonIndex_inj k1 ak i i hck hc hk rfl
      simp [idxLookup, alookup, hck, hk, ih]

theorem idxLookup_aset_other (en : CRec) (ak : String) (e : CEntry) (j : Nat)
    (h : ¬ canonIndex ak = some j) :
    idxLookup (aset en ak e) j = idxLookup en j := by
  induction en with
  | nil => simp [aset, idxLookup, h]
  | cons p rest ih =>
    rcases p with ⟨k1, e1⟩
    by_cases hk : k1 = ak
    · subst hk
      simp [aset, idxLookup, h]
    · simp only [aset, if_neg hk, idxLookup]
      split
      · rfl
      · exact ih

theorem undoExtent_aset_cset (en : CRec) (ak : String) (a b : Value) :
    undoExtent (aset en ak (.cset a b)) =
      max (undoExtent en) (idxContrib ak (.cset a b)) := by
  induction en with
  | nil => simp [aset, undoExtent, Nat.max_comm]
  | cons p rest ih =>
    rcases p with ⟨k1, e1⟩
    by_cases hk : k1 = ak
    · subst hk
      simp only [aset, if_pos rfl, undoExtent]
      rcases hc : canonIndex k1 with _ | i
      · simp [idxContrib, hc]
      · cases e1 <;> simp [idxContrib, hc] <;> omega
    · simp only [aset, if_neg hk, undoExtent, ih]
      omega

theorem undoExtent_aset_cnest (en : CRec) (ak : String) (cn : CRec)
    (h : ∀ a b, alookup en ak ≠ some (.cset a b)) :
    undoExtent (aset en ak (.cnest cn)) = undoExtent en := by
  induction en with
  | nil => simp [aset, undoExtent, idxContrib]
  | cons p rest ih =>
    rcases p with ⟨k1, e1⟩
    by_cases hk : k1 = ak
    · subst hk
      cases e1 with
      | cset a b =>
        exact absurd (by simp [alookup]) (h a b)
      | cnest cn1 =>
        simp only [aset, if_pos rfl, undoExtent]
        rcases hc : canonIndex k1 with _ | i <;> simp [idxContrib, hc]
    · have h2 : ∀ a b, alookup rest ak ≠ some (.cset a b) := by
        intro a b hab
        exact h a b (by simpa [alookup, hk] using hab)
      simp [aset, hk, undoExtent, ih h2]

theorem arrWrite_length (es : List (Option Value)) (i : Nat) (x : Value) :
    (arrWrite es i x).length = max es.length (i + 1) := by
  unfold arrWrite
  split
  · simp
    omega
  · simp
    omega

theorem slot_lt_of_getElem {α : Type} (l : List α) (j : Nat) (x : α)
    (h : l[j]? = some x) : j < l.length := by
  by_contra hc
  rw [List.getElem?_eq_none (by omega)] at h
  exact absurd h (by simp)

theorem addValueChange_eq (c : Option CRec) (k : String) (oldV newV : Value) :
    addValueChange c k oldV newV =
      aset (c.getD []) k (.cset newV (addValOrig (c.getD []) k oldV)) := by
  rcases h : alookup (c.getD []) k with _ | e
  · simp [addValueChange, addValOrig, h]
  · cases e with
    | cset n o => simp [addValueChange, addValOrig, h]
    | cnest cn => simp [addValueChange, addValOrig, h]

theorem propRel_addVal (s : Option Value) (en : CRec) (ak : String)
    (hw : wfVO s = true) (hen : wfEntries en = true) :
    propRel (undoPropAt s (alookup en ak)) (some (addValOrig en ak (s.getD .undef))) = true := by
  unfold addValOrig
  rcases hl : alookup en ak with _ | e
  · rw [undoPropAt_noe]
    cases s with
    | none => rfl
    | some v => simpa [propRel] using restoresTo_refl v hw
  · cases e with
    | cset n o =>
      rw [undoPropAt_cset]
      have ho := wfEntries_lookup en ak _ hen hl
      simpa [propRel] using restoresTo_refl o ho
    | cnest cn =>
      have he := wfEntries_lookup en ak _ hen hl
      simp only [wfEntry, Bool.and_eq_true] at he
      rw [undoPropAt_cnest]
      cases s with
      | none => rfl
      | some v =>
        simp only [Option.getD]
        by_cases hc : v.isContainer = true
        · rw [if_pos hc, if_pos hc, undoVal_container v cn hc]
          simpa [propRel] using restoresTo_refl _ (wfV_undoEntries v cn hw he.2)
        · rw [if_neg hc, if_neg hc]
          simpa [propRel] using restoresTo_refl v hw

theorem slotRel_addVal (b : Bool) (s : Option (Option Value)) (en : CRec) (ak : String)
    (hw : wfSlot s = true) (hen : wfEntries en = true) :
    slotRel (undoSlotF b s (alookup en ak))
      (some (some (addValOrig en ak ((s.getD none).getD .undef)))) = true := by
  unfold addValOrig
  rcases hl : alookup en ak with _ | e
  · rw [undoSlotF_noe]
    rcases s with _ | o
    · cases b <;> simp [slotRel, slotBlank, Value.isContainer]
    · rcases o with _ | v
      · simp [slotRel, slotBlank, Value.isContainer]
      · simpa [slotRel] using restoresTo_refl v hw
  · cases e with
    | cset n o =>
      rw [undoSlotF_cset]
      have ho := wfEntries_lookup en ak _ hen hl
      simpa [slotRel] using restoresTo_refl o ho
    | cnest cn =>
      have he := wfEntries_lookup en ak _ hen hl
      simp only [wfEntry, Bool.and_eq_true] at he
      rw [undoSlotF_cnest]
      rcases s with _ | o
      · cases b <;> simp [slotRel, slotBlank, Value.isContainer]
      · rcases o with _ | v
        · simp [slotRel, slotBlank, Value.isContainer]
        · simp only [Option.getD]
          by_cases hc : v.isContainer = true
          · rw [if_pos hc, if_pos hc, undoVal_container v cn hc]
            simpa [slotRel] using restoresTo_refl _ (wfV_undoEntries v cn hw he.2)
          · rw [if_neg hc, if_neg hc]
            simpa [slotRel] using restoresTo_refl v hw

theorem undoSlotF_some_b (b b2 : Bool) (o : Option Value) (e : Option CEntry) :
    undoSlotF b (some o) e = undoSlotF b2 (some o) e := by
  rcases e with _ | e
  · rfl
  · cases e with
    | cset n o1 => rfl
    | cnest cn => cases o <;> rfl

theorem undoSlotF_true_some (s : Option (Option Value)) (e : Option CEntry) :
    ∃ y, undoSlotF true s e = some y := by
  rcases e with _ | e
  · rcases s with _ | o
    · exact ⟨none, rfl⟩
    · exact ⟨o, rfl⟩
  · cases e with
    | cset n o1 => exact ⟨some o1, by rw [undoSlotF_cset]⟩
    | cnest cn =>
      rcases s with _ | o
      · exact ⟨none, rfl⟩
      · rcases o with _ | v
        · exact ⟨none, rfl⟩
        · exact ⟨some (if v.isContainer then undoEntries v cn else v), rfl⟩

theorem undoSlotF_noe_some (b : Bool) (o : Option Value) :
    undoSlotF b (some o) none = some o := rfl

theorem undoSlotF_noe_none (b : Bool) :
    undoSlotF b none none = if b then some none else none := rfl

theorem undoSlotF_pad (e : Option CEntry) :
    undoSlotF true (some none) e = undoSlotF true none e := by
  rcases e with _ | e
  · rfl
  · cases e with
    | cset n o => rfl
    | cnest cn => rfl

/-- Per-key characterization of `undoEntries` over a record: with unique
entry keys each field ends as `undoPropAt` of its start value and entry. -/
theorem undoEntries_obj_char (en : CRec) : ∀ fs : List (String × Value),
    nodupKeys en = true →
    ∃ fs2, undoEntries (.obj fs) en = .obj fs2 ∧
      ∀ k, alookup fs2 k = undoPropAt (alookup fs k) (alookup en k) := by
  induction en with
  | nil =>
    intro fs _
    exact ⟨fs, rfl, fun k => rfl⟩
  | cons p rest ih =>
    rcases p with ⟨k1, e1⟩
    intro fs hnd
    simp only [nodupKeys, Bool.and_eq_true] at hnd
    have hnd1 := Option.isNone_iff_eq_none.mp hnd.1
    obtain ⟨fs1, hstep, hlk⟩ : ∃ fs1, undoEntry (.obj fs) k1 e1 = .obj fs1 ∧
        ∀ k, alookup fs1 k =
          if k1 = k then undoPropAt (alookup fs k) (some e1) else alookup fs k := by
      cases e1 with
      | cset n o =>
        refine ⟨aset fs k1 o, rfl, fun k => ?_⟩
        rw [alookup_aset_char, undoPropAt_cset]
      | cnest cn =>
        have hrfl : undoEntry (.obj fs) k1 (.cnest cn) =
            if ((Value.obj fs).jsGet k1).isContainer then
              (Value.obj fs).jsSet k1 (undoEntries ((Value.obj fs).jsGet k1) cn)
            else (Value.obj fs) := rfl
        by_cases hc : ((Value.obj fs).jsGet k1).isContainer = true
        · refine ⟨aset fs k1 (undoEntries ((Value.obj fs).jsGet k1) cn), ?_, fun k => ?_⟩
          · rw [hrfl, if_pos hc]
            rfl
          · rw [alookup_aset_char]
            by_cases hk : k1 = k
            · subst hk
              rw [if_pos rfl, if_pos rfl, undoPropAt_cnest]
              rcases halk : alookup fs k1 with _ | v
              · exfalso
                have hu : (Value.obj fs).jsGet k1 = .undef := by
                  simp [Value.jsGet, halk]
                rw [hu] at hc
                simp [Value.isContainer] at hc
              · have hgv : (Value.obj fs).jsGet k1 = v := by
                  simp [Value.jsGet, halk]
                rw [hgv] at hc ⊢
                show some (undoEntries v cn) =
                  if v.isContainer then some (undoEntries v cn) else some v
                rw [if_pos hc]
            · rw [if_neg hk, if_neg hk]
        · refine ⟨fs, ?_, fun k => ?_⟩
          · rw [hrfl, if_neg hc]
          · by_cases hk : k1 = k
            · subst hk
              rw [if_pos rfl, undoPropAt_cnest]
              rcases halk : alookup fs k1 with _ | v
              · rfl
              · have hgv : (Value.obj fs).jsGet k1 = v := by
                  simp [Value.jsGet, halk]
                rw [hgv] at hc
                show some v = if v.isContainer then some (undoEntries v cn) else some v
                rw [if_neg hc]
            · rw [if_neg hk]
    obtain ⟨fs2, hrest, hlk2⟩ := ih fs1 hnd.2
    refine ⟨fs2, ?_, fun k => ?_⟩
    · rw [show undoEntries (Value.obj fs) ((k1, e1) :: rest) =
          undoEntries (undoEntry (Value.obj fs) k1 e1) rest from rfl, hstep]
      exact hrest
    · rw [hlk2 k, hlk k]
      by_cases hk : k1 = k
      · subst hk
        rw [if_pos rfl, hnd1, undoPropAt_noe,
          show alookup ((k1, e1) :: rest) k1 = some e1 from by simp [alookup]]
      · rw [if_neg hk,
          show alookup ((k1, e1) :: rest) k = alookup rest k from by simp [alookup, hk]]

/-- Slot- and key-wise characterization of `undoEntries` over an array:
each slot ends as `undoSlotF` of its start value, the entry at its index
and whether it lies below the final length; string properties mirror the
record case; the length grows exactly to `undoExtent`. -/
theorem undoEntries_arr_char (en : CRec) : ∀ (es : List (Option Value))
    (ps : List (String × Value)), nodupKeys en = true →
    ∃ es2 ps2, undoEntries (.arr es ps) en = .arr es2 ps2 ∧
      es2.length = max es.length (undoExtent en) ∧
      (∀ j : Nat, es2[j]? =
        undoSlotF (decide (j < max es.length (undoExtent en))) es[j]? (idxLookup en j)) ∧
      (∀ k : String, alookup ps2 k =
        match canonIndex k with
        | some _ => alookup ps k
        | none => undoPropAt (alookup ps k) (alookup en k)) := by
  induction en with
  | nil =>
    intro es ps _
    refine ⟨es, ps, rfl, by simp [undoExtent], fun j => ?_, fun k => ?_⟩
    · rw [show idxLookup [] j = none from rfl, undoSlotF_noe]
      rcases hj : es[j]? with _ | o
      · have hlen : es.length ≤ j := List.getElem?_eq_none_iff.mp hj
        rw [if_neg (by simp [undoExtent]; omega)]
      · rfl
    · rcases hck : canonIndex k with _ | ik
      · rw [show alookup ([] : CRec) k = none from rfl, undoPropAt_noe]
      · rfl
  | cons p rest ih =>
    rcases p with ⟨k1, e1⟩
    intro es ps hnd
    simp only [nodupKeys, Bool.and_eq_true] at hnd
    have hnd1 := Option.isNone_iff_eq_none.mp hnd.1
    have hext : undoExtent ((k1, e1) :: rest) = max (idxContrib k1 e1) (undoExtent rest) := rfl
    rcases hcan : canonIndex k1 with _ | i
    · -- non-canonical key: only the string properties move
      have hc0 : idxContrib k1 e1 = 0 := by simp [idxContrib, hcan]
      obtain ⟨ps1, hstep, hlk⟩ : ∃ ps1, undoEntry (.arr es ps) k1 e1 = .arr es ps1 ∧
          ∀ k, alookup ps1 k =
            if k1 = k then undoPropAt (alookup ps k) (some e1) else alookup ps k := by
        cases e1 with
        | cset n o =>
          refine ⟨aset ps k1 o, ?_, fun k => ?_⟩
          · show (Value.arr es ps).jsSet k1 o = _
            rw [jsSet_arr, hcan]
          · rw [alookup_aset_char, undoPropAt_cset]
        | cnest cn =>
          have hrfl : undoEntry (.arr es ps) k1 (.cnest cn) =
              if ((Value.arr es ps).jsGet k1).isContainer then
                (Value.arr es ps).jsSet k1 (undoEntries ((Value.arr es ps).jsGet k1) cn)
              else (Value.arr es ps) := rfl
          have hget : (Value.arr es ps).jsGet k1 = (alookup ps k1).getD .undef := by
            simp [Value.jsGet, hcan]
          by_cases hc : ((Value.arr es ps).jsGet k1).isContainer = true
          · refine ⟨aset ps k1 (undoEntries ((Value.arr es ps).jsGet k1) cn), ?_, fun k => ?_⟩
            · rw [hrfl, if_pos hc, jsSet_arr, hcan]
            · rw [alookup_aset_char]
              by_cases hk : k1 = k
              · subst hk
                rw [if_pos rfl, if_pos rfl, undoPropAt_cnest]
                rcases halk : alookup ps k1 with _ | v
                · exfalso
                  rw [hget, halk] at hc
                  simp [Value.isContainer] at hc
                · have hgv : (Value.arr es ps).jsGet k1 = v := by
                    rw [hget, halk]
                    rfl
                  rw [hgv] at hc ⊢
                  show some (undoEntries v cn) =
                    if v.isContainer then some (undoEntries v cn) else some v
                  rw [if_pos hc]
              · rw [if_neg hk, if_neg hk]
          · refine ⟨ps, ?_, fun k => ?_⟩
            · rw [hrfl, if_neg hc]
            · by_cases hk : k1 = k
              · subst hk
                rw [if_pos rfl, undoPropAt_cnest]
                rcases halk : alookup ps k1 with _ | v
                · rfl
                · have hgv : (Value.arr es ps).jsGet k1 = v := by
                    rw [hget, halk]
                    rfl
                  rw [hgv] at hc
                  show some v = if v.isContainer then some (undoEntries v cn) else some v
                  rw [if_neg hc]
              · rw [if_neg hk]
      obtain ⟨es2, ps2, hrest, hL2, hslots2, hprops2⟩ := ih es ps1 hnd.2
      have hLL : max es.length (undoExtent rest) =
          max es.length (undoExtent ((k1, e1) :: rest)) := by
        rw [hext, hc0]
        omega
      refine ⟨es2, ps2, ?_, ?_, fun j => ?_, fun k => ?_⟩
      · rw [show undoEntries (Value.arr es ps) ((k1, e1) :: rest) =
            undoEntries (undoEntry (Value.arr es ps) k1 e1) rest from rfl, hstep]
        exact hrest
      · rw [hL2, hLL]
      · rw [hslots2 j, hLL,
          show idxLookup ((k1, e1) :: rest) j = idxLookup rest j from by
            simp [idxLookup, hcan]]
      · rw [hprops2 k]
        rcases hck : canonIndex k with _ | ik
        · by_cases hk : k1 = k
          · subst hk
            rw [hlk k1, if_pos rfl, hnd1, undoPropAt_noe,
              show alookup ((k1, e1) :: rest) k1 = some e1 from by simp [alookup]]
          · rw [hlk k, if_neg hk,
              show alookup ((k1, e1) :: rest) k = alookup rest k from by
                simp [alookup, hk]]
        · rw [hlk k, if_neg ?_]
          intro hk
          subst hk
          rw [hcan] at hck
          exact absurd hck (by simp)
    · -- canonical index key: only the slots move
      obtain ⟨es1, hstep, hlen1, hoff, hat⟩ : ∃ es1,
          undoEntry (.arr es ps) k1 e1 = .arr es1 ps ∧
          es1.length = max es.length (idxContrib k1 e1) ∧
          (∀ j : Nat, j ≠ i → es1[j]? = es[j]? ∨ (es[j]? = none ∧ es1[j]? = some none)) ∧
          ((es1[i]? = undoSlotF true es[i]? (some e1) ∧
              (es[i]? = none → i < max es.length (idxContrib k1 e1))) ∨
            (es[i]? = none ∧ es1[i]? = none ∧ idxContrib k1 e1 = 0)) := by
        cases e1 with
        | cset n o =>
          have hcon : idxContrib k1 (.cset n o) = i + 1 := by simp [idxContrib, hcan]
          refine ⟨arrWrite es i o, ?_, ?_, fun j hj => ?_, .inl ⟨?_, fun _ => ?_⟩⟩
          · show (Value.arr es ps).jsSet k1 o = _
            rw [jsSet_arr, hcan]
          · rw [arrWrite_length, hcon]
          · rcases arrWrite_getElem_other es i o j hj with h | ⟨h1, h2⟩
            · exact .inl h
            · exact .inr ⟨h2, h1⟩
          · rw [arrWrite_getElem_self, undoSlotF_cset]
          · rw [hcon]
            omega
        | cnest cn =>
          have hcon : idxContrib k1 (.cnest cn) = 0 := by simp [idxContrib, hcan]
          have hrfl : undoEntry (.arr es ps) k1 (.cnest cn) =
              if ((Value.arr es ps).jsGet k1).isContainer then
                (Value.arr es ps).jsSet k1 (undoEntries ((Value.arr es ps).jsGet k1) cn)
              else (Value.arr es ps) := rfl
          have hget : (Value.arr es ps).jsGet k1 = (es.getD i none).getD .undef := by
            simp [Value.jsGet, hcan]
          by_cases hc : ((Value.arr es ps).jsGet k1).isContainer = true
          · rcases hsi : es[i]? with _ | o
            · exfalso
              rw [hget, List.getD_eq_getElem?_getD, hsi] at hc
              simp [Value.isContainer] at hc
            · rcases o with _ | v
              · exfalso
                rw [hget, List.getD_eq_getElem?_getD, hsi] at hc
                simp [Value.isContainer] at hc
              · have hgv : (Value.arr es ps).jsGet k1 = v := by
                  rw [hget, List.getD_eq_getElem?_getD, hsi]
                  rfl
                have hlt : i < es.length := slot_lt_of_getElem es i (some v) hsi
                rw [hgv] at hc hrfl
                refine ⟨arrWrite es i (undoEntries v cn), ?_, ?_, fun j hj => ?_,
                  .inl ⟨?_, fun hn => ?_⟩⟩
                · rw [hrfl, if_pos hc, jsSet_arr, hcan]
                · rw [arrWrite_length, hcon]
                  omega
                · rcases arrWrite_getElem_other es i (undoEntries v cn) j hj with h | ⟨h1, h2⟩
                  · exact .inl h
                  · exact .inr ⟨h2, h1⟩
                · rw [arrWrite_getElem_self, undoSlotF_cnest]
                  show _ = some (some (if v.isContainer then undoEntries v cn else v))
                  rw [if_pos hc]
                · exact absurd hn (by simp)
          · refine ⟨es, ?_, ?_, fun j hj => .inl rfl, ?_⟩
            · rw [hrfl, if_neg hc]
            · rw [hcon]
              omega
            · rcases hsi : es[i]? with _ | o
              · exact .inr ⟨rfl, rfl, hcon⟩
              · rcases o with _ | v
                · refine .inl ⟨?_, fun hn => absurd hn (by simp)⟩
                  rw [undoSlotF_cnest]
                · refine .inl ⟨?_, fun hn => absurd hn (by simp)⟩
                  rw [undoSlotF_cnest]
                  have hgv : (Value.arr es ps).jsGet k1 = v := by
                    rw [hget, List.getD_eq_getElem?_getD, hsi]
                    rfl
                  rw [hgv] at hc
                  show some (some v) =
                    some (some (if v.isContainer then undoEntries v cn else v))
                  rw [if_neg hc]
      obtain ⟨es2, ps2, hrest, hL2, hslots2, hprops2⟩ := ih es1 ps hnd.2
      have hLL : max es1.length (undoExtent rest) =
          max es.length (undoExtent ((k1, e1) :: rest)) := by
        rw [hext, hlen1]
        omega
      have hcle : idxContrib k1 e1 ≤ undoExtent ((k1, e1) :: rest) := by
        rw [hext]
        omega
      refine ⟨es2, ps2, ?_, ?_, fun j => ?_, fun k => ?_⟩
      · rw [show undoEntries (Value.arr es ps) ((k1, e1) :: rest) =
            undoEntries (undoEntry (Value.arr es ps) k1 e1) rest from rfl, hstep]
        exact hrest
      · rw [hL2, hLL]
      · rw [hslots2 j, hLL]
        by_cases hj : j = i
        · subst hj
          rw [show idxLookup rest j = none from by
              rw [idxLookup_canon rest k1 j hcan]; exact hnd1,
            show idxLookup ((k1, e1) :: rest) j = some e1 from by simp [idxLookup, hcan]]
          rcases hat with ⟨hat, hbnd⟩ | ⟨hn, h1n, hc0⟩
          · rw [hat]
            rcases hsi : es[j]? with _ | o
            · rw [hsi] at hat hbnd
              have hblt : decide (j < max es.length (undoExtent ((k1, e1) :: rest))) = true := by
                simp only [decide_eq_true_iff]
                have := hbnd rfl
                omega
              rw [hblt]
              obtain ⟨y, hy⟩ := undoSlotF_true_some none (some e1)
              rw [hy, undoSlotF_noe_some]
            · obtain ⟨y, hy⟩ := undoSlotF_true_some (some o) (some e1)
              rw [hy, undoSlotF_noe_some, ← hy]
              exact undoSlotF_some_b true _ o (some e1)
          · rw [hn, h1n, undoSlotF_noe]
            cases e1 with
            | cset a b =>
              exfalso
              rw [show idxContrib k1 (.cset a b) = j + 1 from by simp [idxContrib, hcan]]
                at hc0
              omega
            | cnest cn => rw [undoSlotF_cnest]
        · rw [show idxLookup ((k1, e1) :: rest) j = idxLookup rest j from by
              simp only [idxLookup, hcan, Option.some.injEq]
              rw [if_neg (fun h => hj h.symm)]]
          rcases hoff j hj with h | ⟨h1, h2⟩
          · rw [h]
          · rw [h1, h2]
            have hblt : decide (j < max es.length (undoExtent ((k1, e1) :: rest))) = true := by
              simp only [decide_eq_true_iff]
              have hj1 : j < es1.length := slot_lt_of_getElem es1 j none h2
              rw [hlen1] at hj1
              omega
            rw [hblt, undoSlotF_pad]
      · rw [hprops2 k]
        rcases hck : canonIndex k with _ | ik
        · rw [show alookup ((k1, e1) :: rest) k = alookup rest k from by
            simp only [alookup]
            rw [if_neg ?_]
            intro hk
            subst hk
            rw [hcan] at hck
            exact absurd hck (by simp)]
        · rfl

theorem undoPropAt_cnest_some (v : Value) (cn : CRec) :
    undoPropAt (some v) (some (.cnest cn)) =
      if v.isContainer then some (undoEntries v cn) else some v := rfl

theorem undoPropAt_cnest_none (cn : CRec) :
    undoPropAt none (some (.cnest cn)) = none := rfl

theorem undoSlotF_cnest_some (b : Bool) (v : Value) (cn : CRec) :
    undoSlotF b (some (some v)) (some (.cnest cn)) =
      some (some (if v.isContainer then undoEntries v cn else v)) := rfl

theorem undoSlotF_cnest_hole (b : Bool) (cn : CRec) :
    undoSlotF b (some none) (some (.cnest cn)) = some none := rfl

theorem undoSlotF_cnest_nn (b : Bool) (cn : CRec) :
    undoSlotF b none (some (.cnest cn)) = if b then some none else none := rfl

/-- At the mutated key, with a nested record written for the child: the
undone original field relates to the undone child. -/
theorem propRel_at_nest (s : Option Value) (child : Value) (cn2 en : CRec) (ak : String)
    (sub : Option CRec) (hsub : subTieN en ak sub)
    (hrt : restoresTo (undoOpt (s.getD .undef) sub) (undoVal child cn2) = true)
    (hcont : child.isContainer = (s.getD .undef).isContainer) :
    propRel (undoPropAt s (alookup en ak))
      (undoPropAt (some child) (some (.cnest cn2))) = true := by
  rw [undoPropAt_cnest_some]
  rcases sub with _ | cn
  · have halk : alookup en ak = none := hsub
    rw [halk, undoPropAt_noe]
    cases s with
    | none =>
      have hrt2 : restoresTo .undef (undoVal child cn2) = true := hrt
      have hcc : child.isContainer = false := by
        simpa [Value.isContainer] using hcont
      have hch : child = .undef := by
        have hud := restoresTo_undef _ hrt2
        rwa [undoVal_prim child cn2 hcc] at hud
      rw [hch]
      simp [propRel, Value.isContainer]
    | some v =>
      have hrt2 : restoresTo v (undoVal child cn2) = true := hrt
      by_cases hc : child.isContainer = true
      · rw [if_pos hc]
        rw [undoVal_container child cn2 hc] at hrt2
        simpa [propRel] using hrt2
      · have hcf : child.isContainer = false := by simpa using hc
        rw [if_neg hc]
        rw [undoVal_prim child cn2 hcf] at hrt2
        simpa [propRel] using hrt2
  · have halk : alookup en ak = some (.cnest cn) := hsub
    rw [halk]
    cases s with
    | none =>
      rw [undoPropAt_cnest_none]
      have hrt2 : restoresTo .undef (undoVal child cn2) = true := hrt
      have hcc : child.isContainer = false := by
        simpa [Value.isContainer] using hcont
      have hch : child = .undef := by
        have hud := restoresTo_undef _ hrt2
        rwa [undoVal_prim child cn2 hcc] at hud
      rw [hch]
      simp [propRel, Value.isContainer]
    | some v =>
      rw [undoPropAt_cnest_some]
      have hrt2 : restoresTo (undoVal v cn) (undoVal child cn2) = true := hrt
      have hcc : child.isContainer = v.isContainer := hcont
      by_cases hc : v.isContainer = true
      · rw [if_pos hc, if_pos (hcc.trans hc)]
        rw [undoVal_container v cn hc, undoVal_container child cn2 (hcc.trans hc)] at hrt2
        simpa [propRel] using hrt2
      · have hcf : v.isContainer = false := by simpa using hc
        rw [if_neg hc, if_neg (by simp [hcc, hcf])]
        rw [undoVal_prim v cn hcf, undoVal_prim child cn2 (hcc.trans hcf)] at hrt2
        simpa [propRel] using hrt2

/-- As `propRel_at_nest`, for an array slot. -/
theorem slotRel_at_nest (b1 b2 : Bool) (s : Option (Option Value)) (child : Value)
    (cn2 en : CRec) (ak : String) (sub : Option CRec) (hsub : subTieN en ak sub)
    (hrt : restoresTo (undoOpt ((s.getD none).getD .undef) sub) (undoVal child cn2) = true)
    (hcont : child.isContainer = ((s.getD none).getD .undef).isContainer) :
    slotRel (undoSlotF b1 s (alookup en ak))
      (undoSlotF b2 (some (some child)) (some (.cnest cn2))) = true := by
  rw [undoSlotF_cnest_some]
  have hblank : ∀ x : Option (Option Value), x = none ∨ x = some none →
      (s.getD none).getD .undef = .undef →
      slotRel x (some (some (if child.isContainer then undoEntries child cn2 else child)))
        = true := by
    intro x hx hu
    have hrt2 : restoresTo .undef (undoVal child cn2) = true := by
      rcases sub with _ | cn
      · rw [show undoOpt ((s.getD none).getD .undef) none = (s.getD none).getD .undef
            from rfl, hu] at hrt
        exact hrt
      · rw [show undoOpt ((s.getD none).getD .undef) (some cn) =
            undoVal ((s.getD none).getD .undef) cn from rfl, hu,
          undoVal_prim Value.undef cn rfl] at hrt
        exact hrt
    have hcc : child.isContainer = false := by
      rw [hcont, hu]
      rfl
    have hch : child = .undef := by
      have hud := restoresTo_undef _ hrt2
      rwa [undoVal_prim child cn2 hcc] at hud
    rcases hx with hx | hx <;> rw [hx, hch] <;> simp [slotRel, slotBlank, Value.isContainer]
  rcases sub with _ | cn
  · have halk : alookup en ak = none := hsub
    rw [halk]
    rcases s with _ | o
    · cases b1 with
      | false => exact hblank none (.inl rfl) rfl
      | true => exact hblank (some none) (.inr rfl) rfl
    · rcases o with _ | v
      · exact hblank (some none) (.inr rfl) rfl
      · rw [undoSlotF_noe_some]
        have hrt2 : restoresTo v (undoVal child cn2) = true := hrt
        have hcc : child.isContainer = v.isContainer := hcont
        by_cases hc : v.isContainer = true
        · rw [if_pos (hcc.trans hc)]
          rw [undoVal_container child cn2 (hcc.trans hc)] at hrt2
          simpa [slotRel] using hrt2
        · have hcf : v.isContainer = false := by simpa using hc
          rw [if_neg (by simp [hcc, hcf])]
          rw [undoVal_prim child cn2 (hcc.trans hcf)] at hrt2
          simpa [slotRel] using hrt2
  · have halk : alookup en ak = some (.cnest cn) := hsub
    rw [halk]
    rcases s with _ | o
    · cases b1 with
      | false => exact hblank none (.inl rfl) rfl
      | true => exact hblank (some none) (.inr rfl) rfl
    · rcases o with _ | v
      · exact hblank (some none) (.inr rfl) rfl
      · rw [undoSlotF_cnest_some]
        have hrt2 : restoresTo (undoVal v cn) (undoVal child cn2) = true := hrt
        have hcc : child.isContainer = v.isContainer := hcont
        by_cases hc : v.isContainer = true
        · rw [if_pos hc, if_pos (hcc.trans hc)]
          rw [undoVal_container v cn hc, undoVal_container child cn2 (hcc.trans hc)] at hrt2
          simpa [slotRel] using hrt2
        · have hcf : v.isContainer = false := by simpa using hc
          rw [if_neg hc, if_neg (by simp [hcc, hcf])]
          rw [undoVal_prim v cn hcf, undoVal_prim child cn2 (hcc.trans hcf)] at hrt2
          simpa [slotRel] using hrt2

/-- At the key a nested call mutated without leaving a record: the undo at
the key applies the same (unchanged) entry to the mutated child. -/
theorem propRel_at_none (s : Option Value) (child : Value) (en : CRec) (ak : String)
    (sub : Option CRec) (hsub : subTie en ak sub)
    (hrt : restoresTo (undoOpt (s.getD .undef) sub) (undoOpt child sub) = true)
    (hcont : child.isContainer = (s.getD .undef).isContainer)
    (hen : wfEntries en = true) :
    propRel (undoPropAt s (alookup en ak)) (undoPropAt (some child) (alookup en ak)) = true := by
  rcases halk : alookup en ak with _ | e
  · rw [undoPropAt_noe, undoPropAt_noe]
    rcases sub with _ | cn
    · cases s with
      | none =>
        have hrt2 : restoresTo .undef child = true := hrt
        rw [restoresTo_undef child hrt2]
        rfl
      | some v => simpa [propRel] using hrt
    · have hsub2 : alookup en ak = some (.cnest cn) := hsub
      rw [halk] at hsub2
      exact absurd hsub2 (by simp)
  · cases e with
    | cset n o =>
      rw [undoPropAt_cset, undoPropAt_cset]
      have ho := wfEntries_lookup en ak _ hen halk
      simpa [propRel] using restoresTo_refl o ho
    | cnest cn =>
      rcases sub with _ | cn0
      · have hsub2 : (match alookup en ak with
            | some (.cnest _) => False
            | _ => True) := hsub
        rw [halk] at hsub2
        exact False.elim hsub2
      · have hsub2 : alookup en ak = some (.cnest cn0) := hsub
        rw [halk] at hsub2
        simp only [Option.some.injEq, CEntry.cnest.injEq] at hsub2
        subst hsub2
        rw [undoPropAt_cnest_some]
        cases s with
        | none =>
          rw [undoPropAt_cnest_none]
          have hrt2 : restoresTo .undef (undoVal child cn) = true := by
            have h0 : undoOpt (Option.getD (none : Option Value) .undef) (some cn) =
                .undef := undoVal_prim _ _ rfl
            rwa [h0] at hrt
          have hcc : child.isContainer = false := by
            simpa [Value.isContainer] using hcont
          have hch : child = .undef := by
            have hud := restoresTo_undef _ hrt2
            rwa [undoVal_prim child cn hcc] at hud
          rw [hch]
          simp [propRel, Value.isContainer]
        | some v =>
          rw [undoPropAt_cnest_some]
          have hrt2 : restoresTo (undoVal v cn) (undoVal child cn) = true := hrt
          have hcc : child.isContainer = v.isContainer := hcont
          by_cases hc : v.isContainer = true
          · rw [if_pos hc, if_pos (hcc.trans hc)]
            rw [undoVal_container v cn hc, undoVal_container child cn (hcc.trans hc)]
              at hrt2
            simpa [propRel] using hrt2
          · have hcf : v.isContainer = false := by simpa using hc
            rw [if_neg hc, if_neg (by simp [hcc, hcf])]
            rw [undoVal_prim v cn hcf, undoVal_prim child cn (hcc.trans hcf)] at hrt2
            simpa [propRel] using hrt2

/-- As `propRel_at_none`, for an array slot. -/
theorem slotRel_at_none (b1 b2 : Bool) (s : Option (Option Value)) (child : Value)
    (en : CRec) (ak : String) (sub : Option CRec) (hsub : subTie en ak sub)
    (hrt : restoresTo (undoOpt ((s.getD none).getD .undef) sub) (undoOpt child sub) = true)
    (hcont : child.isContainer = ((s.getD none).getD .undef).isContainer)
    (hen : wfEntries en = true) :
    slotRel (undoSlotF b1 s (alookup en ak))
      (undoSlotF b2 (some (some child)) (alookup en ak)) = true := by
  rcases halk : alookup en ak with _ | e
  · rw [undoSlotF_noe_some]
    rcases sub with _ | cn
    · rcases s with _ | o
      · have hrt2 : restoresTo .undef child = true := hrt
        rw [restoresTo_undef child hrt2, undoSlotF_noe_none]
        cases b1 <;> simp [slotRel, slotBlank]
      · rcases o with _ | v
        · have hrt2 : restoresTo .undef child = true := hrt
          rw [restoresTo_undef child hrt2, undoSlotF_noe_some]
          simp [slotRel, slotBlank]
        · rw [undoSlotF_noe_some]
          simpa [slotRel] using hrt
    · have hsub2 : alookup en ak = some (.cnest cn) := hsub
      rw [halk] at hsub2
      exact absurd hsub2 (by simp)
  · cases e with
    | cset n o =>
      rw [undoSlotF_cset, undoSlotF_cset]
      have ho := wfEntries_lookup en ak _ hen halk
      simpa [slotRel] using restoresTo_refl o ho
    | cnest cn =>
      rcases sub with _ | cn0
      · have hsub2 : (match alookup en ak with
            | some (.cnest _) => False
            | _ => True) := hsub
        rw [halk] at hsub2
        exact False.elim hsub2
      · have hsub2 : alookup en ak = some (.cnest cn0) := hsub
        rw [halk] at hsub2
        simp only [Option.some.injEq, CEntry.cnest.injEq] at hsub2
        subst hsub2
        rw [undoSlotF_cnest_some]
        have hblank : ∀ x : Option (Option Value), x = none ∨ x = some none →
            (s.getD none).getD .undef = .undef →
            slotRel x
              (some (some (if child.isContainer then undoEntries child cn else child)))
              = true := by
          intro x hx hu
          have hrt2 : restoresTo .undef (undoVal child cn) = true := by
            rw [show undoOpt ((s.getD none).getD .undef) (some cn) =
                undoVal ((s.getD none).getD .undef) cn from rfl, hu,
              undoVal_prim Value.undef cn rfl] at hrt
            exact hrt
          have hcc : child.isContainer = false := by
            rw [hcont, hu]
            rfl
          have hch : child = .undef := by
            have hud := restoresTo_undef _ hrt2
            rwa [undoVal_prim child cn hcc] at hud
          rcases hx with hx | hx <;> rw [hx, hch] <;>
            simp [slotRel, slotBlank, Value.isContainer]
        rcases s with _ | o
        · cases b1 with
          | false => exact hblank none (.inl rfl) rfl
          | true => exact hblank (some none) (.inr rfl) rfl
        · rcases o with _ | v
          · exact hblank (some none) (.inr rfl) rfl
          · rw [undoSlotF_cnest_some]
            have hrt2 : restoresTo (undoVal v cn) (undoVal child cn) = true := hrt
            have hcc : child.isContainer = v.isContainer := hcont
            by_cases hc : v.isContainer = true
            · rw [if_pos hc, if_pos (hcc.trans hc)]
              rw [undoVal_container v cn hc, undoVal_container child cn (hcc.trans hc)]
                at hrt2
              simpa [slotRel] using hrt2
            · have hcf : v.isContainer = false := by simpa using hc
              rw [if_neg hc, if_neg (by simp [hcc, hcf])]
              rw [undoVal_prim v cn hcf, undoVal_prim child cn (hcc.trans hcf)] at hrt2
              simpa [slotRel] using hrt2

/-- Master step lemma, direct change: one mutation at `ak` (set, delete or
set-then-set) with a `cset` entry recording `addValOrig` keeps the undone
value related to the undone original. -/
theorem undo_step_direct (d d1 : Value) (en : CRec) (ak : String) (nv : Value)
    (hd : wfV d = true) (hnd : nodupKeys en = true) (hen : wfEntries en = true)
    (hstep : stepData d d1 ak) :
    restoresTo (undoVal d en)
      (undoVal d1 (aset en ak (.cset nv (addValOrig en ak (d.jsGet ak))))) = true := by
  cases d with
  | obj fs =>
    cases d1 with
    | obj fs1 =>
      have hstep2 : ∀ k, k ≠ ak → alookup fs1 k = alookup fs k := hstep
      have hwfa : wfV (Value.obj fs) = true := hd
      simp only [wfV, Bool.and_eq_true] at hwfa
      obtain ⟨fsA, h1, hlk1⟩ := undoEntries_obj_char en fs hnd
      obtain ⟨fsB, h2, hlk2⟩ := undoEntries_obj_char
        (aset en ak (.cset nv (addValOrig en ak ((Value.obj fs).jsGet ak)))) fs1
        (nodupKeys_aset en ak _ hnd)
      rw [undoVal_container (Value.obj fs) _ rfl, undoVal_container (Value.obj fs1) _ rfl,
        h1, h2]
      have hw2 := wfV_undoEntries (Value.obj fs) en hd hen
      rw [h1] at hw2
      simp only [wfV, Bool.and_eq_true] at hw2
      apply obj_restores_intro _ _ hw2.1
      intro k
      rw [hlk1 k, hlk2 k, alookup_aset_char]
      by_cases hk : ak = k
      · subst hk
        rw [if_pos rfl, undoPropAt_cset]
        exact propRel_addVal (alookup fs ak) en ak (wfVO_lookup fs ak hwfa.2) hen
      · rw [if_neg hk, hstep2 k (fun h => hk h.symm)]
        exact propRel_undoPropAt_refl _ _ (wfVO_lookup fs k hwfa.2) (wfEO_alookup en k hen)
    | arr es1 ps1 => exact absurd (hstep : Value.arr es1 ps1 = Value.obj fs) (fun h => Value.noConfusion h)
    | undef => exact absurd (hstep : Value.undef = Value.obj fs) (fun h => Value.noConfusion h)
    | null => exact absurd (hstep : Value.null = Value.obj fs) (fun h => Value.noConfusion h)
    | bool b => exact absurd (hstep : Value.bool b = Value.obj fs) (fun h => Value.noConfusion h)
    | num n => exact absurd (hstep : Value.num n = Value.obj fs) (fun h => Value.noConfusion h)
    | str t => exact absurd (hstep : Value.str t = Value.obj fs) (fun h => Value.noConfusion h)
  | arr es ps =>
    cases d1 with
    | arr es1 ps1 =>
      obtain ⟨hlen, hcase⟩ : es.length ≤ es1.length ∧
          (match canonIndex ak with
           | some i => ps1 = ps ∧
               ∀ j : Nat, j ≠ i → es1[j]? = es[j]? ∨ (es[j]? = none ∧ es1[j]? = some none)
           | none => es1 = es ∧ ∀ k, k ≠ ak → alookup ps1 k = alookup ps k) := hstep
      have hwfa : wfV (Value.arr es ps) = true := hd
      simp only [wfV, Bool.and_eq_true] at hwfa
      rcases hcan : canonIndex ak with _ | i
      · rw [hcan] at hcase
        obtain ⟨hes, hps⟩ := hcase
        rw [hes]
        have hget : (Value.arr es ps).jsGet ak = (alookup ps ak).getD .undef := by
          simp [Value.jsGet, hcan]
        obtain ⟨esA, psA, h1, hL1, hslot1, hprop1⟩ := undoEntries_arr_char en es ps hnd
        obtain ⟨esB, psB, h2, hL2, hslot2, hprop2⟩ := undoEntries_arr_char
          (aset en ak (.cset nv (addValOrig en ak ((Value.arr es ps).jsGet ak)))) es ps1
          (nodupKeys_aset en ak _ hnd)
        rw [undoVal_container (Value.arr es ps) _ rfl,
          undoVal_container (Value.arr es ps1) _ rfl, h1, h2]
        have hw2 := wfV_undoEntries (Value.arr es ps) en hd hen
        rw [h1] at hw2
        simp only [wfV, Bool.and_eq_true] at hw2
        have hext : undoExtent (aset en ak
            (.cset nv (addValOrig en ak ((Value.arr es ps).jsGet ak)))) = undoExtent en := by
          rw [undoExtent_aset_cset,
            show idxContrib ak (.cset nv (addValOrig en ak ((Value.arr es ps).jsGet ak))) = 0
              from by simp [idxContrib, hcan]]
          omega
        apply arr_restores_intro _ _ _ _ hw2.2.1
        · intro j
          rw [hslot1 j, hslot2 j, hext,
            idxLookup_aset_other en ak _ j (by rw [hcan]; simp)]
          exact undoSlotF_rel _ _ _ _ _ (fun h => h) (.inl rfl)
            (wfSlot_getElem es j hwfa.1) (wfEO_idxLookup en j hen)
        · intro k
          rw [hprop1 k, hprop2 k]
          rcases hck : canonIndex k with _ | ik
          · by_cases hk : ak = k
            · subst hk
              rw [alookup_aset_self, undoPropAt_cset, hget]
              exact propRel_addVal (alookup ps ak) en ak (wfVO_lookup ps ak hwfa.2.2) hen
            · rw [alookup_aset_char, if_neg hk, hps k (fun h => hk h.symm)]
              exact propRel_undoPropAt_refl _ _ (wfVO_lookup ps k hwfa.2.2)
                (wfEO_alookup en k hen)
          · have hk : k ≠ ak := by
              intro h
              subst h
              rw [hcan] at hck
              exact absurd hck (by simp)
            rw [hps k hk]
            exact propRel_refl _ (wfVO_lookup ps k hwfa.2.2)
      · rw [hcan] at hcase
        obtain ⟨hps, hoff⟩ := hcase
        rw [hps]
        obtain ⟨esA, psA, h1, hL1, hslot1, hprop1⟩ := undoEntries_arr_char en es ps hnd
        obtain ⟨esB, psB, h2, hL2, hslot2, hprop2⟩ := undoEntries_arr_char
          (aset en ak (.cset nv (addValOrig en ak ((Value.arr es ps).jsGet ak)))) es1 ps
          (nodupKeys_aset en ak _ hnd)
        rw [undoVal_container (Value.arr es ps) _ rfl,
          undoVal_container (Value.arr es1 ps) _ rfl, h1, h2]
        have hw2 := wfV_undoEntries (Value.arr es ps) en hd hen
        rw [h1] at hw2
        simp only [wfV, Bool.and_eq_true] at hw2
        have hext : undoExtent (aset en ak
            (.cset nv (addValOrig en ak ((Value.arr es ps).jsGet ak)))) =
            max (undoExtent en) (i + 1) := by
          rw [undoExtent_aset_cset,
            show idxContrib ak (.cset nv (addValOrig en ak ((Value.arr es ps).jsGet ak))) =
              i + 1 from by simp [idxContrib, hcan]]
        apply arr_restores_intro _ _ _ _ hw2.2.1
        · intro j
          rw [hslot1 j, hslot2 j, hext]
          by_cases hj : j = i
          · subst hj
            rw [idxLookup_canon
                (aset en ak (.cset nv (addValOrig en ak ((Value.arr es ps).jsGet ak))))
                ak j hcan,
              alookup_aset_self, undoSlotF_cset, idxLookup_canon en ak j hcan,
              show (Value.arr es ps).jsGet ak = ((es[j]?).getD none).getD .undef from by
                simp [Value.jsGet, hcan, List.getD_eq_getElem?_getD]]
            exact slotRel_addVal _ es[j]? en ak (wfSlot_getElem es j hwfa.1) hen
          · rw [idxLookup_aset_other en ak _ j (by rw [hcan]; simp; omega)]
            refine undoSlotF_rel _ _ _ _ _ (fun hb => ?_) ?_
              (wfSlot_getElem es j hwfa.1) (wfEO_idxLookup en j hen)
            · simp only [decide_eq_true_iff] at hb ⊢
              omega
            · rcases hoff j hj with h | ⟨h1, h2⟩
              · exact .inl h
              · exact .inr ⟨h1, h2⟩
        · intro k
          rw [hprop1 k, hprop2 k]
          rcases hck : canonIndex k with _ | ik
          · have hk : ¬ ak = k := by
              intro h
              subst h
              rw [hcan] at hck
              exact absurd hck (by simp)
            rw [alookup_aset_char, if_neg hk]
            exact propRel_undoPropAt_refl _ _ (wfVO_lookup ps k hwfa.2.2)
              (wfEO_alookup en k hen)
          · exact propRel_refl _ (wfVO_lookup ps k hwfa.2.2)
    | obj fs1 => exact absurd (hstep : Value.obj fs1 = Value.arr es ps) (fun h => Value.noConfusion h)
    | undef => exact absurd (hstep : Value.undef = Value.arr es ps) (fun h => Value.noConfusion h)
    | null => exact absurd (hstep : Value.null = Value.arr es ps) (fun h => Value.noConfusion h)
    | bool b => exact absurd (hstep : Value.bool b = Value.arr es ps) (fun h => Value.noConfusion h)
    | num n => exact absurd (hstep : Value.num n = Value.arr es ps) (fun h => Value.noConfusion h)
    | str t => exact absurd (hstep : Value.str t = Value.arr es ps) (fun h => Value.noConfusion h)
  | undef =>
    have h := (hstep : d1 = Value.undef)
    subst h
    exact restoresTo_refl Value.undef rfl
  | null =>
    have h := (hstep : d1 = Value.null)
    subst h
    exact restoresTo_refl Value.null rfl
  | bool b =>
    have h := (hstep : d1 = Value.bool b)
    subst h
    exact restoresTo_refl (Value.bool b) rfl
  | num n =>
    have h := (hstep : d1 = Value.num n)
    subst h
    exact restoresTo_refl (Value.num n) rfl
  | str t =>
    have h := (hstep : d1 = Value.str t)
    subst h
    exact restoresTo_refl (Value.str t) rfl

/-- Master step lemma, nested record: writing the mutated child back at
`ak` while the entry becomes the nested record the recursive call left. -/
theorem undo_step_nest (d child : Value) (en cn2 : CRec) (ak : String) (sub : Option CRec)
    (hd : wfV d = true) (hnd : nodupKeys en = true) (hen : wfEntries en = true)
    (hsub : subTieN en ak sub)
    (hrt : restoresTo (undoOpt (d.jsGet ak) sub) (undoVal child cn2) = true)
    (hcont : child.isContainer = (d.jsGet ak).isContainer) :
    restoresTo (undoVal d en) (undoVal (d.jsSet ak child) (aset en ak (.cnest cn2))) = true := by
  have hnc : ∀ a b, alookup en ak ≠ some (.cset a b) := by
    intro a b hab
    rcases sub with _ | cn
    · have h0 : alookup en ak = none := hsub
      rw [h0] at hab
      exact Option.noConfusion hab
    · have h0 : alookup en ak = some (.cnest cn) := hsub
      rw [h0] at hab
      exact CEntry.noConfusion (Option.some.inj hab)
  cases d with
  | obj fs =>
    have hwfa : wfV (Value.obj fs) = true := hd
    simp only [wfV, Bool.and_eq_true] at hwfa
    obtain ⟨fsA, h1, hlk1⟩ := undoEntries_obj_char en fs hnd
    obtain ⟨fsB, h2, hlk2⟩ := undoEntries_obj_char (aset en ak (.cnest cn2))
      (aset fs ak child) (nodupKeys_aset en ak _ hnd)
    rw [show (Value.obj fs).jsSet ak child = Value.obj (aset fs ak child) from rfl,
      undoVal_container (Value.obj fs) _ rfl,
      undoVal_container (Value.obj (aset fs ak child)) _ rfl, h1, h2]
    have hw2 := wfV_undoEntries (Value.obj fs) en hd hen
    rw [h1] at hw2
    simp only [wfV, Bool.and_eq_true] at hw2
    apply obj_restores_intro _ _ hw2.1
    intro k
    rw [hlk1 k, hlk2 k]
    by_cases hk : ak = k
    · subst hk
      rw [alookup_aset_self, alookup_aset_self]
      exact propRel_at_nest (alookup fs ak) child cn2 en ak sub hsub hrt hcont
    · rw [alookup_aset_char, if_neg hk, alookup_aset_char, if_neg hk]
      exact propRel_undoPropAt_refl _ _ (wfVO_lookup fs k hwfa.2) (wfEO_alookup en k hen)
  | arr es ps =>
    have hwfa : wfV (Value.arr es ps) = true := hd
    simp only [wfV, Bool.and_eq_true] at hwfa
    have hext : undoExtent (aset en ak (.cnest cn2)) = undoExtent en :=
      undoExtent_aset_cnest en ak cn2 hnc
    rcases hcan : canonIndex ak with _ | i
    · have hset : (Value.arr es ps).jsSet ak child = Value.arr es (aset ps ak child) := by
        rw [jsSet_arr, hcan]
      have hget : (Value.arr es ps).jsGet ak = (alookup ps ak).getD .undef := by
        simp [Value.jsGet, hcan]
      rw [hget] at hrt hcont
      obtain ⟨esA, psA, h1, hL1, hslot1, hprop1⟩ := undoEntries_arr_char en es ps hnd
      obtain ⟨esB, psB, h2, hL2, hslot2, hprop2⟩ := undoEntries_arr_char
        (aset en ak (.cnest cn2)) es (aset ps ak child) (nodupKeys_aset en ak _ hnd)
      rw [hset, undoVal_container (Value.arr es ps) _ rfl,
        undoVal_container (Value.arr es (aset ps ak child)) _ rfl, h1, h2]
      have hw2 := wfV_undoEntries (Value.arr es ps) en hd hen
      rw [h1] at hw2
      simp only [wfV, Bool.and_eq_true] at hw2
      apply arr_restores_intro _ _ _ _ hw2.2.1
      · intro j
        rw [hslot1 j, hslot2 j, hext, idxLookup_aset_other en ak _ j (by rw [hcan]; simp)]
        exact undoSlotF_rel _ _ _ _ _ (fun h => h) (.inl rfl)
          (wfSlot_getElem es j hwfa.1) (wfEO_idxLookup en j hen)
      · intro k
        rw [hprop1 k, hprop2 k]
        rcases hck : canonIndex k with _ | ik
        · by_cases hk : ak = k
          · subst hk
            rw [alookup_aset_self, alookup_aset_self]
            exact propRel_at_nest (alookup ps ak) child cn2 en ak sub hsub hrt hcont
          · rw [alookup_aset_char, if_neg hk, alookup_aset_char, if_neg hk]
            exact propRel_undoPropAt_refl _ _ (wfVO_lookup ps k hwfa.2.2)
              (wfEO_alookup en k hen)
        · have hk : ¬ ak = k := by
            intro h
            subst h
            rw [hcan] at hck
            exact absurd hck (by simp)
          rw [alookup_aset_char, if_neg hk]
          exact propRel_refl _ (wfVO_lookup ps k hwfa.2.2)
    · have hset : (Value.arr es ps).jsSet ak child = Value.arr (arrWrite es i child) ps := by
        rw [jsSet_arr, hcan]
      have hget : (Value.arr es ps).jsGet ak = ((es[i]?).getD none).getD .undef := by
        simp [Value.jsGet, hcan, List.getD_eq_getElem?_getD]
      rw [hget] at hrt hcont
      obtain ⟨esA, psA, h1, hL1, hslot1, hprop1⟩ := undoEntries_arr_char en es ps hnd
      obtain ⟨esB, psB, h2, hL2, hslot2, hprop2⟩ := undoEntries_arr_char
        (aset en ak (.cnest cn2)) (arrWrite es i child) ps (nodupKeys_aset en ak _ hnd)
      rw [hset, undoVal_container (Value.arr es ps) _ rfl,
        undoVal_container (Value.arr (arrWrite es i child) ps) _ rfl, h1, h2]
      have hw2 := wfV_undoEntries (Value.arr es ps) en hd hen
      rw [h1] at hw2
      simp only [wfV, Bool.and_eq_true] at hw2
      apply arr_restores_intro _ _ _ _ hw2.2.1
      · intro j
        rw [hslot1 j, hslot2 j, hext]
        by_cases hj : j = i
        · subst hj
          rw [idxLookup_canon (aset en ak (.cnest cn2)) ak j hcan, alookup_aset_self,
            arrWrite_getElem_self, idxLookup_canon en ak j hcan]
          exact slotRel_at_nest _ _ es[j]? child cn2 en ak sub hsub hrt hcont
        · rw [idxLookup_aset_other en ak _ j (by rw [hcan]; simp; omega)]
          refine undoSlotF_rel _ _ _ _ _ (fun hb => ?_) ?_
            (wfSlot_getElem es j hwfa.1) (wfEO_idxLookup en j hen)
          · simp only [decide_eq_true_iff] at hb ⊢
            rw [arrWrite_length]
            omega
          · rcases arrWrite_getElem_other es i child j hj with h | ⟨h1, h2⟩
            · exact .inl h
            · exact .inr ⟨h2, h1⟩
      · intro k
        rw [hprop1 k, hprop2 k]
        rcases hck : canonIndex k with _ | ik
        · have hk : ¬ ak = k := by
            intro h
            subst h
            rw [hcan] at hck
            exact absurd hck (by simp)
          rw [alookup_aset_char, if_neg hk]
          exact propRel_undoPropAt_refl _ _ (wfVO_lookup ps k hwfa.2.2)
            (wfEO_alookup en k hen)
        · exact propRel_refl _ (wfVO_lookup ps k hwfa.2.2)
  | undef => exact restoresTo_refl Value.undef rfl
  | null => exact restoresTo_refl Value.null rfl
  | bool b => exact restoresTo_refl (Value.bool b) rfl
  | num n => exact restoresTo_refl (Value.num n) rfl
  | str t => exact restoresTo_refl (Value.str t) rfl

/-- Master step lemma, unchanged record: a nested call that left no record
mutated the child in place; the undo applies the same entries to both. -/
theorem undo_step_noneC (d child : Value) (en : CRec) (ak : String) (sub : Option CRec)
    (hd : wfV d = true) (hnd : nodupKeys en = true) (hen : wfEntries en = true)
    (hsub : subTie en ak sub)
    (hrt : restoresTo (undoOpt (d.jsGet ak) sub) (undoOpt child sub) = true)
    (hcont : child.isContainer = (d.jsGet ak).isContainer) :
    restoresTo (undoVal d en) (undoVal (d.jsSet ak child) en) = true := by
  cases d with
  | obj fs =>
    have hwfa : wfV (Value.obj fs) = true := hd
    simp only [wfV, Bool.and_eq_true] at hwfa
    obtain ⟨fsA, h1, hlk1⟩ := undoEntries_obj_char en fs hnd
    obtain ⟨fsB, h2, hlk2⟩ := undoEntries_obj_char en (aset fs ak child) hnd
    rw [show (Value.obj fs).jsSet ak child = Value.obj (aset fs ak child) from rfl,
      undoVal_container (Value.obj fs) _ rfl,
      undoVal_container (Value.obj (aset fs ak child)) _ rfl, h1, h2]
    have hw2 := wfV_undoEntries (Value.obj fs) en hd hen
    rw [h1] at hw2
    simp only [wfV, Bool.and_eq_true] at hw2
    apply obj_restores_intro _ _ hw2.1
    intro k
    rw [hlk1 k, hlk2 k]
    by_cases hk : ak = k
    · subst hk
      rw [alookup_aset_self]
      exact propRel_at_none (alookup fs ak) child en ak sub hsub hrt hcont hen
    · rw [alookup_aset_char, if_neg hk]
      exact propRel_undoPropAt_refl _ _ (wfVO_lookup fs k hwfa.2) (wfEO_alookup en k hen)
  | arr es ps =>
    have hwfa : wfV (Value.arr es ps) = true := hd
    simp only [wfV, Bool.and_eq_true] at hwfa
    rcases hcan : canonIndex ak with _ | i
    · have hset : (Value.arr es ps).jsSet ak child = Value.arr es (aset ps ak child) := by
        rw [jsSet_arr, hcan]
      have hget : (Value.arr es ps).jsGet ak = (alookup ps ak).getD .undef := by
        simp [Value.jsGet, hcan]
      rw [hget] at hrt hcont
      obtain ⟨esA, psA, h1, hL1, hslot1, hprop1⟩ := undoEntries_arr_char en es ps hnd
      obtain ⟨esB, psB, h2, hL2, hslot2, hprop2⟩ := undoEntries_arr_char
        en es (aset ps ak child) hnd
      rw [hset, undoVal_container (Value.arr es ps) _ rfl,
        undoVal_container (Value.arr es (aset ps ak child)) _ rfl, h1, h2]
      have hw2 := wfV_undoEntries (Value.arr es ps) en hd hen
      rw [h1] at hw2
      simp only [wfV, Bool.and_eq_true] at hw2
      apply arr_restores_intro _ _ _ _ hw2.2.1
      · intro j
        rw [hslot1 j, hslot2 j]
        exact undoSlotF_rel _ _ _ _ _ (fun h => h) (.inl rfl)
          (wfSlot_getElem es j hwfa.1) (wfEO_idxLookup en j hen)
      · intro k
        rw [hprop1 k, hprop2 k]
        rcases hck : canonIndex k with _ | ik
        · by_cases hk : ak = k
          · subst hk
            rw [alookup_aset_self]
            exact propRel_at_none (alookup ps ak) child en ak sub hsub hrt hcont hen
          · rw [alookup_aset_char, if_neg hk]
            exact propRel_undoPropAt_refl _ _ (wfVO_lookup ps k hwfa.2.2)
              (wfEO_alookup en k hen)
        · have hk : ¬ ak = k := by
            intro h
            subst h
            rw [hcan] at hck
            exact absurd hck (by simp)
          rw [alookup_aset_char, if_neg hk]
          exact propRel_refl _ (wfVO_lookup ps k hwfa.2.2)
    · have hset : (Value.arr es ps).jsSet ak child = Value.arr (arrWrite es i child) ps := by
        rw [jsSet_arr, hcan]
      have hget : (Value.arr es ps).jsGet ak = ((es[i]?).getD none).getD .undef := by
        simp [Value.jsGet, hcan, List.getD_eq_getElem?_getD]
      rw [hget] at hrt hcont
      obtain ⟨esA, psA, h1, hL1, hslot1, hprop1⟩ := undoEntries_arr_char en es ps hnd
      obtain ⟨esB, psB, h2, hL2, hslot2, hprop2⟩ := undoEntries_arr_char
        en (arrWrite es i child) ps hnd
      rw [hset, undoVal_container (Value.arr es ps) _ rfl,
        undoVal_container (Value.arr (arrWrite es i child) ps) _ rfl, h1, h2]
      have hw2 := wfV_undoEntries (Value.arr es ps) en hd hen
      rw [h1] at hw2
      simp only [wfV, Bool.and_eq_true] at hw2
      apply arr_restores_intro _ _ _ _ hw2.2.1
      · intro j
        rw [hslot1 j, hslot2 j]
        by_cases hj : j = i
        · subst hj
          rw [arrWrite_getElem_self, idxLookup_canon en ak j hcan]
          exact slotRel_at_none _ _ es[j]? child en ak sub hsub hrt hcont hen
        · refine undoSlotF_rel _ _ _ _ _ (fun hb => ?_) ?_
            (wfSlot_getElem es j hwfa.1) (wfEO_idxLookup en j hen)
          · simp only [decide_eq_true_iff] at hb ⊢
            rw [arrWrite_length]
            omega
          · rcases arrWrite_getElem_other es i child j hj with h | ⟨h1, h2⟩
            · exact .inl h
            · exact .inr ⟨h2, h1⟩
      · intro k
        rw [hprop1 k, hprop2 k]
        rcases hck : canonIndex k with _ | ik
        · exact propRel_undoPropAt_refl _ _ (wfVO_lookup ps k hwfa.2.2)
            (wfEO_alookup en k hen)
        · exact propRel_refl _ (wfVO_lookup ps k hwfa.2.2)
  | undef => exact restoresTo_refl Value.undef rfl
  | null => exact restoresTo_refl Value.null rfl
  | bool b => exact restoresTo_refl (Value.bool b) rfl
  | num n => exact restoresTo_refl (Value.num n) rfl
  | str t => exact restoresTo_refl (Value.str t) rfl

theorem stepData_set (d : Value) (ak : String) (w : Value) : stepData d (d.jsSet ak w) ak := by
  cases d with
  | obj fs =>
    show ∀ k, k ≠ ak → alookup (aset fs ak w) k = alookup fs k
    intro k hk
    rw [alookup_aset_char, if_neg (fun h => hk h.symm)]
  | arr es ps =>
    rcases hcan : canonIndex ak with _ | i
    · have hset : (Value.arr es ps).jsSet ak w = Value.arr es (aset ps ak w) := by
        rw [jsSet_arr, hcan]
      rw [hset]
      refine ⟨le_refl _, ?_⟩
      rw [hcan]
      exact ⟨rfl, fun k hk => by rw [alookup_aset_char, if_neg (fun h => hk h.symm)]⟩
    · have hset : (Value.arr es ps).jsSet ak w = Value.arr (arrWrite es i w) ps := by
        rw [jsSet_arr, hcan]
      rw [hset]
      refine ⟨by rw [arrWrite_length]; omega, ?_⟩
      rw [hcan]
      refine ⟨rfl, fun j hj => ?_⟩
      rcases arrWrite_getElem_other es i w j hj with h | ⟨h1, h2⟩
      · exact .inl h
      · exact .inr ⟨h2, h1⟩
  | undef => rfl
  | null => rfl
  | bool b => rfl
  | num n => rfl
  | str t => rfl

theorem stepData_delete (d : Value) (ak : String) : stepData d (d.jsDelete ak) ak := by
  cases d with
  | obj fs =>
    show ∀ k, k ≠ ak → alookup (adel fs ak) k = alookup fs k
    intro k hk
    rw [alookup_adel_char, if_neg (fun h => hk h.symm)]
  | arr es ps =>
    rcases hcan : canonIndex ak with _ | i
    · have hset : (Value.arr es ps).jsDelete ak = Value.arr es (adel ps ak) := by
        rw [jsDelete_arr, hcan]
      rw [hset]
      refine ⟨le_refl _, ?_⟩
      rw [hcan]
      exact ⟨rfl, fun k hk => by rw [alookup_adel_char, if_neg (fun h => hk h.symm)]⟩
    · have hset : (Value.arr es ps).jsDelete ak = Value.arr (es.set i none) ps := by
        rw [jsDelete_arr, hcan]
      rw [hset]
      refine ⟨by rw [List.length_set], ?_⟩
      rw [hcan]
      exact ⟨rfl, fun j hj => .inl (getElem?_set_ne es i j none (fun h => hj h.symm))⟩
  | undef => rfl
  | null => rfl
  | bool b => rfl
  | num n => rfl
  | str t => rfl

theorem stepData_trans (d d1 d2 : Value) (ak : String)
    (h1 : stepData d d1 ak) (h2 : stepData d1 d2 ak) : stepData d d2 ak := by
  cases d with
  | obj fs =>
    cases d1 with
    | obj fs1 =>
      cases d2 with
      | obj fs2 =>
        intro k hk
        rw [(h2 : ∀ k, k ≠ ak → alookup fs2 k = alookup fs1 k) k hk,
          (h1 : ∀ k, k ≠ ak → alookup fs1 k = alookup fs k) k hk]
      | arr es2 ps2 =>
        exact absurd (h2 : Value.arr es2 ps2 = Value.obj fs1) (fun h => Value.noConfusion h)
      | undef => exact absurd (h2 : Value.undef = Value.obj fs1) (fun h => Value.noConfusion h)
      | null => exact absurd (h2 : Value.null = Value.obj fs1) (fun h => Value.noConfusion h)
      | bool b => exact absurd (h2 : Value.bool b = Value.obj fs1) (fun h => Value.noConfusion h)
      | num n => exact absurd (h2 : Value.num n = Value.obj fs1) (fun h => Value.noConfusion h)
      | str t => exact absurd (h2 : Value.str t = Value.obj fs1) (fun h => Value.noConfusion h)
    | arr es1 ps1 =>
      exact absurd (h1 : Value.arr es1 ps1 = Value.obj fs) (fun h => Value.noConfusion h)
    | undef => exact absurd (h1 : Value.undef = Value.obj fs) (fun h => Value.noConfusion h)
    | null => exact absurd (h1 : Value.null = Value.obj fs) (fun h => Value.noConfusion h)
    | bool b => exact absurd (h1 : Value.bool b = Value.obj fs) (fun h => Value.noConfusion h)
    | num n => exact absurd (h1 : Value.num n = Value.obj fs) (fun h => Value.noConfusion h)
    | str t => exact absurd (h1 : Value.str t = Value.obj fs) (fun h => Value.noConfusion h)
  | arr es ps =>
    cases d1 with
    | arr es1 ps1 =>
      cases d2 with
      | arr es2 ps2 =>
        obtain ⟨hl1, hc1⟩ : es.length ≤ es1.length ∧ _ := h1
        obtain ⟨hl2, hc2⟩ : es1.length ≤ es2.length ∧ _ := h2
        refine ⟨le_trans hl1 hl2, ?_⟩
        rcases hcan : canonIndex ak with _ | i
        · rw [hcan] at hc1 hc2
          obtain ⟨he1, hp1⟩ := hc1
          obtain ⟨he2, hp2⟩ := hc2
          exact ⟨he2.trans he1, fun k hk => (hp2 k hk).trans (hp1 k hk)⟩
        · rw [hcan] at hc1 hc2
          obtain ⟨hq1, hs1⟩ := hc1
          obtain ⟨hq2, hs2⟩ := hc2
          refine ⟨hq2.trans hq1, fun j hj => ?_⟩
          rcases hs2 j hj with h | ⟨ha, hb⟩
          · rw [h]
            exact hs1 j hj
          · rcases hs1 j hj with h1j | ⟨ha1, hb1⟩
            · refine .inr ⟨by rw [← h1j]; exact ha, hb⟩
            · rw [hb1] at ha
              exact absurd ha (by simp)
      | obj fs2 =>
        exact absurd (h2 : Value.obj fs2 = Value.arr es1 ps1) (fun h => Value.noConfusion h)
      | undef => exact absurd (h2 : Value.undef = Value.arr es1 ps1) (fun h => Value.noConfusion h)
      | null => exact absurd (h2 : Value.null = Value.arr es1 ps1) (fun h => Value.noConfusion h)
      | bool b =>
        exact absurd (h2 : Value.bool b = Value.arr es1 ps1) (fun h => Value.noConfusion h)
      | num n =>
        exact absurd (h2 : Value.num n = Value.arr es1 ps1) (fun h => Value.noConfusion h)
      | str t =>
        exact absurd (h2 : Value.str t = Value.arr es1 ps1) (fun h => Value.noConfusion h)
    | obj fs1 =>
      exact absurd (h1 : Value.obj fs1 = Value.arr es ps) (fun h => Value.noConfusion h)
    | undef => exact absurd (h1 : Value.undef = Value.arr es ps) (fun h => Value.noConfusion h)
    | null => exact absurd (h1 : Value.null = Value.arr es ps) (fun h => Value.noConfusion h)
    | bool b => exact absurd (h1 : Value.bool b = Value.arr es ps) (fun h => Value.noConfusion h)
    | num n => exact absurd (h1 : Value.num n = Value.arr es ps) (fun h => Value.noConfusion h)
    | str t => exact absurd (h1 : Value.str t = Value.arr es ps) (fun h => Value.noConfusion h)
  | undef =>
    have h := (h1 : d1 = Value.undef)
    subst h
    exact h2
  | null =>
    have h := (h1 : d1 = Value.null)
    subst h
    exact h2
  | bool b =>
    have h := (h1 : d1 = Value.bool b)
    subst h
    exact h2
  | num n =>
    have h := (h1 : d1 = Value.num n)
    subst h
    exact h2
  | str t =>
    have h := (h1 : d1 = Value.str t)
    subst h
    exact h2

/-! ## Well-formedness of the directive lists the update loop walks -/

theorem wfFieldsU_mem (l : List (String × UStmt)) (h : wfFieldsU l = true) :
    ∀ p ∈ l, wfU p.2 = true := by
  induction l with
  | nil =>
    intro p hp
    simp at hp
  | cons e rest ih =>
    rcases e with ⟨k1, s1⟩
    simp only [wfFieldsU, Bool.and_eq_true] at h
    intro p hp
    rcases List.mem_cons.mp hp with hp | hp
    · subst hp
      exact h.1
    · exact ih h.2 p hp

theorem wfFieldsU_of_mem (l : List (String × UStmt)) (h : ∀ p ∈ l, wfU p.2 = true) :
    wfFieldsU l = true := by
  induction l with
  | nil => rfl
  | cons e rest ih =>
    rcases e with ⟨k1, s1⟩
    simp only [wfFieldsU, Bool.and_eq_true]
    exact ⟨h (k1, s1) (by simp), ih (fun p hp => h p (by simp [hp]))⟩

theorem wfListV_mem (l : List Value) (h : wfListV l = true) : ∀ v ∈ l, wfV v = true := by
  induction l with
  | nil =>
    intro v hv
    simp at hv
  | cons w rest ih =>
    simp only [wfListV, Bool.and_eq_true] at h
    intro v hv
    rcases List.mem_cons.mp hv with hv | hv
    · subst hv
      exact h.1
    · exact ih h.2 v hv

theorem aset_mem {α : Type} (l : List (String × α)) (k : String) (v : α) (p : String × α)
    (hp : p ∈ aset l k v) : p ∈ l ∨ p = (k, v) := by
  induction l with
  | nil =>
    simp [aset] at hp
    exact .inr hp
  | cons e rest ih =>
    rcases e with ⟨k1, w⟩
    by_cases hk : k1 = k
    · subst hk
      simp only [aset, if_pos rfl] at hp
      rcases List.mem_cons.mp hp with hp | hp
      · exact .inr hp
      · exact .inl (List.mem_cons.mpr (.inr hp))
    · simp only [aset, if_neg hk] at hp
      rcases List.mem_cons.mp hp with hp | hp
      · exact .inl (by simp [hp])
      · rcases ih hp with h | h
        · exact .inl (by simp [h])
        · exact .inr h

mutual
theorem wfU_valueAsStmt (v : Value) (h : wfV v = true) : wfU (valueAsStmt v) = true := by
  cases v with
  | undef => rfl
  | null => rfl
  | bool b => rfl
  | num n => rfl
  | str t => exact h
  | arr es ps =>
    simp only [wfV, Bool.and_eq_true] at h
    exact wfListV_valueElemsAsList es h.1
  | obj fs =>
    simp only [wfV, Bool.and_eq_true] at h
    show (wfOptU none && (true && wfFieldsU (valueFieldsAsStmt fs))) = true
    simp only [wfOptU, Bool.true_and]
    exact wfFieldsU_valueFieldsAsStmt fs h.2
termination_by structural v

theorem wfListV_valueElemsAsList (es : List (Option Value)) (h : wfElems es = true) :
    wfListV (valueElemsAsList es) = true := by
  cases es with
  | nil => rfl
  | cons o rest =>
    cases o with
    | none =>
      show (wfV .undef && wfListV (valueElemsAsList rest)) = true
      simp only [Bool.and_eq_true]
      exact ⟨rfl, wfListV_valueElemsAsList rest h⟩
    | some v =>
      simp only [wfElems, Bool.and_eq_true] at h
      show (wfV v && wfListV (valueElemsAsList rest)) = true
      simp only [Bool.and_eq_true]
      exact ⟨h.1, wfListV_valueElemsAsList rest h.2⟩
termination_by structural es

theorem wfFieldsU_valueFieldsAsStmt (fs : List (String × Value)) (h : wfProps fs = true) :
    wfFieldsU (valueFieldsAsStmt fs) = true := by
  cases fs with
  | nil => rfl
  | cons p rest =>
    rcases p with ⟨k, v⟩
    simp only [wfProps, Bool.and_eq_true] at h
    show (wfU (valueAsStmt v) && wfFieldsU (valueFieldsAsStmt rest)) = true
    simp only [Bool.and_eq_true]
    exact ⟨wfU_valueAsStmt v h.1, wfFieldsU_valueFieldsAsStmt rest h.2⟩
termination_by structural fs
end

theorem wfFieldsU_orderForIn (items : List (String × UStmt)) (h : wfFieldsU items = true) :
    wfFieldsU (orderForIn items) = true := by
  apply wfFieldsU_of_mem
  intro p hp
  simp only [orderForIn] at hp
  rcases List.mem_append.mp hp with hp | hp
  · obtain ⟨k, hk, hmap⟩ := List.mem_filterMap.mp hp
    rcases halk : alookup items k with _ | op
    · rw [halk] at hmap
      simp at hmap
    · rw [halk] at hmap
      simp only [Option.map_some', Option.some.injEq] at hmap
      rw [← hmap]
      exact wfFieldsU_mem items h (k, op) (alookup_mem items k op halk)
  · exact wfFieldsU_mem items h p (List.mem_filter.mp hp).1

theorem wfFieldsU_indexFields (vs : List Value) (h : wfListV vs = true) :
    wfFieldsU (indexFields vs) = true := by
  apply wfFieldsU_of_mem
  intro p hp
  simp only [indexFields, List.mem_map] at hp
  obtain ⟨⟨i, v⟩, hmem, hpv⟩ := hp
  rw [← hpv]
  exact wfU_valueAsStmt v (wfListV_mem vs h v (List.of_mem_zip hmem).2)

theorem wfFieldsU_expand (al : UStmt) (hal : wfU al = true) :
    ∀ (ks : List String) (acc : List (String × UStmt)), wfFieldsU acc = true →
      wfFieldsU (ks.foldl (fun acc k => aset acc k al) acc) = true := by
  intro ks
  induction ks with
  | nil =>
    intro acc hacc
    exact hacc
  | cons k0 rest ih =>
    intro acc hacc
    rw [List.foldl_cons]
    apply ih
    apply wfFieldsU_of_mem
    intro p hp
    rcases aset_mem acc k0 al p hp with h | h
    · exact wfFieldsU_mem acc hacc p h
    · rw [h]
      exact hal

/-! ## The undo round-trip invariant of the update engine -/

theorem IHimpl_zero (rx : String → String → Bool) : IHimpl rx 0 := by
  intro d stmt c ctx d2 c2 h hd hst hc
  simp only [updateImpl, Except.ok.injEq, Prod.mk.injEq] at h
  obtain ⟨h1, h2⟩ := h
  subst h1
  subst h2
  rw [cOr_self]
  exact ⟨restoresTo_refl _ (wfV_undoOpt d c hd hc), hd, hc⟩

theorem IHgo_zero (rx : String → String → Bool) : IHgo rx 0 := by
  intro d items c ctx d2 c2 h hd hfl hc
  simp only [updateGo, Except.ok.injEq, Prod.mk.injEq] at h
  obtain ⟨h1, h2⟩ := h
  subst h1
  subst h2
  exact ⟨restoresTo_refl _ (wfV_undoOpt d c hd hc), hd, hc, fun hn => hn⟩

theorem IHkey_zero (rx : String → String → Bool) : IHkey rx 0 := by
  intro d ak op c ctx d2 c2 h hd hop hc
  simp only [updateKeyObj, Except.ok.injEq, Prod.mk.injEq] at h
  obtain ⟨h1, h2⟩ := h
  subst h1
  subst h2
  exact ⟨restoresTo_refl _ (wfV_undoOpt d c hd hc), hd, hc, fun hn => hn⟩

theorem IHali_zero (rx : String → String → Bool) : IHali rx 0 := by
  intro d stmt ctx d2 h hd hst
  simp only [updateAliased, Except.ok.injEq] at h
  subst h
  exact hd

theorem IHaliGo_zero (rx : String → String → Bool) : IHaliGo rx 0 := by
  intro d items ctx d2 h hd hfl
  simp only [aliasedGo, Except.ok.injEq] at h
  subst h
  exact hd

theorem step_impl (rx : String → String → Bool) (f : Nat) (hG : IHgo rx f) :
    IHimpl rx (f + 1) := by
  intro d stmt c ctx d2 c2 h hd hst hc
  cases stmt with
  | prim v =>
    have hred : updateImpl rx (f + 1) d (.prim v) c ctx =
        (if ! (UStmt.prim v).truthy then Except.ok (d, none) else Except.ok (d, c)) := rfl
    rw [hred] at h
    by_cases htr : v.jsTruthy = true
    · rw [if_neg (by simp [UStmt.truthy, htr])] at h
      rw [Except.ok.injEq, Prod.mk.injEq] at h
      obtain ⟨h1, h2⟩ := h
      subst h1
      subst h2
      rw [cOr_self]
      exact ⟨restoresTo_refl _ (wfV_undoOpt d c hd hc), hd, hc⟩
    · have htr2 : v.jsTruthy = false := by simpa using htr
      rw [if_pos (by simp [UStmt.truthy, htr2])] at h
      rw [Except.ok.injEq, Prod.mk.injEq] at h
      obtain ⟨h1, h2⟩ := h
      subst h1
      subst h2
      exact ⟨restoresTo_refl _ (wfV_undoOpt d c hd hc), hd, hc⟩
  | arrOp vs =>
    simp only [updateImpl, UStmt.truthy, Bool.not_true, Bool.false_eq_true, if_false] at h
    have hvs : wfListV vs = true := hst
    obtain ⟨hr, hw, hcw, hpr⟩ := hG d _ c _ d2 c2 h hd
      (wfFieldsU_orderForIn _ (wfFieldsU_indexFields vs hvs)) hc
    rw [cOr_eq c2 c hpr]
    exact ⟨hr, hw, hcw⟩
  | unode wp ap dv cv fields =>
    simp only [wfU, Bool.and_eq_true] at hst
    obtain ⟨hap, hdv0, hflds⟩ := hst
    have hfin : ∀ (items : List (String × UStmt)) (ctx2 : UCtx),
        updateGo rx f d (orderForIn items) c ctx2 = .ok (d2, c2) →
        wfFieldsU items = true →
        restoresTo (undoOpt d c) (undoOpt d2 (cOr c2 c)) = true ∧
          wfV d2 = true ∧ wfCO (cOr c2 c) = true := by
      intro items ctx2 hgo hwit
      obtain ⟨hr, hw, hcw, hpr⟩ := hG d _ c _ d2 c2 hgo hd
        (wfFieldsU_orderForIn _ hwit) hc
      rw [cOr_eq c2 c hpr]
      exact ⟨hr, hw, hcw⟩
    have hskip : (Except.ok (d, c) : Except String (Value × Option CRec)) = Except.ok (d2, c2) →
        restoresTo (undoOpt d c) (undoOpt d2 (cOr c2 c)) = true ∧
          wfV d2 = true ∧ wfCO (cOr c2 c) = true := by
      intro hE
      rw [Except.ok.injEq, Prod.mk.injEq] at hE
      obtain ⟨h1, h2⟩ := hE
      subst h1
      subst h2
      rw [cOr_self]
      exact ⟨restoresTo_refl _ (wfV_undoOpt d c hd hc), hd, hc⟩
    have hexp : ∀ al : UStmt, wfU al = true →
        wfFieldsU (if al.truthy = true then
            (d.forInKeys.filter (fieldAbsent fields)).foldl
              (fun acc k => aset acc k al) fields
          else fields) = true := by
      intro al hal
      split
      · exact wfFieldsU_expand al hal _ fields hflds
      · exact hflds
    rcases wp with _ | w <;> rcases ap with _ | al
    · simp only [updateImpl, UStmt.truthy, Bool.not_true, Bool.false_eq_true, if_false] at h
      exact hfin fields _ h hflds
    · simp only [updateImpl, UStmt.truthy, Bool.not_true, Bool.false_eq_true, if_false] at h
      exact hfin _ _ h (hexp al hap)
    · simp only [updateImpl, UStmt.truthy, Bool.not_true, Bool.false_eq_true, if_false] at h
      by_cases hwf : (predTruthy w && ! evalPredicate rx d w) = true
      · rw [if_pos hwf] at h
        exact hskip h
      · rw [if_neg hwf] at h
        exact hfin fields _ h hflds
    · simp only [updateImpl, UStmt.truthy, Bool.not_true, Bool.false_eq_true, if_false] at h
      by_cases hwf : (predTruthy w && ! evalPredicate rx d w) = true
      · rw [if_pos hwf] at h
        exact hskip h
      · rw [if_neg hwf] at h
        exact hfin _ _ h (hexp al hap)

theorem step_ali (rx : String → String → Bool) (f : Nat) (hAG : IHaliGo rx f) :
    IHali rx (f + 1) := by
  intro d stmt ctx d2 h hd hst
  cases stmt with
  | prim v =>
    have hred : updateAliased rx (f + 1) d (.prim v) ctx =
        (if ! (UStmt.prim v).truthy then Except.ok d else Except.ok d) := rfl
    rw [hred, ite_self, Except.ok.injEq] at h
    subst h
    exact hd
  | arrOp vs =>
    simp only [updateAliased, UStmt.truthy, Bool.not_true, Bool.false_eq_true, if_false] at h
    exact hAG d _ ctx d2 h hd (wfFieldsU_orderForIn _ (wfFieldsU_indexFields vs hst))
  | unode wp ap dv cv fields =>
    simp only [wfU, Bool.and_eq_true] at hst
    obtain ⟨hap, hdv0, hflds⟩ := hst
    have hfin : ∀ (items : List (String × UStmt)) (ctx2 : UCtx),
        aliasedGo rx f d (orderForIn items) ctx2 = .ok d2 →
        wfFieldsU items = true → wfV d2 = true := by
      intro items ctx2 hgo hwit
      exact hAG d _ ctx2 d2 hgo hd (wfFieldsU_orderForIn _ hwit)
    have hskip : (Except.ok d : Except String Value) = Except.ok d2 → wfV d2 = true := by
      intro hE
      rw [Except.ok.injEq] at hE
      subst hE
      exact hd
    have hexp : ∀ al : UStmt, wfU al = true →
        wfFieldsU (if al.truthy = true then
            (d.forInKeys.filter (fieldAbsent fields)).foldl
              (fun acc k => aset acc k al) fields
          else fields) = true := by
      intro al hal
      split
      · exact wfFieldsU_expand al hal _ fields hflds
      · exact hflds
    rcases wp with _ | w <;> rcases ap with _ | al
    · simp only [updateAliased, UStmt.truthy, Bool.not_true, Bool.false_eq_true, if_false] at h
      exact hfin fields _ h hflds
    · simp only [updateAliased, UStmt.truthy, Bool.not_true, Bool.false_eq_true, if_false] at h
      exact hfin _ _ h (hexp al hap)
    · simp only [updateAliased, UStmt.truthy, Bool.not_true, Bool.false_eq_true, if_false] at h
      by_cases hwf : (predTruthy w && ! evalPredicate rx d w) = true
      · rw [if_pos hwf, Except.ok.injEq] at h
        subst h
        exact hd
      · rw [if_neg hwf] at h
        exact hfin fields _ h hflds
    · simp only [updateAliased, UStmt.truthy, Bool.not_true, Bool.false_eq_true, if_false] at h
      by_cases hwf : (predTruthy w && ! evalPredicate rx d w) = true
      · rw [if_pos hwf, Except.ok.injEq] at h
        subst h
        exact hd
      · rw [if_neg hwf] at h
        exact hfin _ _ h (hexp al hap)

theorem step_go (rx : String → String → Bool) (f : Nat) (hG : IHgo rx f) (hK : IHkey rx f) :
    IHgo rx (f + 1) := by
  intro d items c ctx d2 c2 h hd hfl hc
  cases items with
  | nil =>
    simp only [updateGo, Except.ok.injEq, Prod.mk.injEq] at h
    obtain ⟨h1, h2⟩ := h
    subst h1
    subst h2
    exact ⟨restoresTo_refl _ (wfV_undoOpt d c hd hc), hd, hc, fun hn => hn⟩
  | cons p rest =>
    rcases p with ⟨k, op⟩
    simp only [wfFieldsU, Bool.and_eq_true] at hfl
    rcases hrk : resolveKey d k with _ | ak
    · simp only [updateGo, hrk] at h
      exact hG d rest c ctx d2 c2 h hd hfl.2 hc
    · have hdirect : ∀ d1 : Value,
          updateGo rx f d1 rest
            (some (addValueChange c ak (d.jsGet ak) (d1.jsGet ak))) ctx = .ok (d2, c2) →
          wfV d1 = true → stepData d d1 ak →
          restoresTo (undoOpt d c) (undoOpt d2 c2) = true ∧
            wfV d2 = true ∧ wfCO c2 = true ∧ (c2 = none → c = none) := by
        intro d1 hgo hw1 hsd
        obtain ⟨hnd, hen⟩ := wfCO_getD c hc
        have hco1 : wfCO (some (addValueChange c ak (d.jsGet ak) (d1.jsGet ak))) = true := by
          show wfC (addValueChange c ak (d.jsGet ak) (d1.jsGet ak)) = true
          rw [addValueChange_eq]
          simp only [wfC, Bool.and_eq_true]
          exact ⟨nodupKeys_aset _ _ _ hnd,
            wfEntries_aset _ _ _ hen (wfV_addValOrig _ _ _ hen (wfV_jsGet d ak hd))⟩
        obtain ⟨hr2, hw2, hcw2, hpr2⟩ := hG d1 rest _ ctx d2 c2 hgo hw1 hfl.2 hco1
        refine ⟨?_, hw2, hcw2, fun hn => absurd (hpr2 hn) (by simp)⟩
        refine restoresTo_trans _ _ _ ?_ hr2
        rw [undoOpt_getD d c,
          show undoOpt d1 (some (addValueChange c ak (d.jsGet ak) (d1.jsGet ak))) =
            undoVal d1 (addValueChange c ak (d.jsGet ak) (d1.jsGet ak)) from rfl,
          addValueChange_eq]
        exact undo_step_direct d d1 (c.getD []) ak _ hd hnd hen hsd
      cases op with
      | arrOp vs =>
        cases vs with
        | nil =>
          simp only [updateGo, hrk] at h
          exact hdirect (d.jsDelete ak) h (wfV_jsDelete d ak hd) (stepData_delete d ak)
        | cons v vtail =>
          cases vtail with
          | nil =>
            simp only [updateGo, hrk] at h
            by_cases hse : jsStrictEq (d.jsGet ak) v = true
            · rw [if_pos hse] at h
              exact hG d rest c ctx d2 c2 h hd hfl.2 hc
            · rw [if_neg hse] at h
              have hv : wfV v = true := by
                have h0 : (wfV v && wfListV []) = true := hfl.1
                simp only [Bool.and_eq_true] at h0
                exact h0.1
              exact hdirect (d.jsSet ak v) h (wfV_jsSet d ak v hd hv) (stepData_set d ak v)
          | cons v2 vtail2 =>
            simp only [updateGo, hrk] at h
            exact Except.noConfusion h
      | prim v =>
        simp only [updateGo, hrk] at h
        by_cases hse : jsStrictEq (d.jsGet ak) v = true
        · rw [if_pos hse] at h
          exact hG d rest c ctx d2 c2 h hd hfl.2 hc
        · rw [if_neg hse] at h
          exact hdirect (d.jsSet ak v) h (wfV_jsSet d ak v hd hfl.1) (stepData_set d ak v)
      | unode wq aq dq cq fq =>
        simp only [updateGo, hrk] at h
        rcases hko : updateKeyObj rx f d ak (d.jsGet ak) (.unode wq aq dq cq fq) c ctx
          with e | ⟨d1, c1⟩
        · simp only [hko] at h
          exact Except.noConfusion h
        · simp only [hko] at h
          obtain ⟨hr1, hw1, hcw1, hpr1⟩ :=
            hK d ak (.unode wq aq dq cq fq) c ctx d1 c1 hko hd hfl.1 hc
          obtain ⟨hr2, hw2, hcw2, hpr2⟩ := hG d1 rest c1 ctx d2 c2 h hw1 hfl.2 hcw1
          exact ⟨restoresTo_trans _ _ _ hr1 hr2, hw2, hcw2, fun hn => hpr1 (hpr2 hn)⟩

theorem step_aliGo (rx : String → String → Bool) (f : Nat) (hI : IHimpl rx f)
    (hA : IHali rx f) (hAG : IHaliGo rx f) : IHaliGo rx (f + 1) := by
  intro d items ctx d2 h hd hfl
  cases items with
  | nil =>
    simp only [aliasedGo, Except.ok.injEq] at h
    subst h
    exact hd
  | cons p rest =>
    rcases p with ⟨k, op⟩
    simp only [wfFieldsU, Bool.and_eq_true] at hfl
    rcases hrk : resolveKey d k with _ | ak
    · simp only [aliasedGo, hrk] at h
      exact hAG d rest ctx d2 h hd hfl.2
    · cases op with
      | arrOp vs =>
        cases vs with
        | nil =>
          simp only [aliasedGo, hrk] at h
          exact hAG _ rest ctx d2 h
            (wfV_jsSet _ ak .undef (wfV_jsDelete d ak hd) rfl) hfl.2
        | cons v vtail =>
          cases vtail with
          | nil =>
            simp only [aliasedGo, hrk] at h
            by_cases hse : jsStrictEq (d.jsGet ak) v = true
            · rw [if_pos hse] at h
              exact hAG d rest ctx d2 h hd hfl.2
            · rw [if_neg hse] at h
              have hv : wfV v = true := by
                have h0 : (wfV v && wfListV []) = true := hfl.1
                simp only [Bool.and_eq_true] at h0
                exact h0.1
              exact hAG _ rest ctx d2 h (wfV_jsSet d ak v hd hv) hfl.2
          | cons v2 vtail2 =>
            simp only [aliasedGo, hrk] at h
            exact Except.noConfusion h
      | prim v =>
        simp only [aliasedGo, hrk] at h
        by_cases hse : jsStrictEq (d.jsGet ak) v = true
        · rw [if_pos hse] at h
          exact hAG d rest ctx d2 h hd hfl.2
        · rw [if_neg hse] at h
          exact hAG _ rest ctx d2 h (wfV_jsSet d ak v hd hfl.1) hfl.2
      | unode wq aq dq cq fq =>
        have hw0 := hfl.1
        simp only [wfU, Bool.and_eq_true] at hw0
        obtain ⟨haq, hdvw, hfq⟩ := hw0
        by_cases hoc : (d.jsGet ak).isContainer = true
        · simp only [aliasedGo, hrk] at h
          rw [if_pos hoc] at h
          rcases hua : updateAliased rx f (d.jsGet ak) (.unode wq aq dq cq fq) ctx
            with e | child
          · simp only [hua] at h
            exact Except.noConfusion h
          · simp only [hua] at h
            have hwc := hA (d.jsGet ak) _ ctx child hua (wfV_jsGet d ak hd) hfl.1
            exact hAG _ rest ctx d2 h (wfV_jsSet d ak child hd hwc) hfl.2
        · rcases wq with _ | w <;> rcases dq with _ | dv
          · simp only [aliasedGo, hrk, Bool.false_eq_true, if_false] at h
            rw [if_neg hoc] at h
            exact Except.noConfusion h
          · simp only [aliasedGo, hrk, Bool.false_eq_true, if_false] at h
            rw [if_neg hoc] at h
            by_cases hdt : dv.jsTruthy = true
            · rw [if_pos hdt] at h
              rcases hui : updateImpl rx f ((d.jsSet ak dv).jsGet ak)
                  (.unode none aq (some dv) cq fq) none ctx with e | ⟨child, subres⟩
              · simp only [hui] at h
                exact Except.noConfusion h
              · simp only [hui] at h
                have hwdv : wfV dv = true := hdvw
                have hwc := (hI ((d.jsSet ak dv).jsGet ak) _ none ctx child subres hui
                  (wfV_jsGet _ ak (wfV_jsSet d ak dv hd hwdv)) hfl.1 rfl).2.1
                exact hAG _ rest ctx d2 h
                  (wfV_jsSet _ ak child (wfV_jsSet d ak dv hd hwdv) hwc) hfl.2
            · rw [if_neg hdt] at h
              exact Except.noConfusion h
          · simp only [aliasedGo, hrk] at h
            rw [if_neg hoc] at h
            by_cases hwf : (predTruthy w && ! evalPredicate rx (d.jsGet ak) w) = true
            · rw [if_pos hwf] at h
              exact hAG d rest ctx d2 h hd hfl.2
            · rw [if_neg hwf] at h
              exact Except.noConfusion h
          · simp only [aliasedGo, hrk] at h
            rw [if_neg hoc] at h
            by_cases hwf : (predTruthy w && ! evalPredicate rx (d.jsGet ak) w) = true
            · rw [if_pos hwf] at h
              exact hAG d rest ctx d2 h hd hfl.2
            · rw [if_neg hwf] at h
              by_cases hdt : dv.jsTruthy = true
              · rw [if_pos hdt] at h
                rcases hui : updateImpl rx f ((d.jsSet ak dv).jsGet ak)
                    (.unode (some w) aq (some dv) cq fq) none ctx with e | ⟨child, subres⟩
                · simp only [hui] at h
                  exact Except.noConfusion h
                · simp only [hui] at h
                  have hwdv : wfV dv = true := hdvw
                  have hwc := (hI ((d.jsSet ak dv).jsGet ak) _ none ctx child subres hui
                    (wfV_jsGet _ ak (wfV_jsSet d ak dv hd hwdv)) hfl.1 rfl).2.1
                  exact hAG _ rest ctx d2 h
                    (wfV_jsSet _ ak child (wfV_jsSet d ak dv hd hwdv) hwc) hfl.2
              · rw [if_neg hdt] at h
                exact Except.noConfusion h

theorem cont_of_rt (a b : Value) (x y : Option CRec)
    (h : restoresTo (undoOpt a x) (undoOpt b y) = true) :
    b.isContainer = a.isContainer := by
  have h0 := restoresTo_isContainer _ _ h
  rw [undoOpt_isContainer, undoOpt_isContainer] at h0
  exact h0.symm

theorem step_key (rx : String → String → Bool) (f : Nat) (hI : IHimpl rx f)
    (hA : IHali rx f) : IHkey rx (f + 1) := by
  intro d ak op c ctx d2 c2 h hd hop hc
  obtain ⟨hnd, hen⟩ := wfCO_getD c hc
  by_cases hoc : (d.jsGet ak).isContainer = true
  · simp only [updateKeyObj] at h
    rw [if_neg (by simp [hoc])] at h
    rcases halk : alookup (c.getD []) ak with _ | e
    · simp only [halk] at h
      rcases hui : updateImpl rx f (d.jsGet ak) op none ctx with e0 | ⟨child, subres⟩
      · simp only [hui] at h
        exact Except.noConfusion h
      · simp only [hui] at h
        obtain ⟨hr1, hw1, hco1⟩ := hI (d.jsGet ak) op none ctx child subres hui
          (wfV_jsGet d ak hd) hop rfl
        rcases subres with _ | cn2
        · simp only [Except.ok.injEq, Prod.mk.injEq] at h
          obtain ⟨h1, h2⟩ := h
          subst h1
          subst h2
          refine ⟨?_, wfV_jsSet d ak child hd hw1, hc, fun hn => hn⟩
          rw [undoOpt_getD d c, undoOpt_getD (d.jsSet ak child) c]
          refine undo_step_noneC d child (c.getD []) ak none hd hnd hen ?_ hr1
            (cont_of_rt _ _ _ _ hr1)
          unfold subTie
          rw [halk]
          exact trivial
        · simp only [Except.ok.injEq, Prod.mk.injEq] at h
          obtain ⟨h1, h2⟩ := h
          subst h1
          subst h2
          have hwcn2 : wfC cn2 = true := hco1
          refine ⟨?_, wfV_jsSet d ak child hd hw1, ?_, fun hn => Option.noConfusion hn⟩
          · rw [undoOpt_getD d c]
            exact undo_step_nest d child (c.getD []) cn2 ak none hd hnd hen halk hr1
              (cont_of_rt _ _ _ _ hr1)
          · show wfC (aset (c.getD []) ak (.cnest cn2)) = true
            simp only [wfC, Bool.and_eq_true]
            exact ⟨nodupKeys_aset _ _ _ hnd, wfEntries_aset _ _ _ hen hwcn2⟩
    · cases e with
      | cnest cn =>
        simp only [halk] at h
        have hwcn : wfC cn = true := wfEntries_lookup _ _ _ hen halk
        rcases hui : updateImpl rx f (d.jsGet ak) op (some cn) ctx with e0 | ⟨child, subres⟩
        · simp only [hui] at h
          exact Except.noConfusion h
        · simp only [hui] at h
          obtain ⟨hr1, hw1, hco1⟩ := hI (d.jsGet ak) op (some cn) ctx child subres hui
            (wfV_jsGet d ak hd) hop hwcn
          rcases subres with _ | cn2
          · simp only [Except.ok.injEq, Prod.mk.injEq] at h
            obtain ⟨h1, h2⟩ := h
            subst h1
            subst h2
            refine ⟨?_, wfV_jsSet d ak child hd hw1, hc, fun hn => hn⟩
            rw [undoOpt_getD d c, undoOpt_getD (d.jsSet ak child) c]
            exact undo_step_noneC d child (c.getD []) ak (some cn) hd hnd hen halk hr1
              (cont_of_rt _ _ _ _ hr1)
          · simp only [Except.ok.injEq, Prod.mk.injEq] at h
            obtain ⟨h1, h2⟩ := h
            subst h1
            subst h2
            have hwcn2 : wfC cn2 = true := hco1
            refine ⟨?_, wfV_jsSet d ak child hd hw1, ?_, fun hn => Option.noConfusion hn⟩
            · rw [undoOpt_getD d c]
              exact undo_step_nest d child (c.getD []) cn2 ak (some cn) hd hnd hen halk hr1
                (cont_of_rt _ _ _ _ hr1)
            · show wfC (aset (c.getD []) ak (.cnest cn2)) = true
              simp only [wfC, Bool.and_eq_true]
              exact ⟨nodupKeys_aset _ _ _ hnd, wfEntries_aset _ _ _ hen hwcn2⟩
      | cset v o =>
        simp only [halk] at h
        have hwo : wfV o = true := wfEntries_lookup _ _ _ hen halk
        have ho : addValOrig (c.getD []) ak (d.jsGet ak) = o := by
          simp [addValOrig, halk]
        by_cases hvc : v.isContainer = true
        · rw [if_pos hvc] at h
          rcases hua : updateAliased rx f (d.jsGet ak) op ctx with e0 | child
          · simp only [hua] at h
            exact Except.noConfusion h
          · simp only [hua] at h
            simp only [Except.ok.injEq, Prod.mk.injEq] at h
            obtain ⟨h1, h2⟩ := h
            subst h1
            subst h2
            have hw1 : wfV child = true := hA (d.jsGet ak) op ctx child hua
              (wfV_jsGet d ak hd) hop
            refine ⟨?_, wfV_jsSet d ak child hd hw1, ?_, fun hn => Option.noConfusion hn⟩
            · rw [undoOpt_getD d c]
              show restoresTo (undoVal d (c.getD []))
                (undoVal (d.jsSet ak child)
                  (aset (c.getD []) ak (.cset ((d.jsSet ak child).jsGet ak) o))) = true
              rw [← ho]
              exact undo_step_direct d (d.jsSet ak child) (c.getD []) ak _ hd hnd hen
                (stepData_set d ak child)
            · show wfC (aset (c.getD []) ak (.cset ((d.jsSet ak child).jsGet ak) o)) = true
              simp only [wfC, Bool.and_eq_true]
              exact ⟨nodupKeys_aset _ _ _ hnd, wfEntries_aset _ _ _ hen hwo⟩
        · rw [if_neg hvc] at h
          by_cases hvt : v.jsTruthy = true
          · rw [if_pos hvt] at h
            exact Except.noConfusion h
          · rw [if_neg hvt] at h
            rcases hui : updateImpl rx f (d.jsGet ak) op none ctx with e0 | ⟨child, subres⟩
            · simp only [hui] at h
              exact Except.noConfusion h
            · simp only [hui] at h
              obtain ⟨hr1, hw1, hco1⟩ := hI (d.jsGet ak) op none ctx child subres hui
                (wfV_jsGet d ak hd) hop rfl
              rcases subres with _ | cn2
              · simp only [Except.ok.injEq, Prod.mk.injEq] at h
                obtain ⟨h1, h2⟩ := h
                subst h1
                subst h2
                refine ⟨?_, wfV_jsSet d ak child hd hw1, hc, fun hn => hn⟩
                rw [undoOpt_getD d c, undoOpt_getD (d.jsSet ak child) c]
                refine undo_step_noneC d child (c.getD []) ak none hd hnd hen ?_ hr1
                  (cont_of_rt _ _ _ _ hr1)
                unfold subTie
                rw [halk]
                exact trivial
              · simp only [Except.ok.injEq, Prod.mk.injEq] at h
                obtain ⟨h1, h2⟩ := h
                subst h1
                subst h2
                refine ⟨?_, wfV_jsSet d ak child hd hw1, ?_, fun hn => Option.noConfusion hn⟩
                · rw [undoOpt_getD d c]
                  show restoresTo (undoVal d (c.getD []))
                    (undoVal (d.jsSet ak child)
                      (aset (c.getD []) ak
                        (.cset ((d.jsSet ak child).jsGet ak) o))) = true
                  rw [← ho]
                  exact undo_step_direct d (d.jsSet ak child) (c.getD []) ak _ hd hnd hen
                    (stepData_set d ak child)
                · show wfC (aset (c.getD []) ak
                    (.cset ((d.jsSet ak child).jsGet ak) o)) = true
                  simp only [wfC, Bool.and_eq_true]
                  exact ⟨nodupKeys_aset _ _ _ hnd, wfEntries_aset _ _ _ hen hwo⟩
  · have hoc2 : (d.jsGet ak).isContainer = false := by
      simpa using hoc
    cases op with
    | prim v =>
      simp only [updateKeyObj, Bool.false_eq_true, if_false] at h
      rw [if_pos (by simp [hoc2])] at h
      exact Except.noConfusion h
    | arrOp vs =>
      simp only [updateKeyObj, Bool.false_eq_true, if_false] at h
      rw [if_pos (by simp [hoc2])] at h
      exact Except.noConfusion h
    | unode wq aq dq cq fq =>
      have hop2 := hop
      simp only [wfU, Bool.and_eq_true] at hop2
      obtain ⟨haq, hdvw, hflds⟩ := hop2
      have hdefault : ∀ dv : Value, dq = some dv →
          (if dv.jsTruthy = true then
            match updateImpl rx f ((d.jsSet ak dv).jsGet ak) (.unode wq aq dq cq fq)
                none ctx with
            | .error e => .error e
            | .ok (child, _) =>
              .ok ((d.jsSet ak dv).jsSet ak child,
                some (addValueChange c ak (d.jsGet ak)
                  (((d.jsSet ak dv).jsSet ak child).jsGet ak)))
          else (.error ("Can't partially update a non-object: " ++ ak) :
            Except String (Value × Option CRec))) = .ok (d2, c2) →
          restoresTo (undoOpt d c) (undoOpt d2 c2) = true ∧
            wfV d2 = true ∧ wfCO c2 = true ∧ (c2 = none → c = none) := by
        intro dv hdq h
        subst hdq
        have hwdv : wfV dv = true := hdvw
        by_cases hdt : dv.jsTruthy = true
        · rw [if_pos hdt] at h
          rcases hui : updateImpl rx f ((d.jsSet ak dv).jsGet ak)
              (.unode wq aq (some dv) cq fq) none ctx with e0 | ⟨child, subres⟩
          · simp only [hui] at h
            exact Except.noConfusion h
          · simp only [hui] at h
            simp only [Except.ok.injEq, Prod.mk.injEq] at h
            obtain ⟨h1, h2⟩ := h
            subst h1
            subst h2
            have hw1 : wfV child = true :=
              (hI ((d.jsSet ak dv).jsGet ak) _ none ctx child subres hui
                (wfV_jsGet _ ak (wfV_jsSet d ak dv hd hwdv)) hop rfl).2.1
            have hstep : stepData d ((d.jsSet ak dv).jsSet ak child) ak :=
              stepData_trans d (d.jsSet ak dv) ((d.jsSet ak dv).jsSet ak child) ak
                (stepData_set d ak dv) (stepData_set (d.jsSet ak dv) ak child)
            refine ⟨?_, wfV_jsSet _ ak child (wfV_jsSet d ak dv hd hwdv) hw1, ?_,
              fun hn => Option.noConfusion hn⟩
            · rw [undoOpt_getD d c,
                show undoOpt ((d.jsSet ak dv).jsSet ak child)
                    (some (addValueChange c ak (d.jsGet ak)
                      (((d.jsSet ak dv).jsSet ak child).jsGet ak))) =
                  undoVal ((d.jsSet ak dv).jsSet ak child)
                    (addValueChange c ak (d.jsGet ak)
                      (((d.jsSet ak dv).jsSet ak child).jsGet ak)) from rfl,
                addValueChange_eq]
              exact undo_step_direct d _ (c.getD []) ak _ hd hnd hen hstep
            · show wfCO (some (addValueChange c ak (d.jsGet ak)
                (((d.jsSet ak dv).jsSet ak child).jsGet ak))) = true
              rw [show wfCO (some (addValueChange c ak (d.jsGet ak)
                  (((d.jsSet ak dv).jsSet ak child).jsGet ak))) =
                wfC (addValueChange c ak (d.jsGet ak)
                  (((d.jsSet ak dv).jsSet ak child).jsGet ak)) from rfl,
                addValueChange_eq]
              simp only [wfC, Bool.and_eq_true]
              exact ⟨nodupKeys_aset _ _ _ hnd,
                wfEntries_aset _ _ _ hen (wfV_addValOrig _ _ _ hen (wfV_jsGet d ak hd))⟩
        · rw [if_neg hdt] at h
          exact Except.noConfusion h
      rcases wq with _ | w <;> rcases dq with _ | dv
      · simp only [updateKeyObj, Bool.false_eq_true, if_false] at h
        rw [if_pos (by simp [hoc2])] at h
        exact Except.noConfusion h
      · simp only [updateKeyObj, Bool.false_eq_true, if_false] at h
        rw [if_pos (by simp [hoc2])] at h
        exact hdefault dv rfl h
      · simp only [updateKeyObj] at h
        rw [if_pos (by simp [hoc2])] at h
        by_cases hwf : (predTruthy w && ! evalPredicate rx (d.jsGet ak) w) = true
        · rw [if_pos hwf] at h
          simp only [Except.ok.injEq, Prod.mk.injEq] at h
          obtain ⟨h1, h2⟩ := h
          subst h1
          subst h2
          exact ⟨restoresTo_refl _ (wfV_undoOpt d c hd hc), hd, hc, fun hn => hn⟩
        · rw [if_neg hwf] at h
          exact Except.noConfusion h
      · simp only [updateKeyObj] at h
        rw [if_pos (by simp [hoc2])] at h
        by_cases hwf : (predTruthy w && ! evalPredicate rx (d.jsGet ak) w) = true
        · rw [if_pos hwf] at h
          simp only [Except.ok.injEq, Prod.mk.injEq] at h
          obtain ⟨h1, h2⟩ := h
          subst h1
          subst h2
          exact ⟨restoresTo_refl _ (wfV_undoOpt d c hd hc), hd, hc, fun hn => hn⟩
        · rw [if_neg hwf] at h
          exact hdefault dv rfl h

/-- The five update-engine invariants hold at every fuel level. -/
theorem update_inv (rx : String → String → Bool) :
    ∀ f, IHimpl rx f ∧ IHgo rx f ∧ IHkey rx f ∧ IHali rx f ∧ IHaliGo rx f := by
  intro f
  induction f with
  | zero =>
    exact ⟨IHimpl_zero rx, IHgo_zero rx, IHkey_zero rx, IHali_zero rx, IHaliGo_zero rx⟩
  | succ n ih =>
    obtain ⟨hI, hG, hK, hA, hAG⟩ := ih
    exact ⟨step_impl rx n hG, step_go rx n hG hK, step_key rx n hI hA,
      step_ali rx n hAG, step_aliGo rx n hI hA hAG⟩

/-! ## Claim theorems -/

/-- C10: calling the update engine with an absent statement returns the
pair (unchanged data, absent record) — not the accumulated record `c` —
and a transaction step with an absent statement therefore drops every
change accumulated so far. -/
theorem c10_absent_statement (rx : String → String → Bool) (d : Value) (c : Option CRec) :
    update rx d none c = .ok (d, none) ∧ txUpdate rx (d, c) none = .ok (d, none) :=
  ⟨rfl, rfl⟩

/-- C2 counterexample: against a `null` (or `undefined`) value the
null-branch of `evalPredicate` runs first and returns false for the empty
record predicate `\x7b\x7d`, so the "vacuous AND is true for ALL values" half of
the claim fails at `v = null` and `v = undefined`. -/
theorem c2_counterexample :
    evalPredicate (fun _ _ => false) .null Pred.emptyNode = false ∧
    evalPredicate (fun _ _ => false) .undef Pred.emptyNode = false := by
  exact ⟨rfl, rfl⟩

/-- C2 (amended): the empty OR predicate `[]` evaluates false for every
value including `null`/`undefined`; the empty record predicate `\x7b\x7d`
evaluates true for every value that is not `null`/`undefined`, and false
on `null`/`undefined` (the null branch precedes the vacuous-AND rule). -/
theorem c2_vacuous_predicates :
    (∀ rx v, evalPredicate rx v (.por []) = false) ∧
    (∀ rx v, v.isNullish = false → evalPredicate rx v Pred.emptyNode = true) ∧
    (∀ rx, evalPredicate rx .null Pred.emptyNode = false ∧
      evalPredicate rx .undef Pred.emptyNode = false) := by
  refine ⟨fun rx v => evalPred_por_nil rx _ v, fun rx v h => ?_, fun rx => ⟨rfl, rfl⟩⟩
  have hp := predFuel_pos v Pred.emptyNode
  obtain ⟨f, hf⟩ : ∃ f, predFuel v Pred.emptyNode = f + 1 :=
    ⟨predFuel v Pred.emptyNode - 1, by omega⟩
  unfold evalPredicate
  rw [hf]
  exact evalPred_emptyNode rx f v h

/-- C2 witness. -/
theorem c2_vacuous_predicates_witness :
    evalPredicate (fun _ _ => false) (.num 7) (.por []) = false ∧
    evalPredicate (fun _ _ => false) (.num 7) Pred.emptyNode = true := by
  obtain ⟨h1, h2, _⟩ := c2_vacuous_predicates
  exact ⟨h1 _ (.num 7), h2 _ (.num 7) rfl⟩

/-- C4 (amended): the operative `predicate.ts` MATCH consults the
regular-expression test only on string values and passes the predicate
string through undecoded (there is no `/pattern/flags` splitting: the
`toSearchCriteria` decoder lives only in the dormant `part_003` snapshot
and the pattern reaches `RegExp` raw); on non-string primitives
(including `null` and `undefined`) MATCH evaluates false, and on objects
and arrays it evaluates true, because the MATCH operator key is
invisible to the container key walk, leaving a vacuous conjunction. -/
theorem c4_match_operator :
    (∀ rx pat s, evalPredicate rx (.str s) (matchPred pat) = rx pat s) ∧
    (∀ rx pat v, Value.isStr v = false → Value.isContainer v = false →
      evalPredicate rx v (matchPred pat) = false) ∧
    (∀ rx pat v, Value.isContainer v = true →
      evalPredicate rx v (matchPred pat) = true) := by
  refine ⟨?_, ?_, ?_⟩
  · intro rx pat s
    have hp := predFuel_pos (.str s) (matchPred pat)
    obtain ⟨f, hf⟩ : ∃ f, predFuel (.str s) (matchPred pat) = f + 1 :=
      ⟨predFuel (.str s) (matchPred pat) - 1, by omega⟩
    unfold evalPredicate
    rw [hf]
    exact evalPred_matchPred_str rx f pat s
  · intro rx pat v h1 h2
    have hp := predFuel_pos v (matchPred pat)
    obtain ⟨f, hf⟩ : ∃ f, predFuel v (matchPred pat) = f + 1 :=
      ⟨predFuel v (matchPred pat) - 1, by omega⟩
    unfold evalPredicate
    rw [hf]
    exact evalPred_matchPred_prim rx f pat v h1 h2
  · intro rx pat v hv
    have h3 : 3 ≤ predFuel v (matchPred pat) := by
      unfold predFuel
      have h0 := Nat.mul_le_mul (Nat.le_add_left 2 (sizeV v + sizeP (matchPred pat)))
        (Nat.le_add_left 2 (sizeV v + sizeP (matchPred pat)))
      calc (3 : Nat) ≤ 2 * 2 := by norm_num
        _ ≤ _ := h0
    obtain ⟨f, hf⟩ : ∃ f, predFuel v (matchPred pat) = f + 3 :=
      ⟨predFuel v (matchPred pat) - 3, by omega⟩
    unfold evalPredicate
    rw [hf]
    exact evalPred_matchPred_container rx f pat v hv

/-- C4 witness. -/
theorem c4_match_operator_witness :
    evalPredicate (fun p s => p == "/^admin/i" && s == "Admin") (.str "Admin")
      (matchPred "/^admin/i") = true ∧
    evalPredicate (fun _ _ => true) (.bool true) (matchPred "x") = false ∧
    evalPredicate (fun _ _ => false) (.obj [("a", .num 1)]) (matchPred "x") = true := by
  obtain ⟨h1, h2, h3⟩ := c4_match_operator
  refine ⟨?_, h2 (fun _ _ => true) "x" (.bool true) rfl rfl,
    h3 (fun _ _ => false) "x" (.obj [("a", .num 1)]) rfl⟩
  rw [h1 (fun p s => p == "/^admin/i" && s == "Admin") "/^admin/i" "Admin"]
  decide

/-- C4 counterexample: `/^admin/i` is not decoded by the operative
evaluator — an engine recognising only the decoded pattern `^admin` is
never consulted (the test is false), while the raw string `/^admin/i` is
exactly what reaches the engine — and MATCH against a container value
(a non-string) evaluates true, not false. -/
theorem c4_counterexample :
    evalPredicate (fun p _ => p == "^admin") (.str "Admin")
      (matchPred "/^admin/i") = false ∧
    evalPredicate (fun p s => p == "/^admin/i" && s == "Admin") (.str "Admin")
      (matchPred "/^admin/i") = true ∧
    evalPredicate (fun _ _ => false) (.obj []) (matchPred "x") = true := by
  exact ⟨by decide, by decide, by decide⟩

/-- C9: the select engine never mutates its input: the data component
threaded through `selectImpl` (which reflects every write the source
could make into `data`) is returned unchanged — syntactically equal, so
in particular deep-equal — for every fuel, data value and statement. -/
theorem c9_select_no_mutation (rx : String → String → Bool) (fuel : Nat) (d : Value)
    (s : SStmt) : (selectImpl rx fuel d s).1 = d :=
  (sel_fst_all rx fuel).1 d s

/-- C3: evaluating the DEEP_ALL multi-field projection of
`tests/deep-all.test.ts` ("should project multiple fields independently"):
the engine returns only the node that carries all the listed fields
simultaneously (`jane`), deep-unequal to the independently-projected
result the test and the spec sentence describe (`john` and `bob` are
dropped), because the synthesised WHERE predicate conjoins
`\x7b [NOT]: undefined \x7d` over every listed field and a failing node
re-enters with `\x7b [DEEP_ALL]: ... \x7d`, which collects nothing from
primitive-valued children. -/
theorem c3_deep_all_eval :
    select (fun _ _ => false) deepAllTestData deepAllTestStmt = some deepAllActual ∧
    deepEq deepAllActual deepAllExpected = false ∧
    deepEq deepAllExpected deepAllExpected = true :=
  ⟨rfl, by decide, by decide⟩

/-- C5: the recorded original of a key is written at the key's first
tracked mutation and never overwritten: (1) a repeated change to a key
whose entry is a direct change keeps the recorded original and stores the
new value; (2) the first mutation of a key records the value present
before it; (3) when the prior value is a container with pending nested
tracked changes, those changes are reverted (`undoImpl`) before the
original is snapshotted; (4) across two update calls threading one
record, the final entry holds the second value together with the value
present before the first call. -/
theorem c5_first_original :
    (∀ (c : CRec) k oldV newV v o, alookup c k = some (.cset v o) →
      alookup (addValueChange (some c) k oldV newV) k = some (.cset newV o)) ∧
    (∀ (c : Option CRec) k oldV newV, alookup (c.getD []) k = none →
      alookup (addValueChange c k oldV newV) k = some (.cset newV oldV)) ∧
    (∀ (c : CRec) k oldV newV cn, alookup c k = some (.cnest cn) →
      oldV.isContainer = true →
      alookup (addValueChange (some c) k oldV newV) k =
        some (.cset newV (undoVal oldV cn))) ∧
    (∀ rx (fs : List (String × Value)) k v1 v2,
      jsStrictEq ((Value.obj fs).jsGet k) v1 = false →
      jsStrictEq v1 v2 = false →
      ∃ c1 c2,
        update rx (.obj fs) (some (.unode none none none none [(k, .prim v1)])) none =
          .ok ((Value.obj fs).jsSet k v1, some c1) ∧
        txUpdate rx ((Value.obj fs).jsSet k v1, some c1)
          (some (.unode none none none none [(k, .prim v2)])) =
          .ok (((Value.obj fs).jsSet k v1).jsSet k v2, some c2) ∧
        alookup c1 k = some (.cset v1 ((Value.obj fs).jsGet k)) ∧
        alookup c2 k = some (.cset v2 ((Value.obj fs).jsGet k))) := by
  refine ⟨fun c k oldV newV v o h => addValueChange_cset c k oldV newV v o h,
    fun c k oldV newV h => addValueChange_first c k oldV newV h,
    fun c k oldV newV cn h hc => addValueChange_cnest c k oldV newV cn h hc, ?_⟩
  · intro rx fs k v1 v2 h1 h2
    have hold2 : ((Value.obj fs).jsSet k v1).jsGet k = v1 := jsGet_jsSet_same_obj fs k v1
    refine ⟨addValueChange none k ((Value.obj fs).jsGet k)
        (((Value.obj fs).jsSet k v1).jsGet k),
      addValueChange (some (addValueChange none k ((Value.obj fs).jsGet k)
        (((Value.obj fs).jsSet k v1).jsGet k))) k (((Value.obj fs).jsSet k v1).jsGet k)
        ((((Value.obj fs).jsSet k v1).jsSet k v2).jsGet k), ?_, ?_, ?_, ?_⟩
    · have h4 : 2 * 2 ≤ updFuel (.obj fs) (.unode none none none none [(k, .prim v1)]) :=
        Nat.mul_le_mul (by omega) (by omega)
      obtain ⟨f, hf⟩ : ∃ f, updFuel (.obj fs)
          (.unode none none none none [(k, .prim v1)]) = f + 1 + 1 + 1 :=
        ⟨updFuel (.obj fs) (.unode none none none none [(k, .prim v1)]) - 3, by omega⟩
      show updateImpl rx (updFuel (.obj fs) (.unode none none none none [(k, .prim v1)]))
          (.obj fs) (.unode none none none none [(k, .prim v1)]) none none = _
      rw [hf]
      simp only [updateImpl, UStmt.truthy, Bool.not_true, Bool.false_eq_true, if_false,
        orderForIn_single]
      rw [updateGo_single_prim rx f fs k v1 none none h1]
    · have h4 : 2 * 2 ≤ updFuel ((Value.obj fs).jsSet k v1)
          (.unode none none none none [(k, .prim v2)]) :=
        Nat.mul_le_mul (by omega) (by omega)
      obtain ⟨f, hf⟩ : ∃ f, updFuel ((Value.obj fs).jsSet k v1)
          (.unode none none none none [(k, .prim v2)]) = f + 1 + 1 + 1 :=
        ⟨updFuel ((Value.obj fs).jsSet k v1)
          (.unode none none none none [(k, .prim v2)]) - 3, by omega⟩
      show updateImpl rx (updFuel ((Value.obj fs).jsSet k v1)
          (.unode none none none none [(k, .prim v2)])) ((Value.obj fs).jsSet k v1)
          (.unode none none none none [(k, .prim v2)]) _ none = _
      rw [hf]
      simp only [updateImpl, UStmt.truthy, Bool.not_true, Bool.false_eq_true, if_false,
        orderForIn_single]
      have hne2 : jsStrictEq (((Value.obj fs).jsSet k v1).jsGet k) v2 = false := by
        rw [hold2]
        exact h2
      rw [show (Value.obj fs).jsSet k v1 = Value.obj (aset fs k v1) from rfl] at hne2 ⊢
      rw [updateGo_single_prim rx f (aset fs k v1) k v2 _ none hne2]
    · simp [addValueChange, alookup, hold2, alookup_aset_self]
    · have hB : alookup (addValueChange none k ((Value.obj fs).jsGet k)
          (((Value.obj fs).jsSet k v1).jsGet k)) k =
          some (.cset v1 ((Value.obj fs).jsGet k)) := by
        simp [addValueChange, alookup, hold2, alookup_aset_self]
      have hD := addValueChange_cset _ k (((Value.obj fs).jsSet k v1).jsGet k)
        ((((Value.obj fs).jsSet k v1).jsSet k v2).jsGet k) v1 ((Value.obj fs).jsGet k) hB
      have hv2 : (((Value.obj fs).jsSet k v1).jsSet k v2).jsGet k = v2 :=
        jsGet_jsSet_same_obj (aset fs k v1) k v2
      rw [hv2] at hD
      rw [hv2]
      exact hD

/-- C5 witness. -/
theorem c5_first_original_witness :
    alookup (addValueChange (some [("k", CEntry.cset (.num 5) (.num 1))]) "k"
      (.num 5) (.num 9)) "k" = some (.cset (.num 9) (.num 1)) ∧
    alookup (addValueChange none "k" (.num 1) (.num 2)) "k" =
      some (.cset (.num 2) (.num 1)) := by
  obtain ⟨ha, hb, hc, hd⟩ := c5_first_original
  exact ⟨ha [("k", CEntry.cset (.num 5) (.num 1))] "k" (.num 5) (.num 9) (.num 5) (.num 1) rfl,
    hb none "k" (.num 1) (.num 2) rfl⟩

/-- C6: selecting an array position by an explicit index key yields a
sparse array — every position below the addressed index remains an absent
hole; whereas whenever an ALL sub-statement is present (in particular an
ALL carrying a WHERE that filters elements) any array result is compacted
dense: it contains no holes, the filtered-out elements being excluded
rather than left as holes (third conjunct: a concrete WHERE-filtered ALL
keeps exactly the passing elements, reindexed). -/
theorem c6_sparse_vs_dense :
    (∀ rx es ps i, i < 2 ^ 32 - 1 →
      select rx (.arr es ps) (.node none none none [(natToStr i, .sbool true)]) =
        some (.arr (List.replicate i none ++ [some ((es.getD i none).getD .undef)]) [])) ∧
    (∀ rx d dA al wh es' ps',
      select rx d (.node dA (some al) wh []) = some (.arr es' ps') →
      es'.all Option.isSome = true) ∧
    (select (fun _ _ => false)
      (.arr [some (.num 1), some (.num 2), some (.num 3), some (.num 4)] [])
      (.node none (some (.node none none
        (some (.wfn fun v => match v with | .num n => decide (3 ≤ n) | _ => false)) []))
        none []) =
      some (.arr [some (.num 3), some (.num 4)] [])) := by
  refine ⟨?_, ?_, rfl⟩
  · intro rx es ps i hi
    have h4 : 2 * 2 ≤ selFuel (.arr es ps) (.node none none none [(natToStr i, .sbool true)]) :=
      Nat.mul_le_mul (by omega) (by omega)
    obtain ⟨f, hf⟩ : ∃ f, selFuel (.arr es ps)
        (.node none none none [(natToStr i, .sbool true)]) = f + 1 + 1 + 1 :=
      ⟨selFuel (.arr es ps) (.node none none none [(natToStr i, .sbool true)]) - 3, by omega⟩
    have hadd : selAdd rx (f + 1) (.arr es ps) (natToStr i) (.sbool true) none =
        (.arr es ps,
          some (.arr (List.replicate i none ++ [some ((es.getD i none).getD .undef)]) [])) := by
      simp only [selAdd, strToNumber_natToStr]
      have hneg : decide ((i : Int) < 0) = false := by simp
      simp only [hneg, Bool.false_eq_true, if_false, initRes, Value.jsGet, Value.jsSet,
        canonIndex_natToStr i hi]
      simp
    show (selectImpl rx (selFuel (.arr es ps)
        (.node none none none [(natToStr i, .sbool true)])) (.arr es ps)
        (.node none none none [(natToStr i, .sbool true)])).2 = _
    rw [hf]
    simp only [selectImpl, Value.isContainer, Bool.not_true, Bool.false_eq_true, if_false,
      compactRes]
    simp only [selRest, selRest_nil, hadd]
  · intro rx d dA al wh es' ps' h
    have hp : 0 < selFuel d (.node dA (some al) wh []) :=
      Nat.mul_pos (by omega) (by omega)
    obtain ⟨f, hf⟩ : ∃ f, selFuel d (.node dA (some al) wh []) = f + 1 :=
      ⟨selFuel d (.node dA (some al) wh []) - 1, by omega⟩
    rw [show select rx d (.node dA (some al) wh []) =
      (selectImpl rx (selFuel d (.node dA (some al) wh [])) d (.node dA (some al) wh [])).2
      from rfl, hf] at h
    exact selectImpl_all_dense rx f d dA al wh es' ps' h

/-- C6 witness. -/
theorem c6_sparse_vs_dense_witness :
    select (fun _ _ => false) (.arr [some (.num 7), some (.num 8)] [])
      (.node none none none [(natToStr 1, .sbool true)]) =
      some (.arr [none, some (.num 8)] []) ∧
    [some (Value.num 3), some (Value.num 4)].all Option.isSome = true := by
  obtain ⟨h1, h2, h3⟩ := c6_sparse_vs_dense
  constructor
  · have e := h1 (fun _ _ => false) [some (.num 7), some (.num 8)] [] 1 (by decide)
    simpa using e
  · exact h2 (fun _ _ => false)
      (.arr [some (.num 1), some (.num 2), some (.num 3), some (.num 4)] [])
      none (.node none none
        (some (.wfn fun v => match v with | .num n => decide (3 ≤ n) | _ => false)) [])
      none _ _ h3

/-- C7 counterexample: a record-shaped operand with no DEFAULT against a
non-record current value raises no error when it carries a WHERE whose
predicate fails on the current value — the key is skipped silently and an
absent ChangeRecord is returned to the caller, contradicting the claim's
unconditional "raises a usage error". -/
theorem c7_counterexample :
    update (fun _ _ => false) (.obj [("k", .num 1)])
      (some (.unode none none none none
        [("k", .unode (some (.node (some (.num 2)) none none none none none none
            none none none [])) none none none [("a", .prim (.num 5))])])) none =
      .ok (.obj [("k", .num 1)], none) := rfl

/-- C7 (amended): against a record `d` whose value at `k` is not a
container, an update whose operand for `k` is record-shaped, carries no
DEFAULT and no WHERE raises the usage error
`Can't partially update a non-object` synchronously instead of returning
a ChangeRecord; if the operand carries a WHERE that fails on the current
value, the key is skipped with no error. -/
theorem c7_partial_update_error (rx : String → String → Bool) (fs : List (String × Value))
    (k : String) (aq : Option UStmt) (cq : Option (List (String × Value)))
    (fq : List (String × UStmt)) (c : Option CRec)
    (hnc : ((Value.obj fs).jsGet k).isContainer = false) :
    update rx (.obj fs)
      (some (.unode none none none none [(k, .unode none aq none cq fq)])) c =
      .error ("Can't partially update a non-object: " ++ k) := by
  have h4 : 2 * 2 ≤ updFuel (.obj fs)
      (.unode none none none none [(k, .unode none aq none cq fq)]) :=
    Nat.mul_le_mul (by omega) (by omega)
  obtain ⟨f, hf⟩ : ∃ f, updFuel (.obj fs)
      (.unode none none none none [(k, .unode none aq none cq fq)]) = f + 1 + 1 + 1 :=
    ⟨updFuel (.obj fs) (.unode none none none none [(k, .unode none aq none cq fq)]) - 3,
      by omega⟩
  show updateImpl rx (updFuel (.obj fs)
      (.unode none none none none [(k, .unode none aq none cq fq)])) (.obj fs)
      (.unode none none none none [(k, .unode none aq none cq fq)]) c none = _
  rw [hf]
  simp only [updateImpl, UStmt.truthy, Bool.not_true, Bool.false_eq_true, if_false,
    orderForIn_single]
  simp only [updateGo, resolveKey]
  rw [updateKeyObj_nonobj_err rx f _ k _ aq cq fq c none hnc]

/-- C7 witness. -/
theorem c7_partial_update_error_witness :
    update (fun _ _ => false) (.obj [("k", .num 1)])
      (some (.unode none none none none
        [("k", .unode none none none none [("a", .prim (.num 5))])])) none =
      .error ("Can't partially update a non-object: " ++ "k") :=
  c7_partial_update_error (fun _ _ => false) [("k", .num 1)] "k" none none
    [("a", .prim (.num 5))] none (by decide)

/-- C8 counterexample: a statement whose string key `"*"` collides with
the ALL marker is turned into the ALL symbol key by `fromJSON`, so the
round trip is not deep-equal to the original statement. -/
theorem c8_counterexample :
    deepEqJ (fromJSON (toJSON (.jobj [(.strk "*", .jnum 1)])))
      (.jobj [(.strk "*", .jnum 1)]) = false := by
  decide

/-- C8 (amended): for every function-free statement tree none of whose
string keys equals a reserved marker, `fromJSON (toJSON s)` is `s` itself
(and hence deep-equal to `s`); a string key colliding with a marker is
re-interpreted as the corresponding symbol, breaking the round trip. -/
theorem c8_serialization_roundtrip (s : JTree) (h : noMarkerKeys s = true) :
    fromJSON (toJSON s) = s :=
  fromJSON_toJSON s h

/-- C8 witness. -/
theorem c8_serialization_roundtrip_witness :
    noMarkerKeys (JTree.jobj [(.strk "name", .jstr "a"),
      (.sym .tWhere, .jobj [(.strk "age", .jnum 1)])]) = true ∧
    fromJSON (toJSON (JTree.jobj [(.strk "name", .jstr "a"),
      (.sym .tWhere, .jobj [(.strk "age", .jnum 1)])])) =
      JTree.jobj [(.strk "name", .jstr "a"),
        (.sym .tWhere, .jobj [(.strk "age", .jnum 1)])] :=
  ⟨by decide, c8_serialization_roundtrip _ (by decide)⟩

/-- C1 counterexample: updating `[1, 2]` with `\x7b "5": [] \x7d` (delete
the out-of-range index 5) returns a non-absent ChangeRecord, but undoing
it writes `data[5] = undefined`, growing the array to length 6 with
holes at 2-4 and an explicit `undefined` at 5 — not deep-equal to the
original value; the restoration is exact only up to that blank padding
(`restoresTo`). -/
theorem c1_counterexample :
    update (fun _ _ => false) (Value.arr [some (.num 1), some (.num 2)] [])
      (some (.unode none none none none [("5", .arrOp [])])) none =
      .ok (Value.arr [some (.num 1), some (.num 2)] [],
        some [("5", .cset .undef .undef)]) ∧
    undoVal (Value.arr [some (.num 1), some (.num 2)] [])
      [("5", .cset .undef .undef)] =
      Value.arr [some (.num 1), some (.num 2), none, none, none, some .undef] [] ∧
    deepEq (Value.arr [some (.num 1), some (.num 2)] [])
      (Value.arr [some (.num 1), some (.num 2), none, none, none, some .undef] []) =
      false ∧
    restoresTo (Value.arr [some (.num 1), some (.num 2)] [])
      (Value.arr [some (.num 1), some (.num 2), none, none, none, some .undef] []) =
      true := by
  exact ⟨rfl, rfl, by decide, by decide⟩

/-- C1 (amended): for every well-formed data value `d` and well-formed
update statement `st`, if `update d st` (with no prior record) succeeds
with a non-absent ChangeRecord `en`, then undoing the returned data with
`en` restores `d` up to the padding undo can introduce (`restoresTo`): a
key undo re-creates may hold an explicit `undefined` where it was absent,
and an array may have grown by blank slots.  Exact deep equality fails in
general (see the counterexample), so the round trip holds up to this
blank padding and not further. -/
theorem c1_undo_roundtrip (rx : String → String → Bool) (d : Value) (st : UStmt)
    (d2 : Value) (en : CRec) (hd : wfV d = true) (hst : wfU st = true)
    (h : update rx d (some st) none = .ok (d2, some en)) :
    restoresTo d (undoVal d2 en) = true := by
  have hinv := (update_inv rx (updFuel d st)).1
  have h2 : updateImpl rx (updFuel d st) d st none none = .ok (d2, some en) := h
  obtain ⟨hr, _, _⟩ := hinv d st none none d2 (some en) h2 hd hst rfl
  exact hr

/-- C1 witness. -/
theorem c1_undo_roundtrip_witness :
    restoresTo (Value.obj [("a", .num 1)])
      (undoVal (Value.obj [("a", .num 2)]) [("a", .cset (.num 2) (.num 1))]) = true :=
  c1_undo_roundtrip (fun _ _ => false) (Value.obj [("a", .num 1)])
    (.unode none none none none [("a", .prim (.num 2))])
    (Value.obj [("a", .num 2)]) [("a", .cset (.num 2) (.num 1))]
    (by decide) (by decide) rfl

end Tsqn
